import Mathlib

/-!
# Ford-Fulkerson with breadth-first augmenting paths (`Fordfulkersonalgo.cpp`)

A shallow embedding of the three functions of the C++ file and a verification
of the properties stated about them.

Modelling conventions.

* `vector< vector<int> >` is `List (List Int)`, `vector<int>` is `List Int`, the
  array `bool visited[n]` is `List Bool`, `queue<int>` is a `List Nat` used
  first-in first-out (`push` appends, `front`/`pop` take the head).
* A C++ `int` is an `Int` in `[-2^31, 2^31)`; vertex indices are `Nat`.  The
  program's arithmetic (`-=`, `+=` on residual entries and on `maxflow`) is
  embedded with every result reduced to 32 bits by `wrap32`: the functions
  `pushEdge32`, `augment32`, `loopBody32`, `ffLoop32` and `FordFulkerson32`.
  `BFS` and the first parent walk only compare and copy values.  The functions
  without the suffix compute the same over unbounded integers; they serve as
  the reference with which the 32-bit functions are compared, and the two agree
  under the bounds that exclude overflow.
* A counted `for` loop is a fold over `List.range n`.  A `while` loop takes a
  fuel argument that bounds the number of executions of its body and answers
  `none` when the bound is hit; the theorems show that a finite amount of fuel
  always suffices on valid inputs.
* Reading a vector outside its bounds is undefined behaviour in C++.  The
  accessors below are total (they answer `0`, `-1` or `false` there and a write
  is dropped), and every theorem that speaks about a run assumes indices in
  range.  `BFSChecked` is `BFS` with every access checked; it agrees with `BFS`
  on a square table with indices in range and reports the access out of bounds
  otherwise.
* `FordFulkerson` takes its three parameters by reference.  `FordFulkersonCall`
  runs the statements of the function on a memory that holds the caller's
  objects next to the locals.
-/

namespace MaxFlow

/-! ## Data model -/

/-- The type `vector< vector<int> >` of capacity and residual tables. -/
abbrev Matrix := List (List Int)

/-- The read `M[u][v]`. -/
def rd (M : Matrix) (u v : Nat) : Int := (M.getD u []).getD v 0

/-- The write `M[u][v] = x`. -/
def wr (M : Matrix) (u v : Nat) (x : Int) : Matrix :=
  M.set u ((M.getD u []).set v x)

/-- A table is an `n × n` square. -/
def Square (n : Nat) (M : Matrix) : Prop :=
  M.length = n ∧ ∀ row ∈ M, row.length = n

/-! ## `FormAdjMatrix` -/

/-- The row built by the inner loop `for j < n: adjMatrix[i].push_back(0)`. -/
def zeroRow (n : Nat) : List Int :=
  (List.range n).foldl (fun row _ => row ++ [0]) []

/-- The example graph of `FormAdjMatrix()`: a 6 × 6 table of zeros, then the ten
assignments of the source in their order. -/
def FormAdjMatrix : Matrix :=
  let n := 6
  let m0 : Matrix := (List.range n).foldl (fun M _ => M ++ [zeroRow n]) []
  let m1 := wr m0 0 1 15
  let m2 := wr m1 0 2 12
  let m3 := wr m2 1 2 9
  let m4 := wr m3 1 3 11
  let m5 := wr m4 2 1 5
  let m6 := wr m5 2 4 13
  let m7 := wr m6 3 2 9
  let m8 := wr m7 3 5 25
  let m9 := wr m8 4 3 8
  wr m9 4 5 6

/-! ## `BFS` -/

/-- The local state of `BFS`: the queue, the parent vector (passed by reference)
and the visited array. -/
structure BFSState where
  q : List Nat
  parent : List Int
  visited : List Bool

/-- One pass of the body of `for(int i = 0; i < n; i++)` for neighbour `v` of the
dequeued vertex `u`. -/
def scanStep (res : Matrix) (u : Nat) (st : BFSState) (v : Nat) : BFSState :=
  if st.visited.getD v false = false ∧ rd res u v > 0 then
    { q := st.q ++ [v], parent := st.parent.set v (u : Int),
      visited := st.visited.set v true }
  else st

/-- The whole neighbour scan of one dequeued vertex `u`. -/
def scan (res : Matrix) (n u : Nat) (st : BFSState) : BFSState :=
  (List.range n).foldl (scanStep res u) st

/-- The loop `while(q.empty() == false)`; `fuel` bounds the number of dequeued
vertices. -/
def bfsLoop (res : Matrix) (n : Nat) : Nat → BFSState → Option BFSState
  | 0, st =>
    match st.q with
    | [] => some st
    | _ :: _ => none
  | fuel + 1, st =>
    match st.q with
    | [] => some st
    | u :: rest => bfsLoop res n fuel (scan res n u { st with q := rest })

/-- The state of `BFS` when its while loop is entered. -/
def bfsInit (res : Matrix) (source : Nat) (parent : List Int) : BFSState :=
  { q := [source],
    visited := (List.replicate res.length false).set source true,
    parent := parent.set source (-1) }

/-- The state of `BFS` when its while loop exits. -/
def bfsRun (fuel : Nat) (res : Matrix) (source : Nat) (parent : List Int) :
    Option BFSState :=
  bfsLoop res res.length fuel (bfsInit res source parent)

/-- The function `BFS`: the returned boolean `visited[sink]` together with the
parent vector it leaves behind. -/
def BFS (fuel : Nat) (res : Matrix) (source sink : Nat) (parent : List Int) :
    Option (Bool × List Int) :=
  (bfsRun fuel res source parent).map
    (fun st => (st.visited.getD sink false, st.parent))

/-! ## `FordFulkerson` -/

/-- The state of the main loop of `FordFulkerson`. -/
structure FFState where
  res : Matrix
  parent : List Int
  maxflow : Int

/-- The copy loop at the head of `FordFulkerson`: one row per `i < n`, one
`push_back(adjMatrix[i][j])` per `j < adjMatrix[i].size()`. -/
def copyMatrix (adjMatrix : Matrix) : Matrix :=
  (List.range adjMatrix.length).foldl
    (fun R i => R ++ [(List.range (adjMatrix.getD i []).length).foldl
      (fun row j => row ++ [rd adjMatrix i j]) []]) []

/-- The loop `for i < n: parent.push_back(-1)`. -/
def initParent (n : Nat) : List Int :=
  (List.range n).foldl (fun p _ => p ++ [-1]) []

/-- The vertex `u = parent[v]` read during a walk. -/
def parentOf (parent : List Int) (v : Nat) : Nat := (parent.getD v (-1)).toNat

/-- The first walk from `sink` back to `source`: `pathflow = min(pathflow,
resAdjMatrix[parent[v]][v])` on every edge. -/
def bottleneck (res : Matrix) (parent : List Int) (source : Nat) :
    Nat → Nat → Int → Option Int
  | 0, v, pathflow => if v = source then some pathflow else none
  | fuel + 1, v, pathflow =>
    if v = source then some pathflow
    else
      let u := parentOf parent v
      bottleneck res parent source fuel u (min pathflow (rd res u v))

/-- The two assignments `resAdjMatrix[u][v] -= pathflow` and
`resAdjMatrix[v][u] += pathflow`, computed over unbounded integers.  This is
the reference arithmetic; what the program computes in 32-bit `int` is
`pushEdge32`. -/
def pushEdge (res : Matrix) (u v : Nat) (pathflow : Int) : Matrix :=
  let r1 := wr res u v (rd res u v - pathflow)
  wr r1 v u (rd r1 v u + pathflow)

/-- The second walk from `sink` back to `source`, updating the residual table,
over unbounded integers (the program's walk is `augment32`). -/
def augment (parent : List Int) (source : Nat) (pathflow : Int) :
    Nat → Nat → Matrix → Option Matrix
  | 0, v, res => if v = source then some res else none
  | fuel + 1, v, res =>
    if v = source then some res
    else
      let u := parentOf parent v
      augment parent source pathflow fuel u (pushEdge res u v pathflow)

/-- One evaluation of the loop condition `BFS(...) == true` and, when it holds,
of the loop body.  The boolean is the value of the condition; the state is the
one after the call of `BFS` (which has rewritten `parent`) when the condition
is false, and the one after the augmentation when it is true.  `bfsFuel` is
the fuel of the while loop of `BFS`, `walkFuel` the fuel of each of the two
parent walks.  The augmentation and `maxflow += pathflow` are computed over
unbounded integers; the program's iteration in 32-bit `int` is `loopBody32`. -/
def loopBody (bfsFuel walkFuel source sink : Nat) (st : FFState) :
    Option (Bool × FFState) :=
  match BFS bfsFuel st.res source sink st.parent with
  | none => none
  | some (false, parent) => some (false, { st with parent := parent })
  | some (true, parent) =>
    match bottleneck st.res parent source walkFuel sink 10000007 with
    | none => none
    | some pathflow =>
      match augment parent source pathflow walkFuel sink st.res with
      | none => none
      | some res =>
        some (true, { res := res, parent := parent, maxflow := st.maxflow + pathflow })

/-- The loop `while(BFS(...) == true)` over unbounded integers: the state in
which it exits.  The counted argument bounds the number of augmentations.  The
program's loop in 32-bit `int` is `ffLoop32`. -/
def ffLoop (bfsFuel walkFuel source sink : Nat) : Nat → FFState → Option FFState
  | 0, st =>
    match loopBody bfsFuel walkFuel source sink st with
    | some (false, st') => some st'
    | _ => none
  | fuel + 1, st =>
    match loopBody bfsFuel walkFuel source sink st with
    | none => none
    | some (false, st') => some st'
    | some (true, st') => ffLoop bfsFuel walkFuel source sink fuel st'

/-- The state of `FordFulkerson` when its main loop is entered. -/
def ffInit (adjMatrix : Matrix) : FFState :=
  { res := copyMatrix adjMatrix, parent := initParent adjMatrix.length, maxflow := 0 }

/-- The state of `FordFulkerson` when its main loop exits, over unbounded
integers. -/
def ffRun (fuel : Nat) (adjMatrix : Matrix) (source sink : Nat) : Option FFState :=
  ffLoop fuel fuel source sink fuel (ffInit adjMatrix)

/-- The function `FordFulkerson` computed over unbounded integers: the returned
`maxflow`.  It agrees with the program, whose arithmetic is 32-bit `int`
(`FordFulkerson32`), as long as no value leaves the `int` range. -/
def FordFulkerson (fuel : Nat) (adjMatrix : Matrix) (source sink : Nat) : Option Int :=
  (ffRun fuel adjMatrix source sink).map (fun st => st.maxflow)

/-! ## Specification vocabulary -/

/-- Every entry of the table is non-negative. -/
def NonNeg (M : Matrix) : Prop := ∀ row ∈ M, ∀ x ∈ row, 0 ≤ x

instance (M : Matrix) : Decidable (NonNeg M) := by
  unfold NonNeg; infer_instance

instance (n : Nat) (M : Matrix) : Decidable (Square n M) := by
  unfold Square; infer_instance

/-- An edge of strictly positive entry between two vertices of `[0, n)`. -/
def Edge (res : Matrix) (n u v : Nat) : Prop := u < n ∧ v < n ∧ 0 < rd res u v

/-- Vertex `v` can be reached from `u` along edges of strictly positive entry. -/
def Reach (res : Matrix) (n : Nat) : Nat → Nat → Prop :=
  Relation.ReflTransGen (Edge res n)

/-- Reachability when the direction of the edges is ignored. -/
def WeakReach (res : Matrix) (n : Nat) : Nat → Nat → Prop :=
  Relation.ReflTransGen (fun u v => Edge res n u v ∨ Edge res n v u)

/-- The list `p = [v, parent[v], parent[parent[v]], ..., source]` of the vertices
met when walking from `v` back to `source` through `parent`: every vertex is in
`[0, n)`, every stored parent is a vertex index, every edge
`(parent[w], w)` has a strictly positive entry and no vertex occurs twice. -/
inductive ParentPath (res : Matrix) (parent : List Int) (n source : Nat) :
    Nat → List Nat → Prop
  | base : source < n → ParentPath res parent n source source [source]
  | step {u v : Nat} {p : List Nat} : v < n → v ≠ source →
      parent.getD v (-1) = (u : Int) → 0 < rd res u v → v ∉ p →
      ParentPath res parent n source u p → ParentPath res parent n source v (v :: p)

/-- The sum of row `u` of a table: `sum over v < n of M[u][v]`. -/
def rowSum (n : Nat) (M : Matrix) (u : Nat) : Int :=
  ∑ v in Finset.range n, rd M u v

/-- A feasible flow of the network `adjMatrix` from `source` to `sink`: between
`0` and the capacity on every pair, inflow equal to outflow at every vertex
other than `source` and `sink`. -/
structure Feasible (n : Nat) (adjMatrix : Matrix) (source sink : Nat)
    (f : Nat → Nat → Int) : Prop where
  nonneg : ∀ u v, u < n → v < n → 0 ≤ f u v
  le_cap : ∀ u v, u < n → v < n → f u v ≤ rd adjMatrix u v
  conserve : ∀ w, w < n → w ≠ source → w ≠ sink →
    ∑ v in Finset.range n, f v w = ∑ v in Finset.range n, f w v

/-- The value of a flow: what leaves `source` minus what enters it. -/
def flowValue (n source : Nat) (f : Nat → Nat → Int) : Int :=
  ∑ v in Finset.range n, f source v - ∑ v in Finset.range n, f v source

/-- The capacity of the cut whose source side is `inS`: the sum of
`adjMatrix[u][v]` over `u` inside and `v` outside. -/
def cutCap (n : Nat) (adjMatrix : Matrix) (inS : Nat → Bool) : Int :=
  ∑ u in Finset.range n, ∑ v in Finset.range n,
    if inS u = true ∧ inS v = false then rd adjMatrix u v else 0

/-- The entry `visited[v]` is true. -/
def Vis (st : BFSState) (v : Nat) : Prop := st.visited.getD v false = true

/-- The quantity that decreases by one with every dequeued vertex: the length of
the queue plus the number of entries of `visited` that are still false. -/
def bfsMeasure (st : BFSState) : Nat := st.q.length + st.visited.count false

/-- The invariant of the while loop of `BFS`. -/
structure BFSInv (res : Matrix) (n source : Nat) (st : BFSState) : Prop where
  vlen : st.visited.length = n
  plen : st.parent.length = n
  srclt : source < n
  src : Vis st source
  qvis : ∀ v ∈ st.q, v < n ∧ Vis st v
  chain : ∀ v, v < n → Vis st v →
    ∃ p, ParentPath res st.parent n source v p ∧ ∀ w ∈ p, Vis st w

/-- Every visited vertex that is no longer in the queue has all its successors
visited. -/
def Closed (res : Matrix) (n : Nat) (st : BFSState) : Prop :=
  ∀ w, w < n → Vis st w → w ∉ st.q → ∀ v, v < n → 0 < rd res w v → Vis st v

/-- The invariant of the neighbour scan of `u` after neighbours `0 .. i-1`. -/
structure ScanInv (res : Matrix) (n source u i : Nat) (st : BFSState) : Prop where
  inv : BFSInv res n source st
  ult : u < n
  uvis : Vis st u
  others : ∀ w, w < n → Vis st w → w ∉ st.q → w ≠ u →
    ∀ v, v < n → 0 < rd res w v → Vis st v
  done : ∀ v, v < i → 0 < rd res u v → Vis st v

/-- The invariant of the main loop of `FordFulkerson` on the network
`adjMatrix`: the residual table is square, each pair of opposite entries keeps
its sum, no entry falls below `min 0` of its capacity, and the row sums record
the accumulated flow at `source` and `sink` and are unchanged elsewhere. -/
structure FlowInv (n : Nat) (adjMatrix : Matrix) (source sink : Nat) (st : FFState) :
    Prop where
  square : Square n st.res
  plen : st.parent.length = n
  pair : ∀ a b, a < n → b < n →
    rd st.res a b + rd st.res b a = rd adjMatrix a b + rd adjMatrix b a
  lower : ∀ a b, a < n → b < n → min 0 (rd adjMatrix a b) ≤ rd st.res a b
  rows : ∀ w, w < n → rowSum n st.res w =
    rowSum n adjMatrix w - (if w = source then st.maxflow else 0)
      + (if w = sink then st.maxflow else 0)
  nonneg : 0 ≤ st.maxflow

/-- The sum of the positive capacities leaving `source`. -/
def capOut (n : Nat) (adjMatrix : Matrix) (source : Nat) : Int :=
  ∑ v in Finset.range n, max 0 (rd adjMatrix source v)

/-- An amount of fuel that is enough for every loop of a solve. -/
def enoughFuel (n : Nat) (adjMatrix : Matrix) (source : Nat) : Nat :=
  n + (capOut n adjMatrix source).toNat

/-- The flow carried by a residual table: on every pair the part of the
capacity that is no longer available, when that is positive. -/
def flowOf (adjMatrix res : Matrix) (u v : Nat) : Int :=
  max 0 (rd adjMatrix u v - rd res u v)

/-- The level invariant of the while loop of `BFS` for a depth labelling `d`:
`source` has depth 0 and keeps the parent `-1`, every other visited vertex is
one level below its parent, the queue is sorted by depth and spans at most the
two levels `lo` and `lo + 1`, and the visited vertices that have left the queue
are at depth at most `lo`. -/
structure LevelInv (res : Matrix) (n source : Nat) (st : BFSState) (d : Nat → Nat)
    (lo : Nat) : Prop where
  dsrc : d source = 0
  psrc : st.parent.getD source (-1) = -1
  link : ∀ v, v < n → Vis st v → v ≠ source →
    ∃ u : Nat, st.parent.getD v (-1) = (u : Int) ∧ u < n ∧ Vis st u ∧ d v = d u + 1
  qlo : ∀ x ∈ st.q, lo ≤ d x ∧ d x ≤ lo + 1
  qsorted : st.q.Pairwise (fun a b => d a ≤ d b)
  proc : ∀ w, w < n → Vis st w → w ∉ st.q → d w ≤ lo

/-- Every edge that leaves a visited vertex no longer in the queue goes down by
at most one level. -/
def Relaxed (res : Matrix) (n : Nat) (st : BFSState) (d : Nat → Nat) : Prop :=
  ∀ w, w < n → Vis st w → w ∉ st.q → ∀ v, v < n → 0 < rd res w v → d v ≤ d w + 1

/-- The level invariant during the neighbour scan of `u`, after neighbours
`0 .. i-1`. -/
structure LevelScan (res : Matrix) (n source u i : Nat) (st : BFSState) (d : Nat → Nat) :
    Prop where
  lvl : LevelInv res n source st d (d u)
  others : ∀ w, w < n → Vis st w → w ∉ st.q → w ≠ u →
    ∀ v, v < n → 0 < rd res w v → d v ≤ d w + 1
  done : ∀ v, v < i → 0 < rd res u v → d v ≤ d u + 1

/-- A walk of `k` edges of strictly positive entry from `u` to a vertex. -/
inductive EdgePath (res : Matrix) (n u : Nat) : Nat → Nat → Prop
  | nil : EdgePath res n u u 0
  | snoc {v w k : Nat} : EdgePath res n u v k → Edge res n v w → EdgePath res n u w (k + 1)

/-- The state of the main loop of `FordFulkerson` after `k` augmentations, when
the loop condition has held `k` times, over unbounded integers. -/
def ffAfter (bfsFuel walkFuel source sink : Nat) : Nat → FFState → Option FFState
  | 0, st => some st
  | k + 1, st =>
    match loopBody bfsFuel walkFuel source sink st with
    | some (true, st') => ffAfter bfsFuel walkFuel source sink k st'
    | _ => none

/-- The edges `(parent[w], w)` of a path given by the list of its vertices from
`sink` back to `source`, in the order in which the parent walks meet them. -/
def pathEdges (p : List Nat) : List (Nat × Nat) := p.tail.zip p

/-- The running minimum of the first parent walk: `init` lowered to every
entry `resAdjMatrix[u][v]` of an edge `(u, v)` of the path. -/
def pathMin (res : Matrix) (p : List Nat) (init : Int) : Int :=
  (pathEdges p).foldl (fun m e => min m (rd res e.1 e.2)) init

/-- One augmentation from state `st` to state `st'` along the path `p` with the
value `pf`: `p` is the parent path that `BFS` found in the residual table of
`st`, `pf` is the running minimum over its edges started at the sentinel
`10000007`, it is strictly positive and is added to `maxflow`, and the new
residual table differs from the old one by `- pf` on the edges of the path and
`+ pf` on their reverses. -/
structure Augments (n source sink : Nat) (st st' : FFState) (p : List Nat) (pf : Int) :
    Prop where
  path : ParentPath st.res st'.parent n source sink p
  flow : pf = pathMin st.res p 10000007
  pos : 0 < pf
  maxflow : st'.maxflow = st.maxflow + pf
  square : Square n st'.res
  entries : ∀ a b, a < n → b < n → rd st'.res a b =
    rd st.res a b - (if (a, b) ∈ pathEdges p then pf else 0)
      + (if (b, a) ∈ pathEdges p then pf else 0)

/-! ## The same functions with 32-bit `int` arithmetic -/

/-- The value that a 32-bit signed `int` holds after an arithmetic result `x`:
`x` reduced modulo `2^32` into `[-2^31, 2^31)`. -/
def wrap32 (x : Int) : Int := (x + 2147483648) % 4294967296 - 2147483648

/-- The two assignments of `pushEdge` with 32-bit results. -/
def pushEdge32 (res : Matrix) (u v : Nat) (pathflow : Int) : Matrix :=
  let r1 := wr res u v (wrap32 (rd res u v - pathflow))
  wr r1 v u (wrap32 (rd r1 v u + pathflow))

/-- The second parent walk with 32-bit results. -/
def augment32 (parent : List Int) (source : Nat) (pathflow : Int) :
    Nat → Nat → Matrix → Option Matrix
  | 0, v, res => if v = source then some res else none
  | fuel + 1, v, res =>
    if v = source then some res
    else
      let u := parentOf parent v
      augment32 parent source pathflow fuel u (pushEdge32 res u v pathflow)

/-- The loop condition and body with 32-bit results (`BFS` and the first parent
walk only compare and copy values, so they are the ones above). -/
def loopBody32 (bfsFuel walkFuel source sink : Nat) (st : FFState) :
    Option (Bool × FFState) :=
  match BFS bfsFuel st.res source sink st.parent with
  | none => none
  | some (false, parent) => some (false, { st with parent := parent })
  | some (true, parent) =>
    match bottleneck st.res parent source walkFuel sink 10000007 with
    | none => none
    | some pathflow =>
      match augment32 parent source pathflow walkFuel sink st.res with
      | none => none
      | some res =>
        some (true, { res := res, parent := parent,
                      maxflow := wrap32 (st.maxflow + pathflow) })

/-- The main loop with 32-bit results. -/
def ffLoop32 (bfsFuel walkFuel source sink : Nat) : Nat → FFState → Option FFState
  | 0, st =>
    match loopBody32 bfsFuel walkFuel source sink st with
    | some (false, st') => some st'
    | _ => none
  | fuel + 1, st =>
    match loopBody32 bfsFuel walkFuel source sink st with
    | none => none
    | some (false, st') => some st'
    | some (true, st') => ffLoop32 bfsFuel walkFuel source sink fuel st'

/-- The function `FordFulkerson` with 32-bit results. -/
def FordFulkerson32 (fuel : Nat) (adjMatrix : Matrix) (source sink : Nat) : Option Int :=
  (ffLoop32 fuel fuel source sink fuel (ffInit adjMatrix)).map (fun st => st.maxflow)

/-- The bounds under which a solve stays inside the 32-bit range. -/
structure Fits32 (n : Nat) (adjMatrix : Matrix) (source : Nat) : Prop where
  nonneg : NonNeg adjMatrix
  pair : ∀ u v, u < n → v < n → rd adjMatrix u v + rd adjMatrix v u ≤ 2147483647
  out : rowSum n adjMatrix source ≤ 2147483647

/-- The state of the main loop after `k` augmentations, with 32-bit results. -/
def ffAfter32 (bfsFuel walkFuel source sink : Nat) : Nat → FFState → Option FFState
  | 0, st => some st
  | k + 1, st =>
    match loopBody32 bfsFuel walkFuel source sink st with
    | some (true, st') => ffAfter32 bfsFuel walkFuel source sink k st'
    | _ => none

/-- The state in which the main loop exits, with 32-bit results. -/
def ffRun32 (fuel : Nat) (adjMatrix : Matrix) (source sink : Nat) : Option FFState :=
  ffLoop32 fuel fuel source sink fuel (ffInit adjMatrix)

/-! ## Invariants of the 32-bit loop -/

/-- Every entry of the table is a value of the C++ type `int`. -/
def IntEntries (M : Matrix) : Prop :=
  ∀ row ∈ M, ∀ x ∈ row, -2147483648 ≤ x ∧ x ≤ 2147483647

instance (M : Matrix) : Decidable (IntEntries M) := by
  unfold IntEntries; infer_instance

/-- The shape that the loops rely on: a square residual table and a parent
vector of the same size. -/
structure Shape (n : Nat) (st : FFState) : Prop where
  square : Square n st.res
  plen : st.parent.length = n

/-- One augmentation of the 32-bit loop from state `st` to state `st'` along the
path `p` with the value `pf`: `p` is the parent path that `BFS` found in the
residual table of `st`, `pf` is the running minimum over its edges started at
the sentinel `10000007` and is strictly positive, `maxflow` becomes the 32-bit
value of `maxflow + pf`, the entry of every edge of the path becomes the 32-bit
value of `entry - pf`, the entry of every reversed edge the 32-bit value of
`entry + pf`, and no other entry changes. -/
structure Augments32 (n source sink : Nat) (st st' : FFState) (p : List Nat) (pf : Int) :
    Prop where
  path : ParentPath st.res st'.parent n source sink p
  flow : pf = pathMin st.res p 10000007
  pos : 0 < pf
  maxflow : st'.maxflow = wrap32 (st.maxflow + pf)
  shape : Shape n st'
  entries : ∀ a b, a < n → b < n → rd st'.res a b =
    if (a, b) ∈ pathEdges p then wrap32 (rd st.res a b - pf)
    else if (b, a) ∈ pathEdges p then wrap32 (rd st.res a b + pf)
    else rd st.res a b

/-- What has left `source` according to the residual table: the sum over `v` of
`adjMatrix[source][v] - resAdjMatrix[source][v]`. -/
def sentOut (n : Nat) (adjMatrix : Matrix) (source : Nat) (st : FFState) : Int :=
  ∑ v in Finset.range n, (rd adjMatrix source v - rd st.res source v)

/-- The invariant of the 32-bit main loop on the row of `source`: its entries
only go down, never below `min 0` of the capacity, and `maxflow` is the 32-bit
value of what has left `source`. -/
structure RowInv (n : Nat) (adjMatrix : Matrix) (source : Nat) (st : FFState) : Prop where
  shape : Shape n st
  lo : ∀ v, v < n → min 0 (rd adjMatrix source v) ≤ rd st.res source v
  hi : ∀ v, v < n → rd st.res source v ≤ rd adjMatrix source v
  flow : st.maxflow = wrap32 (sentOut n adjMatrix source st)

/-- The invariant of the 32-bit main loop when every pair of opposite
capacities sums to at most `2^31 - 1`: no residual entry is negative and each
pair of opposite entries keeps its sum. -/
structure PairInv (n : Nat) (adjMatrix : Matrix) (st : FFState) : Prop where
  shape : Shape n st
  nonneg : ∀ a b, a < n → b < n → 0 ≤ rd st.res a b
  pair : ∀ a b, a < n → b < n →
    rd st.res a b + rd st.res b a = rd adjMatrix a b + rd adjMatrix b a

/-! ## Inputs on which 32-bit arithmetic overflows -/

/-- A valid 3 × 3 table in which the capacities that leave vertex 0 sum to
`2^31`, one more than the largest `int`; every pair of opposite entries sums to
at most `2^31 - 1`. -/
def bigSourceTable : Matrix := [[0, 2147483647, 1], [0, 0, 0], [0, 1, 0]]

/-- A valid 2 × 2 table in which the two opposite capacities sum to more than
`2^31 - 1`. -/
def twoBigEdgesTable : Matrix := [[0, 2147483647], [2147483647, 0]]

/-- A valid 6 × 6 table with unit capacities and one entry `2^31 - 1` opposite
to a unit capacity, so that this pair of opposite capacities sums to `2^31`.
The maximum flow from 0 to 5 is 2, along `0 → 1 → 4 → 5` and
`0 → 2 → 3 → 5`. -/
def bigBackEdgeTable : Matrix :=
  [[0, 1, 1, 0, 0, 0],
   [0, 0, 0, 1, 1, 0],
   [0, 0, 0, 1, 0, 0],
   [0, 2147483647, 0, 0, 0, 1],
   [0, 0, 0, 0, 0, 1],
   [0, 0, 0, 0, 0, 0]]

/-- The flow of value 2 on `bigBackEdgeTable` that sends one unit along
`0 → 1 → 4 → 5` and one unit along `0 → 2 → 3 → 5`. -/
def twoPathsFlow (u v : Nat) : Int :=
  rd [[0, 1, 1, 0, 0, 0],
      [0, 0, 0, 0, 1, 0],
      [0, 0, 0, 1, 0, 0],
      [0, 0, 0, 0, 0, 1],
      [0, 0, 0, 0, 0, 1],
      [0, 0, 0, 0, 0, 0]] u v

/-! ## `main` -/

/-- The calls `FordFulkerson(adjMatrix, source, sink)` that `main` makes, in
order, as pairs `(source, sink)`: the two nested loops over `i, j < 6` with the
guard `if(i == j) continue;` before the call. -/
def mainCalls : List (Nat × Nat) :=
  (List.range 6).foldl
    (fun calls i =>
      (List.range 6).foldl
        (fun calls j => if i = j then calls else calls ++ [(i, j)]) calls) []

/-! ## `BFS` with checked accesses -/

/-- The outcome of a run in which every vector access is checked: a value, or
an access outside the bounds of a vector (undefined behaviour in C++). -/
inductive Access (α : Type) where
  | ok : α → Access α
  | outOfBounds : Access α

/-- The body of the neighbour scan of `BFS` with its accesses checked:
`resAdjMatrix[u][v]`, `visited[v]` and, when the neighbour is taken,
`parent[v]`. -/
def scanStepChecked (res : Matrix) (u : Nat) (st : BFSState) (v : Nat) : Access BFSState :=
  if u < res.length ∧ v < (res.getD u []).length ∧ v < st.visited.length then
    if st.visited.getD v false = false ∧ rd res u v > 0 then
      if v < st.parent.length then
        Access.ok { q := st.q ++ [v], parent := st.parent.set v (u : Int),
                    visited := st.visited.set v true }
      else Access.outOfBounds
    else Access.ok st
  else Access.outOfBounds

/-- The neighbour scan of one dequeued vertex with its accesses checked. -/
def scanChecked (res : Matrix) (n u : Nat) (st : BFSState) : Access BFSState :=
  (List.range n).foldl
    (fun acc v =>
      match acc with
      | Access.ok s => scanStepChecked res u s v
      | Access.outOfBounds => Access.outOfBounds)
    (Access.ok st)

/-- The while loop of `BFS` with its accesses checked. -/
def bfsLoopChecked (res : Matrix) (n : Nat) : Nat → BFSState → Option (Access BFSState)
  | 0, st =>
    match st.q with
    | [] => some (Access.ok st)
    | _ :: _ => none
  | fuel + 1, st =>
    match st.q with
    | [] => some (Access.ok st)
    | u :: rest =>
      match scanChecked res n u { st with q := rest } with
      | Access.ok st' => bfsLoopChecked res n fuel st'
      | Access.outOfBounds => some Access.outOfBounds

/-- The function `BFS` with its accesses checked, for arguments `source` and
`sink` of type `int`: `visited[source] = true` and `parent[source] = -1` before
the loop, and `visited[sink]` after it, index the array `visited` of size
`n = resAdjMatrix.size()` and the vector `parent`. -/
def BFSChecked (fuel : Nat) (res : Matrix) (source sink : Int) (parent : List Int) :
    Option (Access (Bool × List Int)) :=
  if 0 ≤ source ∧ source < res.length ∧ source < parent.length then
    match bfsLoopChecked res res.length fuel (bfsInit res source.toNat parent) with
    | none => none
    | some Access.outOfBounds => some Access.outOfBounds
    | some (Access.ok st) =>
      if 0 ≤ sink ∧ sink < res.length then
        some (Access.ok (st.visited.getD sink.toNat false, st.parent))
      else some Access.outOfBounds
  else some Access.outOfBounds

/-! ## The memory of a call of `FordFulkerson` -/

/-- What the caller of `FordFulkerson` holds: the three objects that it passes
by reference, `adjMatrix`, `source` and `sink`. -/
structure Caller where
  adjMatrix : Matrix
  source : Nat
  sink : Nat

/-- The memory of a call of `FordFulkerson`: the caller's objects, which the
function reaches through its reference parameters, and its own local variables
`resAdjMatrix`, `parent` and `maxflow`. -/
structure Frame where
  caller : Caller
  resAdjMatrix : Matrix
  parent : List Int
  maxflow : Int

/-- The statements of `FordFulkerson` before its main loop, on the memory:
`int maxflow = 0`, the loop that fills the local `resAdjMatrix` from
`adjMatrix[i][j]`, and the loop that fills the local `parent`. -/
def frameInit (c : Caller) : Frame :=
  { caller := c, resAdjMatrix := copyMatrix c.adjMatrix,
    parent := initParent c.adjMatrix.length, maxflow := 0 }

/-- One evaluation of the loop condition and, when it holds, of the loop body,
on the memory.  `BFS(resAdjMatrix, source, sink, parent)` assigns to `parent`
only; the body assigns to the local `pathflow` and `v`, to entries of
`resAdjMatrix` and to `maxflow`. -/
def frameBody (bfsFuel walkFuel : Nat) (f : Frame) : Option (Bool × Frame) :=
  match BFS bfsFuel f.resAdjMatrix f.caller.source f.caller.sink f.parent with
  | none => none
  | some (false, parent) => some (false, { f with parent := parent })
  | some (true, parent) =>
    match bottleneck f.resAdjMatrix parent f.caller.source walkFuel f.caller.sink
        10000007 with
    | none => none
    | some pathflow =>
      match augment32 parent f.caller.source pathflow walkFuel f.caller.sink
          f.resAdjMatrix with
      | none => none
      | some res =>
        some (true, { f with resAdjMatrix := res, parent := parent,
                             maxflow := wrap32 (f.maxflow + pathflow) })

/-- The main loop on the memory. -/
def frameLoop (bfsFuel walkFuel : Nat) : Nat → Frame → Option Frame
  | 0, f =>
    match frameBody bfsFuel walkFuel f with
    | some (false, f') => some f'
    | _ => none
  | fuel + 1, f =>
    match frameBody bfsFuel walkFuel f with
    | none => none
    | some (false, f') => some f'
    | some (true, f') => frameLoop bfsFuel walkFuel fuel f'

/-- The call `FordFulkerson(adjMatrix, source, sink)` as its caller sees it:
the objects that the caller holds after the call, and the returned value. -/
def FordFulkersonCall (fuel : Nat) (c : Caller) : Option (Caller × Int) :=
  (frameLoop fuel fuel fuel (frameInit c)).map (fun f => (f.caller, f.maxflow))

/-- Two successive calls on the objects that the caller holds: the two
returned values. -/
def twoCalls (fuel : Nat) (c : Caller) : Option (Int × Int) :=
  match FordFulkersonCall fuel c with
  | none => none
  | some (c1, r1) =>
    match FordFulkersonCall fuel c1 with
    | none => none
    | some (_, r2) => some (r1, r2)

/-- The memory that holds the caller's objects `c` and the loop state `st`. -/
def Frame.of (c : Caller) (st : FFState) : Frame :=
  { caller := c, resAdjMatrix := st.res, parent := st.parent, maxflow := st.maxflow }

/-! # Theorems -/

/-! ## Vectors and tables -/

theorem getD_set_int (l : List Int) (i j : Nat) (x d : Int) (h : i < l.length) :
    (l.set i x).getD j d = if j = i then x else l.getD j d := by
  simp only [List.getD_eq_getElem?_getD, List.getElem?_set]
  by_cases hij : i = j
  · subst hij; simp [h]
  · have : ¬ j = i := fun e => hij e.symm
    simp [hij, this]

theorem getD_set_bool (l : List Bool) (i j : Nat) (x d : Bool) (h : i < l.length) :
    (l.set i x).getD j d = if j = i then x else l.getD j d := by
  simp only [List.getD_eq_getElem?_getD, List.getElem?_set]
  by_cases hij : i = j
  · subst hij; simp [h]
  · have : ¬ j = i := fun e => hij e.symm
    simp [hij, this]

theorem Square.row_length {n : Nat} {M : Matrix} (h : Square n M) {u : Nat} (hu : u < n) :
    (M.getD u []).length = n := by
  have hl : u < M.length := by rw [h.1]; exact hu
  have : M.getD u [] = M[u] := by simp [List.getD_eq_getElem?_getD, hl]
  rw [this]
  exact h.2 _ (List.getElem_mem _)

theorem Square.wr {n : Nat} {M : Matrix} (h : Square n M) (u v : Nat) (x : Int) :
    Square n (wr M u v x) := by
  by_cases hu : u < n
  · refine ⟨by simp [MaxFlow.wr, h.1], ?_⟩
    intro row hrow
    unfold MaxFlow.wr at hrow
    rcases List.mem_or_eq_of_mem_set hrow with h1 | h1
    · exact h.2 _ h1
    · subst h1
      rw [List.length_set]
      exact h.row_length hu
  · have : MaxFlow.wr M u v x = M := by
      unfold MaxFlow.wr
      apply List.set_eq_of_length_le; rw [h.1]; omega
    rw [this]; exact h

theorem rd_wr {n : Nat} {M : Matrix} (h : Square n M) {u v : Nat} (hu : u < n) (hv : v < n)
    (x : Int) (a b : Nat) :
    rd (wr M u v x) a b = if a = u ∧ b = v then x else rd M a b := by
  have hl : u < M.length := by rw [h.1]; exact hu
  have hr := h.row_length hu
  unfold rd MaxFlow.wr
  by_cases ha : a = u
  · subst ha
    have : (M.set a ((M.getD a []).set v x)).getD a [] = (M.getD a []).set v x := by
      simp [List.getD_eq_getElem?_getD, hl]
    rw [this, getD_set_int _ _ _ _ _ (by rw [hr]; exact hv)]
    simp
  · have : (M.set u ((M.getD u []).set v x)).getD a [] = M.getD a [] := by
      simp only [List.getD_eq_getElem?_getD, List.getElem?_set]
      have : ¬ u = a := fun e => ha e.symm
      simp [this]
    rw [this]; simp [ha]

/-! ## The copy loops -/

theorem foldl_push {α β : Type} (f : α → β) (xs : List α) (init : List β) :
    xs.foldl (fun acc i => acc ++ [f i]) init = init ++ xs.map f := by
  induction xs generalizing init with
  | nil => simp
  | cons x xs ih => simp [ih]

theorem map_getD_range {α : Type} (l : List α) (d : α) :
    (List.range l.length).map (fun i => l.getD i d) = l := by
  apply List.ext_getElem
  · simp
  · intro i h1 h2
    simp [List.getD_eq_getElem?_getD, h2]

theorem copyMatrix_eq (adjMatrix : Matrix) : copyMatrix adjMatrix = adjMatrix := by
  unfold copyMatrix
  rw [foldl_push (fun i => (List.range (adjMatrix.getD i []).length).foldl
      (fun row j => row ++ [rd adjMatrix i j]) [])]
  simp only [List.nil_append]
  have : ∀ i, (List.range (adjMatrix.getD i []).length).foldl
      (fun row j => row ++ [rd adjMatrix i j]) [] = adjMatrix.getD i [] := by
    intro i
    rw [foldl_push (fun j => rd adjMatrix i j)]
    simp only [List.nil_append]
    exact map_getD_range (adjMatrix.getD i []) 0
  simp only [this]
  exact map_getD_range adjMatrix []

theorem initParent_eq (n : Nat) : initParent n = List.replicate n (-1) := by
  unfold initParent
  rw [foldl_push (fun _ => (-1 : Int))]
  simp

theorem initParent_length (n : Nat) : (initParent n).length = n := by
  simp [initParent_eq]

theorem FormAdjMatrix_eq : FormAdjMatrix =
    [[0, 15, 12, 0, 0, 0], [0, 0, 9, 11, 0, 0], [0, 5, 0, 0, 13, 0],
     [0, 0, 9, 0, 0, 25], [0, 0, 0, 8, 0, 6], [0, 0, 0, 0, 0, 0]] := by
  decide

/-! ## More fuel never changes a result -/

theorem bfsLoop_mono (res : Matrix) (n : Nat) {f f' : Nat} (hf : f ≤ f') {st st' : BFSState}
    (h : bfsLoop res n f st = some st') : bfsLoop res n f' st = some st' := by
  induction f generalizing f' st with
  | zero =>
    cases hq : st.q with
    | nil =>
      cases f' <;> simp_all [bfsLoop]
    | cons u rest => simp [bfsLoop, hq] at h
  | succ f ih =>
    obtain ⟨g, rfl⟩ : ∃ g, f' = g + 1 := ⟨f' - 1, by omega⟩
    cases hq : st.q with
    | nil => simp_all [bfsLoop]
    | cons u rest =>
      simp only [bfsLoop, hq] at h ⊢
      exact ih (by omega) h

theorem BFS_mono {f f' : Nat} (hf : f ≤ f') {res : Matrix} {source sink : Nat}
    {parent : List Int} {r : Bool × List Int}
    (h : BFS f res source sink parent = some r) : BFS f' res source sink parent = some r := by
  unfold BFS bfsRun at h ⊢
  cases hb : bfsLoop res res.length f (bfsInit res source parent) with
  | none => simp [hb] at h
  | some st =>
    rw [hb] at h
    rw [bfsLoop_mono res res.length hf hb]
    exact h

theorem bottleneck_mono (res : Matrix) (parent : List Int) (source : Nat) {f f' : Nat}
    (hf : f ≤ f') {v : Nat} {pf r : Int}
    (h : bottleneck res parent source f v pf = some r) :
    bottleneck res parent source f' v pf = some r := by
  induction f generalizing f' v pf with
  | zero =>
    by_cases hv : v = source
    · cases f' <;> simp_all [bottleneck]
    · simp [bottleneck, hv] at h
  | succ f ih =>
    obtain ⟨g, rfl⟩ : ∃ g, f' = g + 1 := ⟨f' - 1, by omega⟩
    by_cases hv : v = source
    · simp_all [bottleneck]
    · simp only [bottleneck, hv, if_false] at h ⊢
      exact ih (by omega) h

theorem augment_mono (parent : List Int) (source : Nat) (pf : Int) {f f' : Nat}
    (hf : f ≤ f') {v : Nat} {res r : Matrix}
    (h : augment parent source pf f v res = some r) :
    augment parent source pf f' v res = some r := by
  induction f generalizing f' v res with
  | zero =>
    by_cases hv : v = source
    · cases f' <;> simp_all [augment]
    · simp [augment, hv] at h
  | succ f ih =>
    obtain ⟨g, rfl⟩ : ∃ g, f' = g + 1 := ⟨f' - 1, by omega⟩
    by_cases hv : v = source
    · simp_all [augment]
    · simp only [augment, hv, if_false] at h ⊢
      exact ih (by omega) h

theorem loopBody_mono {b b' w w' : Nat} (hb : b ≤ b') (hw : w ≤ w') {source sink : Nat}
    {st : FFState} {r : Bool × FFState} (h : loopBody b w source sink st = some r) :
    loopBody b' w' source sink st = some r := by
  unfold loopBody at h ⊢
  cases hB : BFS b st.res source sink st.parent with
  | none => simp [hB] at h
  | some bp =>
    obtain ⟨vis, parent⟩ := bp
    rw [hB] at h
    rw [BFS_mono hb hB]
    cases vis with
    | false => exact h
    | true =>
      simp only at h ⊢
      cases h1 : bottleneck st.res parent source w sink 10000007 with
      | none => simp [h1] at h
      | some pathflow =>
        rw [h1] at h
        rw [bottleneck_mono _ _ _ hw h1]
        simp only at h ⊢
        cases h2 : augment parent source pathflow w sink st.res with
        | none => simp [h2] at h
        | some res' =>
          rw [h2] at h
          rw [augment_mono _ _ _ hw h2]
          exact h

theorem ffLoop_mono {b b' w w' f f' : Nat} (hb : b ≤ b') (hw : w ≤ w') (hf : f ≤ f')
    {source sink : Nat} {st st' : FFState} (h : ffLoop b w source sink f st = some st') :
    ffLoop b' w' source sink f' st = some st' := by
  induction f generalizing f' st with
  | zero =>
    cases hB : loopBody b w source sink st with
    | none => simp [ffLoop, hB] at h
    | some r =>
      have hB' := loopBody_mono hb hw hB
      obtain ⟨c, s⟩ := r
      cases c with
      | false => cases f' <;> simp_all [ffLoop]
      | true => simp [ffLoop, hB] at h
  | succ f ih =>
    obtain ⟨g, rfl⟩ : ∃ g, f' = g + 1 := ⟨f' - 1, by omega⟩
    cases hB : loopBody b w source sink st with
    | none => simp [ffLoop, hB] at h
    | some r =>
      have hB' := loopBody_mono hb hw hB
      obtain ⟨c, s⟩ := r
      cases c with
      | false => simp_all [ffLoop]
      | true =>
        simp only [ffLoop, hB, hB'] at h ⊢
        exact ih (by omega) h

theorem ffRun_mono {f f' : Nat} (hf : f ≤ f') {adjMatrix : Matrix} {source sink : Nat}
    {st : FFState} (h : ffRun f adjMatrix source sink = some st) :
    ffRun f' adjMatrix source sink = some st :=
  ffLoop_mono hf hf hf h

theorem FordFulkerson_mono {f f' : Nat} (hf : f ≤ f') {adjMatrix : Matrix} {source sink : Nat}
    {r : Int} (h : FordFulkerson f adjMatrix source sink = some r) :
    FordFulkerson f' adjMatrix source sink = some r := by
  unfold FordFulkerson at h ⊢
  cases hr : ffRun f adjMatrix source sink with
  | none => simp [hr] at h
  | some st =>
    rw [hr] at h
    rw [ffRun_mono hf hr]
    exact h

/-- Two amounts of fuel that both produce a result produce the same one. -/
theorem FordFulkerson_fuel_unique {f f' : Nat} {adjMatrix : Matrix} {source sink : Nat}
    {r r' : Int} (h : FordFulkerson f adjMatrix source sink = some r)
    (h' : FordFulkerson f' adjMatrix source sink = some r') : r = r' := by
  have h1 := FordFulkerson_mono (Nat.le_max_left f f') h
  have h2 := FordFulkerson_mono (Nat.le_max_right f f') h'
  rw [h1] at h2
  exact Option.some.inj h2

/-! ## Breadth-first search -/

theorem count_false_set (l : List Bool) (v : Nat) (hv : v < l.length)
    (h : l.getD v false = false) : (l.set v true).count false + 1 = l.count false := by
  induction l generalizing v with
  | nil => simp at hv
  | cons b l ih =>
    cases v with
    | zero =>
      simp at h
      subst h
      simp
    | succ v =>
      simp only [List.set_cons_succ, List.count_cons]
      have := ih v (by simpa using hv) (by simpa using h)
      omega

theorem ParentPath.lt {res : Matrix} {parent : List Int} {n source v : Nat} {p : List Nat}
    (h : ParentPath res parent n source v p) : v < n := by
  cases h with
  | base h => exact h
  | step h _ _ _ _ _ => exact h

theorem ParentPath.head_mem {res : Matrix} {parent : List Int} {n source v : Nat}
    {p : List Nat} (h : ParentPath res parent n source v p) : v ∈ p := by
  cases h <;> simp

theorem ParentPath.source_lt {res : Matrix} {parent : List Int} {n source v : Nat}
    {p : List Nat} (h : ParentPath res parent n source v p) : source < n := by
  induction h with
  | base h => exact h
  | step _ _ _ _ _ _ ih => exact ih

theorem ParentPath.all_lt {res : Matrix} {parent : List Int} {n source v : Nat}
    {p : List Nat} (h : ParentPath res parent n source v p) : ∀ w ∈ p, w < n := by
  induction h with
  | base h => intro w hw; simp at hw; subst hw; exact h
  | step hv _ _ _ _ _ ih =>
    intro w hw
    rcases List.mem_cons.1 hw with rfl | hw
    · exact hv
    · exact ih w hw

theorem ParentPath.nodup {res : Matrix} {parent : List Int} {n source v : Nat}
    {p : List Nat} (h : ParentPath res parent n source v p) : p.Nodup := by
  induction h with
  | base h => simp
  | step _ _ _ _ hn _ ih => exact List.nodup_cons.2 ⟨hn, ih⟩

theorem ParentPath.length_le {res : Matrix} {parent : List Int} {n source v : Nat}
    {p : List Nat} (h : ParentPath res parent n source v p) : p.length ≤ n := by
  have h1 := h.nodup
  have h2 := h.all_lt
  have : p.toFinset ⊆ Finset.range n := by
    intro w hw
    simp only [List.mem_toFinset] at hw
    exact Finset.mem_range.2 (h2 w hw)
  have h3 := Finset.card_le_card this
  rw [List.toFinset_card_of_nodup h1, Finset.card_range] at h3
  exact h3

theorem ParentPath.reach {res : Matrix} {parent : List Int} {n source v : Nat}
    {p : List Nat} (h : ParentPath res parent n source v p) : Reach res n source v := by
  induction h with
  | base h => exact Relation.ReflTransGen.refl
  | step hv _ _ hpos _ hu ih =>
    exact Relation.ReflTransGen.tail ih ⟨hu.lt, hv, hpos⟩

/-- A parent path survives any change of the parent vector outside its vertices. -/
theorem ParentPath.congr {res : Matrix} {parent parent' : List Int} {n source v : Nat}
    {p : List Nat} (h : ParentPath res parent n source v p)
    (hp : ∀ w ∈ p, parent'.getD w (-1) = parent.getD w (-1)) :
    ParentPath res parent' n source v p := by
  induction h with
  | base h => exact ParentPath.base h
  | step hv hne hpar hpos hn _ ih =>
    refine ParentPath.step hv hne ?_ hpos hn (ih fun w hw => hp w (List.mem_cons_of_mem _ hw))
    rw [hp _ (List.mem_cons_self _ _)]
    exact hpar

theorem Vis.scanStep {res : Matrix} {u i : Nat} {st : BFSState} {w : Nat}
    (hl : i < st.visited.length) (h : Vis st w) : Vis (scanStep res u st i) w := by
  unfold MaxFlow.scanStep
  split
  · unfold Vis at *
    simp only
    rw [getD_set_bool _ _ _ _ _ hl]
    split
    · rfl
    · exact h
  · exact h

theorem scanStep_measure (res : Matrix) (u i : Nat) (st : BFSState)
    (hl : i < st.visited.length) :
    bfsMeasure (scanStep res u st i) = bfsMeasure st := by
  unfold scanStep
  split
  · rename_i h
    unfold bfsMeasure
    simp only [List.length_append, List.length_singleton]
    have := count_false_set st.visited i hl h.1
    omega
  · rfl

theorem scanStep_vlen (res : Matrix) (u i : Nat) (st : BFSState) :
    (scanStep res u st i).visited.length = st.visited.length := by
  unfold scanStep
  split <;> simp

theorem scan_eq_foldl_succ (res : Matrix) (u i : Nat) (st : BFSState) :
    scan res (i + 1) u st = scanStep res u (scan res i u st) i := by
  unfold scan
  rw [List.range_succ, List.foldl_append]
  rfl

theorem scan_vlen (res : Matrix) (u i : Nat) (st : BFSState) :
    (scan res i u st).visited.length = st.visited.length := by
  induction i with
  | zero => rfl
  | succ i ih => rw [scan_eq_foldl_succ, scanStep_vlen, ih]

theorem scan_measure (res : Matrix) (u i : Nat) (st : BFSState)
    (hl : i ≤ st.visited.length) :
    bfsMeasure (scan res i u st) = bfsMeasure st := by
  induction i with
  | zero => rfl
  | succ i ih =>
    rw [scan_eq_foldl_succ, scanStep_measure _ _ _ _ (by rw [scan_vlen]; omega), ih (by omega)]

/-- The while loop of `BFS` exits as soon as the fuel reaches the measure. -/
theorem bfsLoop_total (res : Matrix) (n : Nat) (fuel : Nat) (st : BFSState)
    (hl : st.visited.length = n) (hm : bfsMeasure st ≤ fuel) :
    ∃ st', bfsLoop res n fuel st = some st' := by
  induction fuel generalizing st with
  | zero =>
    cases hq : st.q with
    | nil => exact ⟨st, by simp [bfsLoop, hq]⟩
    | cons u rest => simp [bfsMeasure, hq] at hm
  | succ fuel ih =>
    cases hq : st.q with
    | nil => exact ⟨st, by simp [bfsLoop, hq]⟩
    | cons u rest =>
      simp only [bfsLoop, hq]
      apply ih
      · rw [scan_vlen]; exact hl
      · rw [scan_measure _ _ _ _ (by simp [hl])]
        simp only [bfsMeasure, hq, List.length_cons] at hm ⊢
        omega

theorem scanStep_inv {res : Matrix} {n source u i : Nat} {st : BFSState}
    (h : ScanInv res n source u i st) (hi : i < n) :
    ScanInv res n source u (i + 1) (scanStep res u st i) := by
  have hvl : i < st.visited.length := by rw [h.inv.vlen]; exact hi
  have hpl : i < st.parent.length := by rw [h.inv.plen]; exact hi
  by_cases hc : st.visited.getD i false = false ∧ rd res u i > 0
  · -- vertex `i` is discovered from `u`
    have hstep : scanStep res u st i =
        { q := st.q ++ [i], parent := st.parent.set i (u : Int),
          visited := st.visited.set i true } := by
      unfold scanStep; rw [if_pos hc]
    have hmono : ∀ w, Vis st w → Vis (scanStep res u st i) w := fun w hw => hw.scanStep hvl
    have hnew : Vis (scanStep res u st i) i := by
      rw [hstep]; unfold Vis; simp only
      rw [getD_set_bool _ _ _ _ _ hvl]; simp
    have hold : ∀ w, Vis (scanStep res u st i) w → w = i ∨ Vis st w := by
      intro w hw
      rw [hstep] at hw; unfold Vis at hw; simp only at hw
      rw [getD_set_bool _ _ _ _ _ hvl] at hw
      by_cases hwi : w = i
      · exact Or.inl hwi
      · rw [if_neg hwi] at hw; exact Or.inr hw
    have hnotvis : ¬ Vis st i := by unfold Vis; rw [hc.1]; simp
    have hpar : ∀ w, w ≠ i →
        (scanStep res u st i).parent.getD w (-1) = st.parent.getD w (-1) := by
      intro w hw
      rw [hstep]; simp only
      rw [getD_set_int _ _ _ _ _ hpl, if_neg hw]
    have hpari : (scanStep res u st i).parent.getD i (-1) = (u : Int) := by
      rw [hstep]; simp only
      rw [getD_set_int _ _ _ _ _ hpl, if_pos rfl]
    have hq : (scanStep res u st i).q = st.q ++ [i] := by rw [hstep]
    have hkeep : ∀ w p, ParentPath res st.parent n source w p → (∀ x ∈ p, Vis st x) →
        ParentPath res (scanStep res u st i).parent n source w p := by
      intro w p hp hall
      apply hp.congr
      intro x hx
      apply hpar
      intro hxi
      subst hxi
      exact hnotvis (hall x hx)
    refine ⟨⟨?_, ?_, h.inv.srclt, hmono _ h.inv.src, ?_, ?_⟩, h.ult, hmono _ h.uvis, ?_, ?_⟩
    · rw [scanStep_vlen]; exact h.inv.vlen
    · rw [hstep]; simp [h.inv.plen]
    · intro v hv
      rw [hq] at hv
      rcases List.mem_append.1 hv with hv | hv
      · exact ⟨(h.inv.qvis v hv).1, hmono _ (h.inv.qvis v hv).2⟩
      · simp at hv; subst hv; exact ⟨hi, hnew⟩
    · intro v hv hvis
      rcases hold v hvis with rfl | hvold
      · obtain ⟨p, hp, hall⟩ := h.inv.chain u h.ult h.uvis
        refine ⟨v :: p, ?_, ?_⟩
        · refine ParentPath.step hi ?_ hpari hc.2 ?_ (hkeep u p hp hall)
          · intro e; subst e; exact hnotvis h.inv.src
          · intro hm; exact hnotvis (hall _ hm)
        · intro w hw
          rcases List.mem_cons.1 hw with rfl | hw
          · exact hnew
          · exact hmono _ (hall w hw)
      · obtain ⟨p, hp, hall⟩ := h.inv.chain v hv hvold
        exact ⟨p, hkeep v p hp hall, fun w hw => hmono _ (hall w hw)⟩
    · intro w hw hvis hnq hwu v hv hpos
      rw [hq] at hnq
      rcases hold w hvis with rfl | hwold
      · exact absurd (List.mem_append_right _ (List.mem_singleton_self _)) hnq
      · exact hmono _ (h.others w hw hwold (fun hm => hnq (List.mem_append_left _ hm)) hwu
          v hv hpos)
    · intro v hv hpos
      rcases Nat.lt_succ_iff_lt_or_eq.1 hv with hlt | rfl
      · exact hmono _ (h.done v hlt hpos)
      · exact hnew
  · -- nothing happens
    have hstep : scanStep res u st i = st := by
      unfold scanStep; rw [if_neg hc]
    rw [hstep]
    refine ⟨h.inv, h.ult, h.uvis, h.others, ?_⟩
    intro v hv hpos
    rcases Nat.lt_succ_iff_lt_or_eq.1 hv with hlt | rfl
    · exact h.done v hlt hpos
    · by_contra hnv
      apply hc
      refine ⟨?_, hpos⟩
      unfold Vis at hnv
      simpa using hnv

theorem scan_inv {res : Matrix} {n source u : Nat} {st : BFSState}
    (h : ScanInv res n source u 0 st) (i : Nat) (hi : i ≤ n) :
    ScanInv res n source u i (scan res i u st) := by
  induction i with
  | zero => exact h
  | succ i ih =>
    rw [scan_eq_foldl_succ]
    exact scanStep_inv (ih (by omega)) (by omega)

theorem bfsLoop_inv {res : Matrix} {n source : Nat} (fuel : Nat) {st st' : BFSState}
    (hinv : BFSInv res n source st) (hcl : Closed res n st)
    (h : bfsLoop res n fuel st = some st') :
    BFSInv res n source st' ∧ Closed res n st' ∧ st'.q = [] := by
  induction fuel generalizing st with
  | zero =>
    cases hq : st.q with
    | nil =>
      simp only [bfsLoop, hq, Option.some.injEq] at h
      subst h
      exact ⟨hinv, hcl, hq⟩
    | cons u rest => simp [bfsLoop, hq] at h
  | succ fuel ih =>
    cases hq : st.q with
    | nil =>
      simp only [bfsLoop, hq, Option.some.injEq] at h
      subst h
      exact ⟨hinv, hcl, hq⟩
    | cons u rest =>
      simp only [bfsLoop, hq] at h
      have hu := hinv.qvis u (by rw [hq]; exact List.mem_cons_self _ _)
      have h0 : ScanInv res n source u 0 { st with q := rest } := by
        refine ⟨⟨hinv.vlen, hinv.plen, hinv.srclt, hinv.src, ?_, hinv.chain⟩, hu.1, hu.2, ?_, ?_⟩
        · intro v hv
          exact hinv.qvis v (by rw [hq]; exact List.mem_cons_of_mem _ hv)
        · intro w hw hvis hnq hwu v hv hpos
          apply hcl w hw hvis _ v hv hpos
          rw [hq]
          intro hm
          rcases List.mem_cons.1 hm with e | hm
          · exact hwu e
          · exact hnq hm
        · intro v hv; omega
      have hn := scan_inv h0 n (le_refl n)
      apply ih hn.inv _ h
      intro w hw hvis hnq v hv hpos
      by_cases hwu : w = u
      · subst hwu; exact hn.done v hv hpos
      · exact hn.others w hw hvis hnq hwu v hv hpos

theorem bfsInit_inv (res : Matrix) (n source : Nat) (parent : List Int)
    (hn : res.length = n) (hs : source < n) (hp : parent.length = n) :
    BFSInv res n source (bfsInit res source parent) ∧
      Closed res n (bfsInit res source parent) := by
  have hvl : source < (List.replicate res.length false).length := by simp [hn, hs]
  have hvis : ∀ w, Vis (bfsInit res source parent) w ↔ w = source := by
    intro w
    unfold Vis bfsInit
    simp only
    rw [getD_set_bool _ _ _ _ _ hvl]
    by_cases hw : w = source
    · simp [hw]
    · simp only [hw, if_false, List.getD_eq_getElem?_getD, List.getElem?_replicate]
      split <;> simp
  refine ⟨⟨by simp [bfsInit, hn], by simp [bfsInit, hp], hs, (hvis _).2 rfl, ?_, ?_⟩, ?_⟩
  · intro v hv
    simp only [bfsInit, List.mem_singleton] at hv
    subst hv
    exact ⟨hs, (hvis _).2 rfl⟩
  · intro v _ hv
    rw [(hvis v).1 hv]
    refine ⟨[source], ParentPath.base hs, ?_⟩
    intro w hw
    simp at hw
    exact (hvis w).2 hw
  · intro w _ hw hnq
    rw [(hvis w).1 hw] at hnq
    simp [bfsInit] at hnq

theorem bfsInit_measure (res : Matrix) (n source : Nat) (parent : List Int)
    (hn : res.length = n) (hs : source < n) :
    bfsMeasure (bfsInit res source parent) = n := by
  unfold bfsMeasure bfsInit
  simp only [List.length_singleton]
  have h := count_false_set (List.replicate res.length false) source (by simp [hn, hs])
    (by simp only [List.getD_eq_getElem?_getD, List.getElem?_replicate]; split <;> rfl)
  have h2 : (List.replicate res.length false).count false = n := by
    rw [List.count_replicate_self, hn]
  omega

/-- With fuel at least `n` the while loop of `BFS` exits. -/
theorem bfsRun_total {res : Matrix} {n source : Nat} (parent : List Int) {fuel : Nat}
    (hn : res.length = n) (hs : source < n) (hf : n ≤ fuel) :
    ∃ st, bfsRun fuel res source parent = some st := by
  unfold bfsRun
  apply bfsLoop_total
  · simp [bfsInit]
  · rw [bfsInit_measure res n source parent hn hs]; exact hf

/-- What `BFS` has established when its loop exits: the visited vertices are the
vertices reachable from `source`, and each of them has a parent path. -/
theorem bfsRun_spec {res : Matrix} {n source : Nat} {parent : List Int} {fuel : Nat}
    {st : BFSState} (hn : res.length = n) (hs : source < n) (hp : parent.length = n)
    (h : bfsRun fuel res source parent = some st) :
    st.parent.length = n ∧
    (∀ v, v < n → (Vis st v ↔ Reach res n source v)) ∧
    (∀ v, v < n → Vis st v → ∃ p, ParentPath res st.parent n source v p) := by
  unfold bfsRun at h
  rw [hn] at h
  obtain ⟨hi, hc⟩ := bfsInit_inv res n source parent hn hs hp
  obtain ⟨hinv, hcl, hq⟩ := bfsLoop_inv fuel hi hc h
  refine ⟨hinv.plen, ?_, ?_⟩
  · intro v hv
    constructor
    · intro hvis
      obtain ⟨p, hp, _⟩ := hinv.chain v hv hvis
      exact hp.reach
    · intro hr
      induction hr with
      | refl => exact hinv.src
      | @tail b c _ he ih =>
        exact hcl b he.1 (ih he.1) (by rw [hq]; simp) c he.2.1 he.2.2
  · intro v hv hvis
    obtain ⟨p, hp, _⟩ := hinv.chain v hv hvis
    exact ⟨p, hp⟩

/-! ## The two parent walks -/

theorem parentOf_eq {parent : List Int} {v u : Nat} (h : parent.getD v (-1) = (u : Int)) :
    parentOf parent v = u := by
  unfold parentOf; rw [h]; simp

theorem bottleneck_spec {res : Matrix} {parent : List Int} {n source v : Nat} {p : List Nat}
    (hp : ParentPath res parent n source v p) (fuel : Nat) (pf : Int)
    (hf : p.length ≤ fuel + 1) :
    ∃ r, bottleneck res parent source fuel v pf = some r ∧ r ≤ pf ∧ (0 < pf → 0 < r) ∧
      ∀ w ∈ p, w ≠ source → r ≤ rd res (parentOf parent w) w := by
  induction hp generalizing fuel pf with
  | base h =>
    refine ⟨pf, ?_, le_refl _, fun h => h, ?_⟩
    · cases fuel <;> simp [bottleneck]
    · intro w hw hne; simp at hw; exact absurd hw hne
  | @step u v p hv hne hpar hpos hn hu ih =>
    have hlen : 1 ≤ p.length := List.length_pos_of_mem hu.head_mem
    obtain ⟨g, rfl⟩ : ∃ g, fuel = g + 1 := ⟨fuel - 1, by simp at hf; omega⟩
    have hpo := parentOf_eq hpar
    obtain ⟨r, hr, hle, hposr, hall⟩ := ih g (min pf (rd res u v)) (by simpa using hf)
    refine ⟨r, ?_, le_trans hle (min_le_left _ _), ?_, ?_⟩
    · simp only [bottleneck, hne, if_false, hpo]; exact hr
    · intro h; exact hposr (lt_min h hpos)
    · intro w hw hws
      rcases List.mem_cons.1 hw with rfl | hw
      · rw [hpo]; exact le_trans hle (min_le_right _ _)
      · exact hall w hw hws

theorem Square.pushEdge {n : Nat} {M : Matrix} (h : Square n M) (u v : Nat) (pf : Int) :
    Square n (pushEdge M u v pf) := by
  unfold MaxFlow.pushEdge
  exact (h.wr _ _ _).wr _ _ _

theorem rd_pushEdge {n : Nat} {M : Matrix} (h : Square n M) {u v : Nat} (hu : u < n)
    (hv : v < n) (huv : u ≠ v) (pf : Int) (a b : Nat) :
    rd (pushEdge M u v pf) a b =
      rd M a b - (if a = u ∧ b = v then pf else 0) + (if a = v ∧ b = u then pf else 0) := by
  unfold pushEdge
  simp only
  rw [rd_wr (h.wr _ _ _) hv hu, rd_wr h hu hv, rd_wr h hu hv]
  by_cases h1 : a = v ∧ b = u
  · have h2 : ¬ (a = u ∧ b = v) := by
      rintro ⟨e1, _⟩; exact huv (e1.symm.trans h1.1)
    have h3 : ¬ (v = u ∧ u = v) := by
      rintro ⟨e1, _⟩; exact huv e1.symm
    rw [if_pos h1, if_neg h3, if_neg h2, if_pos h1, h1.1, h1.2]; ring
  · rw [if_neg h1, if_neg h1]
    by_cases h2 : a = u ∧ b = v
    · rw [if_pos h2, if_pos h2, h2.1, h2.2]; ring
    · rw [if_neg h2, if_neg h2]; ring

theorem sum_range_ite_eq (n v : Nat) (hv : v < n) (c : Prop) [Decidable c] (x : Int) :
    ∑ b in Finset.range n, (if c ∧ b = v then x else 0) = if c then x else 0 := by
  by_cases hc : c
  · simp only [hc, true_and, if_true]
    rw [Finset.sum_ite_eq' (Finset.range n) v (fun _ => x)]
    simp [hv]
  · simp [hc]

theorem rowSum_pushEdge {n : Nat} {M : Matrix} (h : Square n M) {u v : Nat} (hu : u < n)
    (hv : v < n) (huv : u ≠ v) (pf : Int) (w : Nat) :
    rowSum n (pushEdge M u v pf) w =
      rowSum n M w - (if w = u then pf else 0) + (if w = v then pf else 0) := by
  unfold rowSum
  simp only [rd_pushEdge h hu hv huv]
  rw [Finset.sum_add_distrib, Finset.sum_sub_distrib, sum_range_ite_eq n v hv,
    sum_range_ite_eq n u hu]

theorem augment_spec {res0 : Matrix} {parent : List Int} {n source v : Nat} {p : List Nat}
    (hp : ParentPath res0 parent n source v p) (pf : Int) (hpf : 0 ≤ pf) (fuel : Nat)
    (R : Matrix) (hR : Square n R)
    (hcap : ∀ w ∈ p, w ≠ source → pf ≤ rd R (parentOf parent w) w)
    (hf : p.length ≤ fuel + 1) :
    ∃ R', augment parent source pf fuel v R = some R' ∧ Square n R' ∧
      (∀ a b, a < n → b < n → rd R' a b + rd R' b a = rd R a b + rd R b a) ∧
      (∀ a b, a < n → b < n → min 0 (rd R a b) ≤ rd R' a b) ∧
      (∀ w, w < n → rowSum n R' w =
        rowSum n R w + (if w = v then pf else 0) - (if w = source then pf else 0)) := by
  induction hp generalizing fuel R with
  | base h =>
    refine ⟨R, ?_, hR, fun _ _ _ _ => rfl, fun a b _ _ => min_le_right _ _, ?_⟩
    · cases fuel <;> simp [augment]
    · intro w _; ring
  | @step u v p hv hne hpar hpos hn hu ih =>
    have hlen : 1 ≤ p.length := List.length_pos_of_mem hu.head_mem
    obtain ⟨g, rfl⟩ : ∃ g, fuel = g + 1 := ⟨fuel - 1, by simp at hf; omega⟩
    have hpo := parentOf_eq hpar
    have hult := hu.lt
    have huv : u ≠ v := by
      intro e; subst e; exact hn hu.head_mem
    have hrd := rd_pushEdge hR hult hv huv pf
    have hcapv : pf ≤ rd R u v := by
      have := hcap v (List.mem_cons_self _ _) hne
      rwa [hpo] at this
    obtain ⟨R', hR', hsq, hpair, hlow, hrow⟩ := ih g (pushEdge R u v pf)
      (hR.pushEdge _ _ _) (by
        intro w hw hws
        have hwv : w ≠ v := by intro e; subst e; exact hn hw
        rw [hrd]
        have h1 : ¬ (parentOf parent w = u ∧ w = v) := fun ⟨_, e⟩ => hwv e
        rw [if_neg h1]
        have := hcap w (List.mem_cons_of_mem _ hw) hws
        split <;> omega) (by simpa using hf)
    refine ⟨R', ?_, hsq, ?_, ?_, ?_⟩
    · simp only [augment, hne, if_false, hpo]; exact hR'
    · intro a b ha hb
      rw [hpair a b ha hb, hrd, hrd]
      by_cases h1 : a = u ∧ b = v
      · have h2 : ¬ (a = v ∧ b = u) := fun ⟨e, _⟩ => huv (h1.1.symm.trans e)
        have h3 : b = v ∧ a = u := ⟨h1.2, h1.1⟩
        have h4 : ¬ (b = u ∧ a = v) := fun ⟨e, _⟩ => huv (e.symm.trans h1.2)
        rw [if_pos h1, if_neg h2, if_pos h3, if_neg h4]; ring
      · have h3 : ¬ (b = v ∧ a = u) := fun ⟨e1, e2⟩ => h1 ⟨e2, e1⟩
        rw [if_neg h1, if_neg h3]
        by_cases h2 : a = v ∧ b = u
        · have h4 : b = u ∧ a = v := ⟨h2.2, h2.1⟩
          rw [if_pos h2, if_pos h4]; ring
        · have h4 : ¬ (b = u ∧ a = v) := fun ⟨e1, e2⟩ => h2 ⟨e2, e1⟩
          rw [if_neg h2, if_neg h4]; ring
    · intro a b ha hb
      refine le_trans ?_ (hlow a b ha hb)
      apply le_min (min_le_left _ _)
      rw [hrd]
      by_cases h1 : a = u ∧ b = v
      · have h2 : ¬ (a = v ∧ b = u) := fun ⟨e, _⟩ => huv (h1.1.symm.trans e)
        rw [if_pos h1, if_neg h2, h1.1, h1.2]
        have : min 0 (rd R u v) ≤ 0 := min_le_left _ _
        omega
      · rw [if_neg h1]
        have : min 0 (rd R a b) ≤ rd R a b := min_le_right _ _
        split <;> omega
    · intro w hw
      rw [hrow w hw, rowSum_pushEdge hR hult hv huv]
      ring

/-! ## One iteration of the main loop -/

theorem BFS_eq {fuel : Nat} {res : Matrix} {source : Nat} (sink : Nat) {parent : List Int}
    {st : BFSState} (h : bfsRun fuel res source parent = some st) :
    BFS fuel res source sink parent = some (st.visited.getD sink false, st.parent) := by
  unfold BFS; rw [h]; rfl

theorem ffInit_inv {n : Nat} {adjMatrix : Matrix} (source sink : Nat)
    (hsq : Square n adjMatrix) : FlowInv n adjMatrix source sink (ffInit adjMatrix) := by
  unfold ffInit
  refine ⟨?_, ?_, ?_, ?_, ?_, le_refl _⟩
  · simp only [copyMatrix_eq]; exact hsq
  · simp only [initParent_length]; exact hsq.1
  · intro a b _ _; simp only [copyMatrix_eq]
  · intro a b _ _; simp only [copyMatrix_eq]; exact min_le_right _ _
  · intro w _; simp only [copyMatrix_eq]; simp

theorem FlowInv.maxflow_le {n : Nat} {adjMatrix : Matrix} {source sink : Nat} {st : FFState}
    (h : FlowInv n adjMatrix source sink st) (hs : source < n) (hst : source ≠ sink) :
    st.maxflow ≤ capOut n adjMatrix source := by
  have h1 := h.rows source hs
  rw [if_pos rfl, if_neg hst] at h1
  have h2 : st.maxflow = rowSum n adjMatrix source - rowSum n st.res source := by
    rw [h1]; ring
  rw [h2]
  unfold rowSum capOut
  rw [← Finset.sum_sub_distrib]
  apply Finset.sum_le_sum
  intro v hv
  have hv' := Finset.mem_range.1 hv
  have := h.lower source v hs hv'
  rcases le_total 0 (rd adjMatrix source v) with h0 | h0
  · rw [min_eq_left h0] at this; rw [max_eq_right h0]; omega
  · rw [min_eq_right h0] at this; rw [max_eq_left h0]; omega

/-- One evaluation of the loop condition on a state that satisfies the
invariant: either `sink` is unreachable in the residual table and the loop
exits with the same table and the same `maxflow`, or an augmentation of
strictly positive value leads to a state that satisfies the invariant again. -/
theorem loopBody_spec {n : Nat} {adjMatrix : Matrix} {source sink : Nat} {st : FFState}
    (hinv : FlowInv n adjMatrix source sink st) (hs : source < n) (ht : sink < n)
    {bfsFuel walkFuel : Nat} (hin : n ≤ bfsFuel) (hwalk : n ≤ walkFuel + 1) :
    ∃ c st', loopBody bfsFuel walkFuel source sink st = some (c, st') ∧
      FlowInv n adjMatrix source sink st' ∧
      (c = false → ¬ Reach st.res n source sink ∧ st'.res = st.res ∧
        st'.maxflow = st.maxflow) ∧
      (c = true → Reach st.res n source sink ∧ st.maxflow < st'.maxflow) := by
  obtain ⟨bst, hb⟩ := bfsRun_total st.parent hinv.square.1 hs hin
  obtain ⟨hplen, hreach, hchain⟩ := bfsRun_spec hinv.square.1 hs hinv.plen hb
  have hB := BFS_eq sink hb
  cases hvis : bst.visited.getD sink false with
  | false =>
    refine ⟨false, { st with parent := bst.parent }, ?_, ?_, ?_, ?_⟩
    · unfold loopBody; rw [hB, hvis]
    · exact ⟨hinv.square, hplen, hinv.pair, hinv.lower, hinv.rows, hinv.nonneg⟩
    · intro _
      refine ⟨?_, rfl, rfl⟩
      intro hr
      have := (hreach sink ht).2 hr
      unfold Vis at this
      rw [hvis] at this
      exact Bool.noConfusion this
    · intro h; exact Bool.noConfusion h
  | true =>
    have hV : Vis bst sink := hvis
    obtain ⟨p, hp⟩ := hchain sink ht hV
    have hlen : p.length ≤ walkFuel + 1 := le_trans hp.length_le hwalk
    obtain ⟨pf, hpf, _, hpos, hcap⟩ := bottleneck_spec hp walkFuel 10000007 hlen
    have hpf0 : 0 < pf := hpos (by norm_num)
    obtain ⟨R', hR', hsq, hpair, hlow, hrow⟩ :=
      augment_spec hp pf (le_of_lt hpf0) walkFuel st.res hinv.square hcap hlen
    refine ⟨true, { res := R', parent := bst.parent, maxflow := st.maxflow + pf },
      ?_, ?_, ?_, ?_⟩
    · unfold loopBody; rw [hB, hvis]; simp only; rw [hpf]; simp only; rw [hR']
    · refine ⟨hsq, hplen, ?_, ?_, ?_, ?_⟩
      · intro a b ha hb; simp only; rw [hpair a b ha hb]; exact hinv.pair a b ha hb
      · intro a b ha hb
        simp only
        refine le_trans ?_ (hlow a b ha hb)
        exact le_min (min_le_left _ _) (hinv.lower a b ha hb)
      · intro w hw
        simp only
        rw [hrow w hw, hinv.rows w hw]
        split_ifs <;> ring
      · simp only; have := hinv.nonneg; omega
    · intro h; exact Bool.noConfusion h
    · intro _
      refine ⟨(hreach sink ht).1 hV, ?_⟩
      simp only; omega

/-- The main loop exits: the accumulated flow grows with every augmentation and
is bounded by the positive capacity leaving `source`. -/
theorem ffLoop_total {n : Nat} {adjMatrix : Matrix} {source sink : Nat}
    (hs : source < n) (ht : sink < n) (hst : source ≠ sink) {bfsFuel walkFuel : Nat}
    (hin : n ≤ bfsFuel) (hwalk : n ≤ walkFuel + 1)
    (fuel : Nat) (st : FFState) (hinv : FlowInv n adjMatrix source sink st)
    (hf : capOut n adjMatrix source ≤ st.maxflow + fuel) :
    ∃ st', ffLoop bfsFuel walkFuel source sink fuel st = some st' ∧
      FlowInv n adjMatrix source sink st' ∧ ¬ Reach st'.res n source sink := by
  induction fuel generalizing st with
  | zero =>
    obtain ⟨c, st', hb, hinv', hF, hT⟩ := loopBody_spec hinv hs ht hin hwalk
    cases c with
    | false =>
      obtain ⟨hr, hres, _⟩ := hF rfl
      exact ⟨st', by simp [ffLoop, hb], hinv', by rw [hres]; exact hr⟩
    | true =>
      have := hinv'.maxflow_le hs hst
      have := (hT rfl).2
      simp at hf
      omega
  | succ fuel ih =>
    obtain ⟨c, st', hb, hinv', hF, hT⟩ := loopBody_spec hinv hs ht hin hwalk
    cases c with
    | false =>
      obtain ⟨hr, hres, _⟩ := hF rfl
      exact ⟨st', by simp [ffLoop, hb], hinv', by rw [hres]; exact hr⟩
    | true =>
      have := (hT rfl).2
      obtain ⟨st'', h1, h2, h3⟩ := ih st' hinv' (by push_cast at hf; omega)
      exact ⟨st'', by simp only [ffLoop, hb]; exact h1, h2, h3⟩

/-- A solve on a valid input runs to completion with `enoughFuel`, and its
final state satisfies the invariant and has no residual path to `sink`. -/
theorem ffRun_spec {n : Nat} {adjMatrix : Matrix} {source sink : Nat}
    (hsq : Square n adjMatrix) (hs : source < n) (ht : sink < n) (hst : source ≠ sink)
    {fuel : Nat} (hf : enoughFuel n adjMatrix source ≤ fuel) :
    ∃ st, ffRun fuel adjMatrix source sink = some st ∧
      FlowInv n adjMatrix source sink st ∧ ¬ Reach st.res n source sink := by
  unfold ffRun
  unfold enoughFuel at hf
  apply ffLoop_total hs ht hst (by omega) (by omega) fuel _ (ffInit_inv source sink hsq)
  have : (ffInit adjMatrix).maxflow = 0 := rfl
  rw [this]
  have := Int.self_le_toNat (capOut n adjMatrix source)
  omega

/-! ## Flows and cuts -/

theorem NonNeg.rd {M : Matrix} (h : NonNeg M) (u v : Nat) : 0 ≤ rd M u v := by
  unfold MaxFlow.rd
  simp only [List.getD_eq_getElem?_getD]
  cases hu : M[u]? with
  | none => simp
  | some row =>
    simp only [Option.getD_some]
    cases hv : row[v]? with
    | none => simp
    | some x =>
      simp only [Option.getD_some]
      exact h row (List.getElem?_mem hu) x (List.getElem?_mem hv)

/-- What crosses a cut: the net outflow summed over the source side equals the
net flow over the pairs that cross the cut. -/
theorem cut_identity (n : Nat) (f : Nat → Nat → Int) (inS : Nat → Bool) :
    ∑ u in Finset.range n, (if inS u = true then
        (∑ v in Finset.range n, f u v - ∑ v in Finset.range n, f v u) else 0) =
    ∑ u in Finset.range n, ∑ v in Finset.range n,
      (if inS u = true ∧ inS v = false then f u v - f v u else 0) := by
  set h : Nat → Nat → Int :=
    fun u v => if inS u = true ∧ inS v = true then f u v - f v u else 0 with hh
  have hX : ∑ u in Finset.range n, ∑ v in Finset.range n, h u v = 0 := by
    have h1 : ∑ u in Finset.range n, ∑ v in Finset.range n, h u v =
        ∑ u in Finset.range n, ∑ v in Finset.range n, h v u := Finset.sum_comm
    have h2 : ∑ u in Finset.range n, ∑ v in Finset.range n, h v u =
        - ∑ u in Finset.range n, ∑ v in Finset.range n, h u v := by
      rw [← Finset.sum_neg_distrib]
      apply Finset.sum_congr rfl
      intro u _
      rw [← Finset.sum_neg_distrib]
      apply Finset.sum_congr rfl
      intro v _
      simp only [hh]
      by_cases hu : inS u = true <;> by_cases hv : inS v = true <;> simp [hu, hv]
    rw [h2] at h1
    omega
  have hsplit : ∀ u, (if inS u = true then
        (∑ v in Finset.range n, f u v - ∑ v in Finset.range n, f v u) else 0) =
      ∑ v in Finset.range n, h u v + ∑ v in Finset.range n,
        (if inS u = true ∧ inS v = false then f u v - f v u else 0) := by
    intro u
    rw [← Finset.sum_add_distrib]
    by_cases hu : inS u = true
    · rw [if_pos hu, ← Finset.sum_sub_distrib]
      apply Finset.sum_congr rfl
      intro v _
      simp only [hh]
      cases hv : inS v <;> simp [hu]
    · rw [if_neg hu]
      symm
      apply Finset.sum_eq_zero
      intro v _
      simp [hh, hu]
  simp only [hsplit]
  rw [Finset.sum_add_distrib, hX, zero_add]

/-- For a flow that is conserved away from `source` and `sink`, the net outflow
of the source side of a cut is the value of the flow. -/
theorem value_eq_side_sum {n source sink : Nat} (f : Nat → Nat → Int) (inS : Nat → Bool)
    (hcons : ∀ w, w < n → w ≠ source → w ≠ sink →
      ∑ v in Finset.range n, f v w = ∑ v in Finset.range n, f w v)
    (hs : source < n) (hS : inS source = true) (hT : inS sink = false) :
    flowValue n source f =
      ∑ u in Finset.range n, (if inS u = true then
        (∑ v in Finset.range n, f u v - ∑ v in Finset.range n, f v u) else 0) := by
  have : ∀ u ∈ Finset.range n, (if inS u = true then
        (∑ v in Finset.range n, f u v - ∑ v in Finset.range n, f v u) else 0) =
      if u = source then flowValue n source f else 0 := by
    intro u hu
    have hu' := Finset.mem_range.1 hu
    by_cases h1 : u = source
    · subst h1; rw [if_pos hS, if_pos rfl]; rfl
    · rw [if_neg h1]
      by_cases h2 : u = sink
      · subst h2; simp [hT]
      · rw [hcons u hu' h1 h2]; simp
  rw [Finset.sum_congr rfl this, Finset.sum_ite_eq' (Finset.range n) source]
  simp [hs]

/-- Weak duality: no feasible flow has a value above the capacity of a cut that
separates `source` from `sink`. -/
theorem flowValue_le_cutCap {n : Nat} {adjMatrix : Matrix} {source sink : Nat}
    {f : Nat → Nat → Int} (hf : Feasible n adjMatrix source sink f) (inS : Nat → Bool)
    (hs : source < n) (hS : inS source = true) (hT : inS sink = false) :
    flowValue n source f ≤ cutCap n adjMatrix inS := by
  rw [value_eq_side_sum f inS hf.conserve hs hS hT, cut_identity]
  unfold cutCap
  apply Finset.sum_le_sum
  intro u hu
  apply Finset.sum_le_sum
  intro v hv
  have hu' := Finset.mem_range.1 hu
  have hv' := Finset.mem_range.1 hv
  split
  · have h1 := hf.le_cap u v hu' hv'
    have h2 := hf.nonneg v u hv' hu'
    omega
  · exact le_refl _

theorem flowOf_sub {n : Nat} {adjMatrix : Matrix} {source sink : Nat} {st : FFState}
    (h : FlowInv n adjMatrix source sink st) {u v : Nat} (hu : u < n) (hv : v < n) :
    flowOf adjMatrix st.res u v - flowOf adjMatrix st.res v u =
      rd adjMatrix u v - rd st.res u v := by
  have hp := h.pair u v hu hv
  unfold flowOf
  rcases le_total 0 (rd adjMatrix u v - rd st.res u v) with h0 | h0
  · rw [max_eq_right h0, max_eq_left (by omega)]; ring
  · rw [max_eq_left h0, max_eq_right (by omega)]; omega

theorem flowOf_net {n : Nat} {adjMatrix : Matrix} {source sink : Nat} {st : FFState}
    (h : FlowInv n adjMatrix source sink st) {w : Nat} (hw : w < n) :
    ∑ v in Finset.range n, flowOf adjMatrix st.res w v -
        ∑ v in Finset.range n, flowOf adjMatrix st.res v w =
      (if w = source then st.maxflow else 0) - (if w = sink then st.maxflow else 0) := by
  rw [← Finset.sum_sub_distrib]
  have : ∀ v ∈ Finset.range n, flowOf adjMatrix st.res w v - flowOf adjMatrix st.res v w =
      rd adjMatrix w v - rd st.res w v := fun v hv =>
    flowOf_sub h hw (Finset.mem_range.1 hv)
  rw [Finset.sum_congr rfl this, Finset.sum_sub_distrib]
  have := h.rows w hw
  unfold rowSum at this
  rw [this]; ring

/-- The flow carried by the residual table of a state of the main loop is
feasible and its value is the accumulated `maxflow`. -/
theorem flowOf_feasible {n : Nat} {adjMatrix : Matrix} {source sink : Nat} {st : FFState}
    (h : FlowInv n adjMatrix source sink st) (hnn : NonNeg adjMatrix)
    (hs : source < n) (hst : source ≠ sink) :
    Feasible n adjMatrix source sink (flowOf adjMatrix st.res) ∧
      flowValue n source (flowOf adjMatrix st.res) = st.maxflow := by
  refine ⟨⟨?_, ?_, ?_⟩, ?_⟩
  · intro u v _ _; exact le_max_left _ _
  · intro u v hu hv
    have h1 := h.lower u v hu hv
    have h2 := hnn.rd u v
    rw [min_eq_left h2] at h1
    unfold flowOf
    apply max_le h2
    omega
  · intro w hw h1 h2
    have := flowOf_net h hw
    rw [if_neg h1, if_neg h2] at this
    omega
  · have := flowOf_net h hs
    rw [if_pos rfl, if_neg hst] at this
    unfold flowValue
    omega

/-- When `sink` cannot be reached in the residual table, the cut around the
vertices that can be reached has capacity `maxflow`. -/
theorem cutCap_eq_maxflow {n : Nat} {adjMatrix : Matrix} {source sink : Nat} {st : FFState}
    (h : FlowInv n adjMatrix source sink st) (hnn : NonNeg adjMatrix)
    (hs : source < n) (hst : source ≠ sink) (inS : Nat → Bool)
    (hin : ∀ v, v < n → (inS v = true ↔ Reach st.res n source v))
    (hT : inS sink = false) :
    cutCap n adjMatrix inS = st.maxflow := by
  obtain ⟨hfeas, hval⟩ := flowOf_feasible h hnn hs hst
  have hS : inS source = true := (hin source hs).2 Relation.ReflTransGen.refl
  rw [← hval, value_eq_side_sum _ inS hfeas.conserve hs hS hT, cut_identity]
  unfold cutCap
  apply Finset.sum_congr rfl
  intro u hu
  apply Finset.sum_congr rfl
  intro v hv
  have hu' := Finset.mem_range.1 hu
  have hv' := Finset.mem_range.1 hv
  by_cases hc : inS u = true ∧ inS v = false
  · rw [if_pos hc, if_pos hc, flowOf_sub h hu' hv']
    have hr : ¬ 0 < rd st.res u v := by
      intro hpos
      have : Reach st.res n source v :=
        Relation.ReflTransGen.tail ((hin u hu').1 hc.1) ⟨hu', hv', hpos⟩
      have := (hin v hv').2 this
      rw [hc.2] at this
      exact Bool.noConfusion this
    have h1 := h.lower u v hu' hv'
    rw [min_eq_left (hnn.rd u v)] at h1
    omega
  · rw [if_neg hc, if_neg hc]

/-! ## The result of a solve -/

theorem capOut_eq_rowSum {n : Nat} {adjMatrix : Matrix} (hnn : NonNeg adjMatrix)
    (source : Nat) : capOut n adjMatrix source = rowSum n adjMatrix source := by
  unfold capOut rowSum
  apply Finset.sum_congr rfl
  intro v _
  exact max_eq_right (hnn.rd source v)

theorem FordFulkerson_of_ffRun {fuel : Nat} {adjMatrix : Matrix} {source sink : Nat}
    {st : FFState} (h : ffRun fuel adjMatrix source sink = some st) :
    FordFulkerson fuel adjMatrix source sink = some st.maxflow := by
  unfold FordFulkerson; rw [h]; rfl

/-- The state in which a solve on a valid input ends, the same for every
sufficient amount of fuel. -/
theorem solve_spec {n : Nat} {adjMatrix : Matrix} {source sink : Nat}
    (hsq : Square n adjMatrix) (hs : source < n) (ht : sink < n) (hst : source ≠ sink) :
    ∃ st, FlowInv n adjMatrix source sink st ∧ ¬ Reach st.res n source sink ∧
      (∀ fuel, enoughFuel n adjMatrix source ≤ fuel →
        ffRun fuel adjMatrix source sink = some st) ∧
      (∀ fuel r, FordFulkerson fuel adjMatrix source sink = some r → r = st.maxflow) := by
  obtain ⟨st, hrun, hinv, hno⟩ := ffRun_spec hsq hs ht hst (le_refl _)
  refine ⟨st, hinv, hno, fun fuel hf => ffRun_mono hf hrun, ?_⟩
  intro fuel r hr
  exact FordFulkerson_fuel_unique hr (FordFulkerson_of_ffRun hrun)

/-- The source side of the cut found by a finished solve, as a boolean test. -/
theorem exists_reach_side (res : Matrix) (n source : Nat) :
    ∃ inS : Nat → Bool, ∀ v, inS v = true ↔ Reach res n source v := by
  classical
  exact ⟨fun v => decide (Reach res n source v), fun v => by simp⟩

/-- Over unbounded integers: on every `n × n` table of non-negative capacities
and every `source ≠ sink` in `[0, n)`, `FordFulkerson` returns a value `r`
(with any sufficient fuel, and no other value with any fuel) that is the
maximum flow value: some feasible flow has value `r` and no feasible flow has a
larger value. -/
theorem unbounded_returns_max_flow (n : Nat) (adjMatrix : Matrix) (source sink : Nat)
    (hsq : Square n adjMatrix) (hnn : NonNeg adjMatrix) (hs : source < n) (ht : sink < n)
    (hst : source ≠ sink) :
    ∃ r : Int,
      (∀ fuel, enoughFuel n adjMatrix source ≤ fuel →
        FordFulkerson fuel adjMatrix source sink = some r) ∧
      (∀ fuel r', FordFulkerson fuel adjMatrix source sink = some r' → r' = r) ∧
      (∃ f, Feasible n adjMatrix source sink f ∧ flowValue n source f = r) ∧
      (∀ g, Feasible n adjMatrix source sink g → flowValue n source g ≤ r) := by
  obtain ⟨st, hinv, hno, hrun, huniq⟩ := solve_spec hsq hs ht hst
  obtain ⟨hfeas, hval⟩ := flowOf_feasible hinv hnn hs hst
  obtain ⟨inS, hin⟩ := exists_reach_side st.res n source
  have hS : inS source = true := (hin source).2 Relation.ReflTransGen.refl
  have hT : inS sink = false := by
    cases h : inS sink with
    | false => rfl
    | true => exact absurd ((hin sink).1 h) hno
  have hcut := cutCap_eq_maxflow hinv hnn hs hst inS (fun v _ => hin v) hT
  refine ⟨st.maxflow, fun fuel hf => FordFulkerson_of_ffRun (hrun fuel hf), huniq,
    ⟨_, hfeas, hval⟩, ?_⟩
  intro g hg
  rw [← hcut]
  exact flowValue_le_cutCap hg inS hs hS hT

/-- Over unbounded integers: when the loop of `FordFulkerson` exits on a valid
input, `sink` is not among the vertices reachable from `source` through
strictly positive entries of the final residual table, the capacity of the cut
around these vertices equals the returned `maxflow`, and no cut that separates
`source` from `sink` has a smaller capacity. -/
theorem unbounded_final_cut_is_minimum (n : Nat) (adjMatrix : Matrix) (source sink : Nat)
    (hsq : Square n adjMatrix) (hnn : NonNeg adjMatrix) (hs : source < n) (ht : sink < n)
    (hst : source ≠ sink) :
    ∃ st : FFState,
      (∀ fuel, enoughFuel n adjMatrix source ≤ fuel →
        ffRun fuel adjMatrix source sink = some st ∧
        FordFulkerson fuel adjMatrix source sink = some st.maxflow) ∧
      ¬ Reach st.res n source sink ∧
      (∃ inS : Nat → Bool, (∀ v, inS v = true ↔ Reach st.res n source v) ∧
        inS source = true ∧ inS sink = false ∧ cutCap n adjMatrix inS = st.maxflow) ∧
      (∀ C : Nat → Bool, C source = true → C sink = false →
        st.maxflow ≤ cutCap n adjMatrix C) := by
  obtain ⟨st, hinv, hno, hrun, _⟩ := solve_spec hsq hs ht hst
  obtain ⟨hfeas, hval⟩ := flowOf_feasible hinv hnn hs hst
  obtain ⟨inS, hin⟩ := exists_reach_side st.res n source
  have hS : inS source = true := (hin source).2 Relation.ReflTransGen.refl
  have hT : inS sink = false := by
    cases h : inS sink with
    | false => rfl
    | true => exact absurd ((hin sink).1 h) hno
  refine ⟨st, fun fuel hf => ⟨hrun fuel hf, FordFulkerson_of_ffRun (hrun fuel hf)⟩, hno,
    ⟨inS, hin, hS, hT, cutCap_eq_maxflow hinv hnn hs hst inS (fun v _ => hin v) hT⟩, ?_⟩
  intro C hCs hCt
  rw [← hval]
  exact flowValue_le_cutCap hfeas C hs hCs hCt

/-! ## The example graph -/

theorem FordFulkerson_example_0_5 : FordFulkerson 6 FormAdjMatrix 0 5 = some 24 := by
  decide

theorem FordFulkerson_example_5_0 : FordFulkerson 6 FormAdjMatrix 5 0 = some 0 := by
  decide

/-- C3, as the code behaves: on the example graph of `FormAdjMatrix()` the call
`FordFulkerson(G, 0, 5)` returns 24, with every amount of fuel from 6 on. -/
theorem C3_example_returns_24 (fuel : Nat) (hf : 6 ≤ fuel) :
    FordFulkerson fuel FormAdjMatrix 0 5 = some 24 :=
  FordFulkerson_mono hf FordFulkerson_example_0_5

/-- C3 with fuel 6. -/
theorem C3_example_returns_24_witness :
    6 ≤ 6 ∧ FordFulkerson 6 FormAdjMatrix 0 5 = some 24 :=
  ⟨by decide, C3_example_returns_24 6 (by decide)⟩

/-- C3 as stated fails: no amount of fuel makes `FordFulkerson(G, 0, 5)` return
23 on the example graph. -/
theorem C3_example_never_23 : ¬ ∃ fuel, FordFulkerson fuel FormAdjMatrix 0 5 = some 23 := by
  rintro ⟨fuel, h⟩
  have := FordFulkerson_fuel_unique h FordFulkerson_example_0_5
  omega

/-! ## Equal endpoints -/

theorem scan_vis {res : Matrix} {u : Nat} {st : BFSState} {w : Nat} (i : Nat)
    (hi : i ≤ st.visited.length) (h : Vis st w) : Vis (scan res i u st) w := by
  induction i with
  | zero => exact h
  | succ i ih =>
    rw [scan_eq_foldl_succ]
    exact (ih (by omega)).scanStep (by rw [scan_vlen]; omega)

theorem bfsLoop_vis {res : Matrix} {n : Nat} (fuel : Nat) {st st' : BFSState} {w : Nat}
    (hl : st.visited.length = n) (hw : Vis st w)
    (h : bfsLoop res n fuel st = some st') : Vis st' w := by
  induction fuel generalizing st with
  | zero =>
    cases hq : st.q with
    | nil =>
      simp only [bfsLoop, hq, Option.some.injEq] at h
      subst h; exact hw
    | cons u rest => simp [bfsLoop, hq] at h
  | succ fuel ih =>
    cases hq : st.q with
    | nil =>
      simp only [bfsLoop, hq, Option.some.injEq] at h
      subst h; exact hw
    | cons u rest =>
      simp only [bfsLoop, hq] at h
      refine ih ?_ ?_ h
      · rw [scan_vlen]; exact hl
      · exact scan_vis n (le_of_eq hl.symm) hw

/-- With `sink` equal to `source`, `BFS` can only answer true. -/
theorem BFS_self {fuel : Nat} {res : Matrix} {s : Nat} {parent : List Int}
    {b : Bool} {p : List Int} (hs : s < res.length)
    (h : BFS fuel res s s parent = some (b, p)) : b = true := by
  unfold BFS bfsRun at h
  cases hb : bfsLoop res res.length fuel (bfsInit res s parent) with
  | none => simp [hb] at h
  | some st =>
    rw [hb] at h
    simp only [Option.map_some', Option.some.injEq, Prod.mk.injEq] at h
    rw [← h.1]
    have h0 : Vis (bfsInit res s parent) s := by
      unfold Vis bfsInit
      simp only
      rw [getD_set_bool _ _ _ _ _ (by simpa using hs)]
      simp
    exact bfsLoop_vis fuel (by simp [bfsInit]) h0 hb

theorem bottleneck_self (res : Matrix) (parent : List Int) (s fuel : Nat) (pf : Int) :
    bottleneck res parent s fuel s pf = some pf := by
  cases fuel <;> simp [bottleneck]

theorem augment_self (parent : List Int) (s fuel : Nat) (pf : Int) (res : Matrix) :
    augment parent s pf fuel s res = some res := by
  cases fuel <;> simp [augment]

/-! ## No path from `source` to `sink` -/

theorem Reach.weak {res : Matrix} {n u v : Nat} (h : Reach res n u v) :
    WeakReach res n u v :=
  Relation.ReflTransGen.mono (fun _ _ he => Or.inl he) h

/-- C9: on a valid input with no directed path of strictly positive capacity
from `source` to `sink` (in particular when the two lie in different weakly
connected components of the positive-capacity graph), the first call of `BFS`
answers false and `FordFulkerson` returns 0. -/
theorem C9_unreachable_sink_returns_zero (n : Nat) (adjMatrix : Matrix) (source sink : Nat)
    (hsq : Square n adjMatrix) (hs : source < n) (ht : sink < n)
    (hno : ¬ Reach adjMatrix n source sink ∨ ¬ WeakReach adjMatrix n source sink)
    (fuel : Nat) (hf : n ≤ fuel) :
    (∃ p, BFS fuel (ffInit adjMatrix).res source sink (ffInit adjMatrix).parent
      = some (false, p)) ∧
    FordFulkerson fuel adjMatrix source sink = some 0 := by
  have hno' : ¬ Reach adjMatrix n source sink := by
    rcases hno with h | h
    · exact h
    · exact fun hr => h hr.weak
  have hres : (ffInit adjMatrix).res = adjMatrix := copyMatrix_eq _
  have hpl : (ffInit adjMatrix).parent.length = n := by
    simp only [ffInit, initParent_length]; exact hsq.1
  obtain ⟨bst, hrun⟩ := @bfsRun_total (ffInit adjMatrix).res n source
    (ffInit adjMatrix).parent fuel (by rw [hres]; exact hsq.1) hs hf
  obtain ⟨_, hreach, _⟩ := bfsRun_spec (by rw [hres]; exact hsq.1) hs hpl hrun
  have hB := BFS_eq sink hrun
  have hvis : bst.visited.getD sink false = false := by
    cases h : bst.visited.getD sink false with
    | false => rfl
    | true =>
      have := (hreach sink ht).1 h
      rw [hres] at this
      exact absurd this hno'
  rw [hvis] at hB
  refine ⟨⟨_, hB⟩, ?_⟩
  have hbody : loopBody fuel fuel source sink (ffInit adjMatrix)
      = some (false, { ffInit adjMatrix with parent := bst.parent }) := by
    unfold loopBody; rw [hB]
  have hloop : ffLoop fuel fuel source sink fuel (ffInit adjMatrix)
      = some { ffInit adjMatrix with parent := bst.parent } := by
    cases fuel <;> simp [ffLoop, hbody]
  unfold FordFulkerson ffRun
  rw [hloop]
  rfl

theorem FormAdjMatrix_no_edge_from_5 (c : Nat) : ¬ Edge FormAdjMatrix 6 5 c := by
  rintro ⟨_, hc, hpos⟩
  interval_cases c <;> revert hpos <;> decide

/-- C9 at the example graph, from vertex 5 (which has no outgoing edge) to
vertex 0. -/
theorem C9_unreachable_sink_returns_zero_witness :
    Square 6 FormAdjMatrix ∧ ¬ Reach FormAdjMatrix 6 5 0 ∧
    (∃ p, BFS 6 (ffInit FormAdjMatrix).res 5 0 (ffInit FormAdjMatrix).parent
      = some (false, p)) ∧
    FordFulkerson 6 FormAdjMatrix 5 0 = some 0 := by
  have hno : ¬ Reach FormAdjMatrix 6 5 0 := by
    intro h
    rcases Relation.ReflTransGen.cases_head h with h0 | ⟨c, hc, _⟩
    · exact absurd h0 (by decide)
    · exact FormAdjMatrix_no_edge_from_5 c hc
  exact ⟨by decide, hno,
    C9_unreachable_sink_returns_zero 6 FormAdjMatrix 5 0 (by decide) (by decide) (by decide)
      (Or.inl hno) 6 (le_refl 6)⟩

/-! ## The two directions of the example -/

/-- C10: on the example graph the solver is not symmetric in its endpoints: the
calls `FordFulkerson(G, 0, 5)` and `FordFulkerson(G, 5, 0)` return the
different values 24 and 0. -/
theorem C10_example_not_symmetric :
    ∃ a b : Int, a ≠ b ∧ ∀ fuel, 6 ≤ fuel →
      FordFulkerson fuel FormAdjMatrix 0 5 = some a ∧
      FordFulkerson fuel FormAdjMatrix 5 0 = some b ∧
      FordFulkerson fuel FormAdjMatrix 0 5 ≠ FordFulkerson fuel FormAdjMatrix 5 0 := by
  refine ⟨24, 0, by decide, ?_⟩
  intro fuel hf
  have h1 := FordFulkerson_mono hf FordFulkerson_example_0_5
  have h2 := FordFulkerson_mono hf FordFulkerson_example_5_0
  refine ⟨h1, h2, ?_⟩
  rw [h1, h2]
  decide

/-! ## Levels of the breadth-first search -/

theorem scanStep_level {res : Matrix} {n source u i : Nat} {st : BFSState} {d : Nat → Nat}
    (h : ScanInv res n source u i st) (hl : LevelScan res n source u i st d) (hi : i < n) :
    ∃ d', LevelScan res n source u (i + 1) (scanStep res u st i) d' := by
  have hvl : i < st.visited.length := by rw [h.inv.vlen]; exact hi
  have hpl : i < st.parent.length := by rw [h.inv.plen]; exact hi
  by_cases hc : st.visited.getD i false = false ∧ rd res u i > 0
  · have hstep : scanStep res u st i =
        { q := st.q ++ [i], parent := st.parent.set i (u : Int),
          visited := st.visited.set i true } := by
      unfold scanStep; rw [if_pos hc]
    have hmono : ∀ w, Vis st w → Vis (scanStep res u st i) w := fun w hw => hw.scanStep hvl
    have hold : ∀ w, Vis (scanStep res u st i) w → w = i ∨ Vis st w := by
      intro w hw
      rw [hstep] at hw; unfold Vis at hw; simp only at hw
      rw [getD_set_bool _ _ _ _ _ hvl] at hw
      by_cases hwi : w = i
      · exact Or.inl hwi
      · rw [if_neg hwi] at hw; exact Or.inr hw
    have hnotvis : ¬ Vis st i := by unfold Vis; rw [hc.1]; simp
    have hne : ∀ w, Vis st w → w ≠ i := by
      intro w hw e; subst e; exact hnotvis hw
    have hpar : ∀ w, w ≠ i →
        (scanStep res u st i).parent.getD w (-1) = st.parent.getD w (-1) := by
      intro w hw
      rw [hstep]; simp only
      rw [getD_set_int _ _ _ _ _ hpl, if_neg hw]
    have hpari : (scanStep res u st i).parent.getD i (-1) = (u : Int) := by
      rw [hstep]; simp only
      rw [getD_set_int _ _ _ _ _ hpl, if_pos rfl]
    have hq : (scanStep res u st i).q = st.q ++ [i] := by rw [hstep]
    have hd : ∀ w, w ≠ i → Function.update d i (d u + 1) w = d w :=
      fun w hw => Function.update_noteq hw _ _
    have hdi : Function.update d i (d u + 1) i = d u + 1 := Function.update_same _ _ _
    have hdu := hd u (hne u h.uvis)
    have hqv : ∀ x ∈ st.q, x ≠ i := fun x hx => hne x (h.inv.qvis x hx).2
    refine ⟨Function.update d i (d u + 1), ⟨⟨?_, ?_, ?_, ?_, ?_, ?_⟩, ?_, ?_⟩⟩
    · rw [hd _ (hne _ h.inv.src)]; exact hl.lvl.dsrc
    · rw [hpar _ (hne _ h.inv.src)]; exact hl.lvl.psrc
    · intro v hv hvis hvs
      rcases hold v hvis with rfl | hvold
      · exact ⟨u, hpari, h.ult, hmono _ h.uvis, by rw [hdi, hdu]⟩
      · obtain ⟨u0, h1, h2, h3, h4⟩ := hl.lvl.link v hv hvold hvs
        refine ⟨u0, ?_, h2, hmono _ h3, ?_⟩
        · rw [hpar _ (hne _ hvold)]; exact h1
        · rw [hd _ (hne _ hvold), hd _ (hne _ h3)]; exact h4
    · intro x hx
      rw [hq] at hx
      rw [hdu]
      rcases List.mem_append.1 hx with hx | hx
      · rw [hd _ (hqv x hx)]; exact hl.lvl.qlo x hx
      · simp at hx; subst hx; rw [hdi]; omega
    · rw [hq, List.pairwise_append]
      refine ⟨?_, List.pairwise_singleton _ _, ?_⟩
      · refine List.Pairwise.imp_of_mem ?_ hl.lvl.qsorted
        intro a b ha hb hab
        rw [hd _ (hqv a ha), hd _ (hqv b hb)]; exact hab
      · intro a ha b hb
        simp at hb; subst hb
        rw [hd _ (hqv a ha), hdi]
        exact (hl.lvl.qlo a ha).2
    · intro w hw hvis hnq
      rw [hq] at hnq
      rcases hold w hvis with rfl | hwold
      · exact absurd (List.mem_append_right _ (List.mem_singleton_self _)) hnq
      · rw [hd _ (hne _ hwold), hdu]
        exact hl.lvl.proc w hw hwold (fun hm => hnq (List.mem_append_left _ hm))
    · intro w hw hvis hnq hwu v hv hpos
      rw [hq] at hnq
      rcases hold w hvis with rfl | hwold
      · exact absurd (List.mem_append_right _ (List.mem_singleton_self _)) hnq
      · have hnq' : w ∉ st.q := fun hm => hnq (List.mem_append_left _ hm)
        have hvv := h.others w hw hwold hnq' hwu v hv hpos
        rw [hd _ (hne _ hvv), hd _ (hne _ hwold)]
        exact hl.others w hw hwold hnq' hwu v hv hpos
    · intro v hv hpos
      rw [hdu]
      rcases Nat.lt_succ_iff_lt_or_eq.1 hv with hlt | rfl
      · rw [hd _ (hne _ (h.done v hlt hpos))]; exact hl.done v hlt hpos
      · rw [hdi]
  · have hstep : scanStep res u st i = st := by
      unfold scanStep; rw [if_neg hc]
    rw [hstep]
    refine ⟨d, hl.lvl, hl.others, ?_⟩
    intro v hv hpos
    rcases Nat.lt_succ_iff_lt_or_eq.1 hv with hlt | rfl
    · exact hl.done v hlt hpos
    · have hvis : Vis st v := by
        by_contra hnv
        apply hc
        refine ⟨?_, hpos⟩
        unfold Vis at hnv
        simpa using hnv
      by_cases hm : v ∈ st.q
      · exact (hl.lvl.qlo v hm).2
      · have := hl.lvl.proc v hi hvis hm
        omega

theorem scan_level {res : Matrix} {n source u : Nat} {st : BFSState} {d : Nat → Nat}
    (h : ScanInv res n source u 0 st) (hl : LevelScan res n source u 0 st d)
    (i : Nat) (hi : i ≤ n) :
    ∃ d', LevelScan res n source u i (scan res i u st) d' := by
  induction i with
  | zero => exact ⟨d, hl⟩
  | succ i ih =>
    obtain ⟨d', hd'⟩ := ih (by omega)
    rw [scan_eq_foldl_succ]
    exact scanStep_level (scan_inv h i (by omega)) hd' (by omega)

theorem bfsLoop_level {res : Matrix} {n source : Nat} (fuel : Nat) {st st' : BFSState}
    (hinv : BFSInv res n source st) (hcl : Closed res n st)
    (hlv : ∃ d lo, LevelInv res n source st d lo ∧ Relaxed res n st d)
    (h : bfsLoop res n fuel st = some st') :
    ∃ d lo, LevelInv res n source st' d lo ∧ Relaxed res n st' d := by
  induction fuel generalizing st with
  | zero =>
    cases hq : st.q with
    | nil =>
      simp only [bfsLoop, hq, Option.some.injEq] at h
      subst h; exact hlv
    | cons u rest => simp [bfsLoop, hq] at h
  | succ fuel ih =>
    cases hq : st.q with
    | nil =>
      simp only [bfsLoop, hq, Option.some.injEq] at h
      subst h; exact hlv
    | cons u rest =>
      simp only [bfsLoop, hq] at h
      obtain ⟨d, lo, hL, hR⟩ := hlv
      have hu := hinv.qvis u (by rw [hq]; exact List.mem_cons_self _ _)
      have hmem : ∀ w, w ∉ rest → w ≠ u → w ∉ st.q := by
        intro w hnq hwu hm
        rw [hq] at hm
        rcases List.mem_cons.1 hm with e | hm
        · exact hwu e
        · exact hnq hm
      have h0 : ScanInv res n source u 0 { st with q := rest } := by
        refine ⟨⟨hinv.vlen, hinv.plen, hinv.srclt, hinv.src, ?_, hinv.chain⟩, hu.1, hu.2, ?_, ?_⟩
        · intro v hv
          exact hinv.qvis v (by rw [hq]; exact List.mem_cons_of_mem _ hv)
        · intro w hw hvis hnq hwu v hv hpos
          exact hcl w hw hvis (hmem w hnq hwu) v hv hpos
        · intro v hv; omega
      have hsorted := hL.qsorted
      rw [hq, List.pairwise_cons] at hsorted
      have hulo := hL.qlo u (by rw [hq]; exact List.mem_cons_self _ _)
      have l0 : LevelScan res n source u 0 { st with q := rest } d := by
        refine ⟨⟨hL.dsrc, hL.psrc, hL.link, ?_, hsorted.2, ?_⟩, ?_, ?_⟩
        · intro x hx
          have := hL.qlo x (by rw [hq]; exact List.mem_cons_of_mem _ hx)
          exact ⟨hsorted.1 x hx, by omega⟩
        · intro w hw hvis hnq
          by_cases hwu : w = u
          · rw [hwu]
          · have := hL.proc w hw hvis (hmem w hnq hwu)
            omega
        · intro w hw hvis hnq hwu v hv hpos
          exact hR w hw hvis (hmem w hnq hwu) v hv hpos
        · intro v hv; omega
      have hn := scan_inv h0 n (le_refl n)
      obtain ⟨d', hd'⟩ := scan_level h0 l0 n (le_refl n)
      have hcl' : Closed res n (scan res n u { st with q := rest }) := by
        intro w hw hvis hnq v hv hpos
        by_cases hwu : w = u
        · subst hwu; exact hn.done v hv hpos
        · exact hn.others w hw hvis hnq hwu v hv hpos
      refine ih hn.inv hcl' ⟨d', d' u, hd'.lvl, ?_⟩ h
      intro w hw hvis hnq v hv hpos
      by_cases hwu : w = u
      · subst hwu; exact hd'.done v hv hpos
      · exact hd'.others w hw hvis hnq hwu v hv hpos

theorem bfsInit_level (res : Matrix) (n source : Nat) (parent : List Int)
    (hn : res.length = n) (hs : source < n) (hp : parent.length = n) :
    ∃ d lo, LevelInv res n source (bfsInit res source parent) d lo ∧
      Relaxed res n (bfsInit res source parent) d := by
  have hvl : source < (List.replicate res.length false).length := by simp [hn, hs]
  have hvis : ∀ w, Vis (bfsInit res source parent) w → w = source := by
    intro w
    unfold Vis bfsInit
    simp only
    rw [getD_set_bool _ _ _ _ _ hvl]
    by_cases hw : w = source
    · intro _; exact hw
    · simp only [hw, if_false, List.getD_eq_getElem?_getD, List.getElem?_replicate]
      split <;> simp
  refine ⟨fun _ => 0, 0, ⟨rfl, ?_, ?_, ?_, ?_, ?_⟩, ?_⟩
  · simp only [bfsInit]
    rw [getD_set_int _ _ _ _ _ (by rw [hp]; exact hs), if_pos rfl]
  · intro v _ hv hne; exact absurd (hvis v hv) hne
  · intro x _; exact ⟨le_refl _, by omega⟩
  · simp [bfsInit]
  · intro w _ _ _; exact le_refl _
  · intro w _ _ _ v _ _; exact Nat.zero_le _

/-- The levels that `BFS` has established when its loop exits: a depth
labelling under which `source` is at depth 0 with parent `-1`, every other
visited vertex is one level below its parent, and no edge out of a visited
vertex goes down by more than one level. -/
theorem bfsRun_levels {res : Matrix} {n source : Nat} {parent : List Int} {fuel : Nat}
    {st : BFSState} (hn : res.length = n) (hs : source < n) (hp : parent.length = n)
    (h : bfsRun fuel res source parent = some st) :
    ∃ d : Nat → Nat, d source = 0 ∧ st.parent.getD source (-1) = -1 ∧
      (∀ v, v < n → Vis st v → v ≠ source →
        ∃ u : Nat, st.parent.getD v (-1) = (u : Int) ∧ u < n ∧ Vis st u ∧ d v = d u + 1) ∧
      (∀ w, w < n → Vis st w → ∀ v, v < n → 0 < rd res w v → Vis st v ∧ d v ≤ d w + 1) := by
  unfold bfsRun at h
  rw [hn] at h
  obtain ⟨hi, hc⟩ := bfsInit_inv res n source parent hn hs hp
  obtain ⟨hinv, hcl, hq⟩ := bfsLoop_inv fuel hi hc h
  obtain ⟨d, lo, hL, hR⟩ := bfsLoop_level fuel hi hc (bfsInit_level res n source parent hn hs hp) h
  refine ⟨d, hL.dsrc, hL.psrc, hL.link, ?_⟩
  intro w hw hvis v hv hpos
  have hnq : w ∉ st.q := by rw [hq]; simp
  exact ⟨hcl w hw hvis hnq v hv hpos, hR w hw hvis hnq v hv hpos⟩

/-! ## What `BFS` returns -/

theorem BFS_some {fuel : Nat} {res : Matrix} {source sink : Nat} {parent : List Int}
    {b : Bool} {parent' : List Int} (h : BFS fuel res source sink parent = some (b, parent')) :
    ∃ bst, bfsRun fuel res source parent = some bst ∧ b = bst.visited.getD sink false ∧
      parent' = bst.parent := by
  unfold BFS at h
  cases hb : bfsRun fuel res source parent with
  | none => simp [hb] at h
  | some bst =>
    rw [hb] at h
    simp only [Option.map_some', Option.some.injEq, Prod.mk.injEq] at h
    exact ⟨bst, rfl, h.1.symm, h.2.symm⟩

theorem ParentPath.edgePath {res : Matrix} {parent : List Int} {n source v : Nat}
    {p : List Nat} (h : ParentPath res parent n source v p) :
    EdgePath res n source v (p.length - 1) := by
  induction h with
  | base h => exact EdgePath.nil
  | @step u v p hv hne hpar hpos hn hu ih =>
    have hlen : 1 ≤ p.length := List.length_pos_of_mem hu.head_mem
    have : (v :: p).length - 1 = (p.length - 1) + 1 := by simp; omega
    rw [this]
    exact EdgePath.snoc ih ⟨hu.lt, hv, hpos⟩

theorem ParentPath.edges {res : Matrix} {parent : List Int} {n source v : Nat}
    {p : List Nat} (h : ParentPath res parent n source v p) :
    ∀ w ∈ p, w ≠ source →
      ∃ u : Nat, u < n ∧ parent.getD w (-1) = (u : Int) ∧ 0 < rd res u w := by
  induction h with
  | base h => intro w hw hne; simp at hw; exact absurd hw hne
  | @step u v p hv hne hpar hpos hn hu ih =>
    intro w hw hws
    rcases List.mem_cons.1 hw with rfl | hw
    · exact ⟨u, hu.lt, hpar, hpos⟩
    · exact ih w hw hws

/-- The list of a parent path is determined by the parent vector. -/
theorem ParentPath.unique {res res' : Matrix} {parent : List Int} {n source v : Nat}
    {p p' : List Nat} (h : ParentPath res parent n source v p)
    (h' : ParentPath res' parent n source v p') : p = p' := by
  induction h generalizing p' with
  | base h =>
    cases h' with
    | base _ => rfl
    | step _ hne _ _ _ _ => exact absurd rfl hne
  | @step u v p hv hne hpar hpos hn hu ih =>
    cases h' with
    | base _ => exact absurd rfl hne
    | @step u' _ p'' _ _ hpar' _ _ hu' =>
      have : u = u' := by
        have := hpar.symm.trans hpar'
        exact_mod_cast this
      subst this
      rw [ih hu']

/-- A parent path is as long as the depth of its first vertex says. -/
theorem ParentPath.length_eq_depth {res : Matrix} {n source v : Nat} {p : List Nat}
    {st : BFSState} {d : Nat → Nat} (h : ParentPath res st.parent n source v p)
    (hd0 : d source = 0)
    (hlink : ∀ v, v < n → Vis st v → v ≠ source →
      ∃ u : Nat, st.parent.getD v (-1) = (u : Int) ∧ u < n ∧ Vis st u ∧ d v = d u + 1)
    (hv : Vis st v) : p.length = d v + 1 := by
  induction h with
  | base h => simp [hd0]
  | @step u v p hvn hne hpar hpos hn hu ih =>
    obtain ⟨u0, h1, _, h3, h4⟩ := hlink v hvn hv hne
    have : u0 = u := by
      have := h1.symm.trans hpar
      exact_mod_cast this
    subst this
    rw [List.length_cons, ih h3, h4]

/-- A walk of `k` edges from `source` ends at a visited vertex of depth at most
`k`. -/
theorem EdgePath.depth_le {res : Matrix} {n source v k : Nat} {st : BFSState}
    {d : Nat → Nat} (h : EdgePath res n source v k) (hs : Vis st source)
    (hd0 : d source = 0)
    (hrelax : ∀ w, w < n → Vis st w → ∀ v, v < n → 0 < rd res w v →
      Vis st v ∧ d v ≤ d w + 1) : Vis st v ∧ d v ≤ k := by
  induction h with
  | nil => exact ⟨hs, by omega⟩
  | @snoc v w k _ he ih =>
    obtain ⟨h1, h2⟩ := hrelax v he.1 ih.1 w he.2.1 he.2.2
    exact ⟨h1, by omega⟩

theorem BFS_total {res : Matrix} {n source : Nat} (sink : Nat) (parent : List Int)
    {fuel : Nat} (hn : res.length = n) (hs : source < n) (hf : n ≤ fuel) :
    ∃ b parent', BFS fuel res source sink parent = some (b, parent') := by
  obtain ⟨bst, h⟩ := bfsRun_total parent hn hs hf
  exact ⟨_, _, BFS_eq sink h⟩

/-- C11: on an `n × n` residual table, with `source` and `sink` in `[0, n)` and
a parent vector of length `n`, `BFS` returns (with fuel `n`), it returns true
if and only if `sink` can be reached from `source` along entries that are
strictly positive, and when its loop exits the visited vertices are exactly
the vertices that can be reached in that way. -/
theorem C11_BFS_true_iff_path (n : Nat) (res : Matrix) (source sink : Nat)
    (parent : List Int) (hsq : Square n res) (hs : source < n) (ht : sink < n)
    (hp : parent.length = n) :
    (∀ fuel, n ≤ fuel → ∃ b parent', BFS fuel res source sink parent = some (b, parent')) ∧
    (∀ fuel b parent', BFS fuel res source sink parent = some (b, parent') →
      (b = true ↔ Reach res n source sink)) ∧
    (∀ fuel bst, bfsRun fuel res source parent = some bst →
      ∀ v, v < n → (bst.visited.getD v false = true ↔ Reach res n source v)) := by
  refine ⟨fun fuel hf => BFS_total sink parent hsq.1 hs hf, ?_, ?_⟩
  · intro fuel b parent' h
    obtain ⟨bst, hrun, hb, _⟩ := BFS_some h
    rw [hb]
    exact (bfsRun_spec hsq.1 hs hp hrun).2.1 sink ht
  · intro fuel bst hrun v hv
    exact (bfsRun_spec hsq.1 hs hp hrun).2.1 v hv

/-- C11 at the example graph, from vertex 0 to vertex 5. -/
theorem C11_BFS_true_iff_path_witness :
    Square 6 FormAdjMatrix ∧
    (∀ fuel, 6 ≤ fuel →
      ∃ b parent', BFS fuel FormAdjMatrix 0 5 (initParent 6) = some (b, parent')) ∧
    (∀ fuel b parent', BFS fuel FormAdjMatrix 0 5 (initParent 6) = some (b, parent') →
      (b = true ↔ Reach FormAdjMatrix 6 0 5)) ∧
    (∀ fuel bst, bfsRun fuel FormAdjMatrix 0 (initParent 6) = some bst →
      ∀ v, v < 6 → (bst.visited.getD v false = true ↔ Reach FormAdjMatrix 6 0 v)) :=
  ⟨by decide, C11_BFS_true_iff_path 6 FormAdjMatrix 0 5 (initParent 6) (by decide)
    (by decide) (by decide) (by decide)⟩

/-- C12: when `BFS` returns true (with `source ≠ sink` or not), the parent vector
it leaves behind, whatever it held before, describes an augmenting path: the walk
from `sink` through `parent` reaches `source` in at most `n - 1` steps without
meeting a vertex twice, every parent met is a vertex of `[0, n)`, every edge
`(parent[w], w)` met has a strictly positive entry, and `parent[source]` is
`-1`. -/
theorem C12_parent_describes_path (n : Nat) (res : Matrix) (source sink : Nat)
    (parent : List Int) (hsq : Square n res) (hs : source < n) (ht : sink < n)
    (hp : parent.length = n) (fuel : Nat) (parent' : List Int)
    (h : BFS fuel res source sink parent = some (true, parent')) :
    ∃ p : List Nat, ParentPath res parent' n source sink p ∧ p.Nodup ∧
      p.length ≤ n ∧ p.head? = some sink ∧ p.getLast? = some source ∧
      (∀ w ∈ p, w ≠ source →
        ∃ u : Nat, u < n ∧ parent'.getD w (-1) = (u : Int) ∧ 0 < rd res u w) ∧
      parent'.getD source (-1) = -1 ∧
      (∃ r, bottleneck res parent' source (n - 1) sink 10000007 = some r) ∧
      (∃ R, augment parent' source 0 (n - 1) sink res = some R) := by
  obtain ⟨bst, hrun, hb, rfl⟩ := BFS_some h
  obtain ⟨_, _, hchain⟩ := bfsRun_spec hsq.1 hs hp hrun
  obtain ⟨d, _, hpsrc, _, _⟩ := bfsRun_levels hsq.1 hs hp hrun
  obtain ⟨p, hpath⟩ := hchain sink ht hb.symm
  have hlen := hpath.length_le
  have hlast : ∀ {v : Nat} {q : List Nat}, ParentPath res bst.parent n source v q →
      q.head? = some v ∧ q.getLast? = some source := by
    intro v q hq
    induction hq with
    | base _ => simp
    | @step u v q _ _ _ _ _ hu ih =>
      refine ⟨rfl, ?_⟩
      obtain ⟨x, xs, rfl⟩ : ∃ x xs, q = x :: xs := by
        cases q with
        | nil => exact absurd hu.head_mem (List.not_mem_nil _)
        | cons x xs => exact ⟨x, xs, rfl⟩
      rw [List.getLast?_cons_cons]; exact ih.2
  obtain ⟨r, hr, _⟩ := bottleneck_spec hpath (n - 1) 10000007 (by omega)
  obtain ⟨R, hR, _⟩ := augment_spec hpath 0 (le_refl 0) (n - 1) res hsq (by
    intro w hw hws
    obtain ⟨u, _, hu, hpos⟩ := hpath.edges w hw hws
    rw [parentOf_eq hu]; omega) (by omega)
  exact ⟨p, hpath, hpath.nodup, hlen, (hlast hpath).1, (hlast hpath).2, hpath.edges,
    hpsrc, ⟨r, hr⟩, ⟨R, hR⟩⟩

/-- C12 at the example graph, from vertex 0 to vertex 5, with a stale parent
vector. -/
theorem C12_parent_describes_path_witness :
    BFS 6 FormAdjMatrix 0 5 [7, 7, 7, 7, 7, 7] = some (true, [-1, 0, 0, 1, 2, 3]) ∧
    ∃ p : List Nat, ParentPath FormAdjMatrix [-1, 0, 0, 1, 2, 3] 6 0 5 p ∧ p.Nodup ∧
      p.length ≤ 6 ∧ p.head? = some 5 ∧ p.getLast? = some 0 ∧
      (∀ w ∈ p, w ≠ 0 →
        ∃ u : Nat, u < 6 ∧ ([-1, 0, 0, 1, 2, 3] : List Int).getD w (-1) = (u : Int) ∧
          0 < rd FormAdjMatrix u w) ∧
      ([-1, 0, 0, 1, 2, 3] : List Int).getD 0 (-1) = -1 ∧
      (∃ r, bottleneck FormAdjMatrix [-1, 0, 0, 1, 2, 3] 0 (6 - 1) 5 10000007 = some r) ∧
      (∃ R, augment [-1, 0, 0, 1, 2, 3] 0 0 (6 - 1) 5 FormAdjMatrix = some R) :=
  ⟨by decide, C12_parent_describes_path 6 FormAdjMatrix 0 5 [7, 7, 7, 7, 7, 7] (by decide)
    (by decide) (by decide) (by decide) 6 [-1, 0, 0, 1, 2, 3] (by decide)⟩

/-- C13: when `BFS` returns true, the path read off the parent vector from
`sink` back to `source` is a walk along strictly positive entries, and no walk
from `source` to `sink` along strictly positive entries has fewer edges. -/
theorem C13_parent_path_is_shortest (n : Nat) (res : Matrix) (source sink : Nat)
    (parent : List Int) (hsq : Square n res) (hs : source < n) (ht : sink < n)
    (hp : parent.length = n) (fuel : Nat) (parent' : List Int)
    (h : BFS fuel res source sink parent = some (true, parent')) :
    ∃ p : List Nat, ParentPath res parent' n source sink p ∧
      EdgePath res n source sink (p.length - 1) ∧
      ∀ k, EdgePath res n source sink k → p.length - 1 ≤ k := by
  obtain ⟨bst, hrun, hb, rfl⟩ := BFS_some h
  obtain ⟨_, hreach, hchain⟩ := bfsRun_spec hsq.1 hs hp hrun
  obtain ⟨d, hd0, _, hlink, hrelax⟩ := bfsRun_levels hsq.1 hs hp hrun
  have hvt : Vis bst sink := hb.symm
  obtain ⟨p, hpath⟩ := hchain sink ht hvt
  have hvs : Vis bst source := (hreach source hs).2 Relation.ReflTransGen.refl
  refine ⟨p, hpath, hpath.edgePath, ?_⟩
  intro k hk
  have h1 := hpath.length_eq_depth hd0 hlink hvt
  have h2 := (hk.depth_le hvs hd0 hrelax).2
  omega

/-- C13 at the example graph, from vertex 0 to vertex 5. -/
theorem C13_parent_path_is_shortest_witness :
    BFS 6 FormAdjMatrix 0 5 (initParent 6) = some (true, [-1, 0, 0, 1, 2, 3]) ∧
    ∃ p : List Nat, ParentPath FormAdjMatrix [-1, 0, 0, 1, 2, 3] 6 0 5 p ∧
      EdgePath FormAdjMatrix 6 0 5 (p.length - 1) ∧
      ∀ k, EdgePath FormAdjMatrix 6 0 5 k → p.length - 1 ≤ k :=
  ⟨by decide, C13_parent_path_is_shortest 6 FormAdjMatrix 0 5 (initParent 6) (by decide)
    (by decide) (by decide) (by decide) 6 [-1, 0, 0, 1, 2, 3] (by decide)⟩

/-! ## The edges of a parent path -/

theorem ParentPath.eq_cons {res : Matrix} {parent : List Int} {n source v : Nat}
    {p : List Nat} (h : ParentPath res parent n source v p) : ∃ tl, p = v :: tl := by
  cases h with
  | base _ => exact ⟨[], rfl⟩
  | step _ _ _ _ _ _ => exact ⟨_, rfl⟩

theorem pathEdges_cons {res : Matrix} {parent : List Int} {n source u v : Nat}
    {p : List Nat} (h : ParentPath res parent n source u p) :
    pathEdges (v :: p) = (u, v) :: pathEdges p := by
  obtain ⟨tl, rfl⟩ := h.eq_cons
  rfl

theorem ParentPath.mem_pathEdges {res : Matrix} {parent : List Int} {n source v : Nat}
    {p : List Nat} (h : ParentPath res parent n source v p) {a b : Nat}
    (hab : (a, b) ∈ pathEdges p) :
    a ∈ p ∧ b ∈ p ∧ b ≠ source ∧ parent.getD b (-1) = (a : Int) ∧ 0 < rd res a b := by
  induction h with
  | base _ => simp [pathEdges] at hab
  | @step u v p hv hne hpar hpos hn hu ih =>
    rw [pathEdges_cons hu] at hab
    rcases List.mem_cons.1 hab with e | hab
    · simp only [Prod.mk.injEq] at e
      obtain ⟨rfl, rfl⟩ := e
      exact ⟨List.mem_cons_of_mem _ hu.head_mem, List.mem_cons_self _ _, hne, hpar, hpos⟩
    · obtain ⟨h1, h2, h3, h4, h5⟩ := ih hab
      exact ⟨List.mem_cons_of_mem _ h1, List.mem_cons_of_mem _ h2, h3, h4, h5⟩

theorem ParentPath.edge_of_mem {res : Matrix} {parent : List Int} {n source v : Nat}
    {p : List Nat} (h : ParentPath res parent n source v p) {w : Nat} (hw : w ∈ p)
    (hws : w ≠ source) : (parentOf parent w, w) ∈ pathEdges p := by
  induction h with
  | base _ => simp at hw; exact absurd hw hws
  | @step u v p hv hne hpar hpos hn hu ih =>
    rw [pathEdges_cons hu]
    rcases List.mem_cons.1 hw with rfl | hw
    · rw [parentOf_eq hpar]; exact List.mem_cons_self _ _
    · exact List.mem_cons_of_mem _ (ih hw)

/-- A path does not contain an edge together with its reverse. -/
theorem ParentPath.pathEdges_asymm {res : Matrix} {parent : List Int} {n source v : Nat}
    {p : List Nat} (h : ParentPath res parent n source v p) {a b : Nat}
    (hab : (a, b) ∈ pathEdges p) : (b, a) ∉ pathEdges p := by
  induction h with
  | base _ => simp [pathEdges] at hab
  | @step u v p hv hne hpar hpos hn hu ih =>
    rw [pathEdges_cons hu] at hab ⊢
    intro hba
    rcases List.mem_cons.1 hab with e | hab
    · simp only [Prod.mk.injEq] at e
      rcases List.mem_cons.1 hba with e' | hba
      · simp only [Prod.mk.injEq] at e'
        apply hn
        rw [← e.2, e'.1]
        exact hu.head_mem
      · have := (hu.mem_pathEdges hba).1
        rw [e.2] at this
        exact hn this
    · rcases List.mem_cons.1 hba with e' | hba
      · simp only [Prod.mk.injEq] at e'
        have := (hu.mem_pathEdges hab).1
        rw [e'.2] at this
        exact hn this
      · exact ih hab hba

/-! ## The exact effect of the two parent walks -/

theorem pathMin_cons {res : Matrix} {parent : List Int} {n source u v : Nat}
    {p : List Nat} (h : ParentPath res parent n source u p) (R : Matrix) (init : Int) :
    pathMin R (v :: p) init = pathMin R p (min init (rd R u v)) := by
  unfold pathMin
  rw [pathEdges_cons h]
  rfl

/-- Whatever the first parent walk returns is the running minimum over the
edges of the path, started at the given value. -/
theorem bottleneck_eq_pathMin {res : Matrix} {parent : List Int} {n source v : Nat}
    {p : List Nat} (hp : ParentPath res parent n source v p) {fuel : Nat} {pf r : Int}
    (h : bottleneck res parent source fuel v pf = some r) : r = pathMin res p pf := by
  induction hp generalizing fuel pf with
  | base _ =>
    cases fuel <;> simp [bottleneck] at h <;> simp [pathMin, pathEdges, h]
  | @step u v p hv hne hpar hpos hn hu ih =>
    cases fuel with
    | zero => simp [bottleneck, hne] at h
    | succ g =>
      simp only [bottleneck, hne, if_false, parentOf_eq hpar] at h
      rw [pathMin_cons hu]
      exact ih h

theorem foldl_min_le_init (res : Matrix) (es : List (Nat × Nat)) (init : Int) :
    es.foldl (fun m e => min m (rd res e.1 e.2)) init ≤ init := by
  induction es generalizing init with
  | nil => exact le_refl _
  | cons e es ih => exact le_trans (ih _) (min_le_left _ _)

theorem pathMin_le_init (res : Matrix) (p : List Nat) (init : Int) :
    pathMin res p init ≤ init :=
  foldl_min_le_init res _ init

theorem pathMin_le_edge (res : Matrix) (p : List Nat) (init : Int) {e : Nat × Nat}
    (he : e ∈ pathEdges p) : pathMin res p init ≤ rd res e.1 e.2 := by
  unfold pathMin
  generalize pathEdges p = es at he
  induction es generalizing init with
  | nil => simp at he
  | cons x es ih =>
    rcases List.mem_cons.1 he with rfl | he
    · exact le_trans (foldl_min_le_init res es _) (min_le_right _ _)
    · exact ih _ he

/-- The running minimum is its start value or the entry of an edge. -/
theorem pathMin_attained (res : Matrix) (p : List Nat) (init : Int) :
    pathMin res p init = init ∨ ∃ e ∈ pathEdges p, pathMin res p init = rd res e.1 e.2 := by
  unfold pathMin
  generalize pathEdges p = es
  induction es generalizing init with
  | nil => exact Or.inl rfl
  | cons x es ih =>
    rcases ih (min init (rd res x.1 x.2)) with h | ⟨e, he, h⟩
    · rcases min_choice init (rd res x.1 x.2) with h' | h'
      · left; simp only [List.foldl_cons]; rw [h, h']
      · right; exact ⟨x, List.mem_cons_self _ _, by simp only [List.foldl_cons]; rw [h, h']⟩
    · right; exact ⟨e, List.mem_cons_of_mem _ he, h⟩

/-- Whatever the second parent walk returns differs from the table it started
from by `- pathflow` on the edges of the path and `+ pathflow` on their
reverses. -/
theorem augment_entries {res0 : Matrix} {parent : List Int} {n source v : Nat} {p : List Nat}
    (hp : ParentPath res0 parent n source v p) (pf : Int) {fuel : Nat} {R R' : Matrix}
    (hR : Square n R) (h : augment parent source pf fuel v R = some R') :
    Square n R' ∧ ∀ a b, a < n → b < n → rd R' a b =
      rd R a b - (if (a, b) ∈ pathEdges p then pf else 0)
        + (if (b, a) ∈ pathEdges p then pf else 0) := by
  induction hp generalizing fuel R with
  | base _ =>
    have : R' = R := by cases fuel <;> simp [augment] at h <;> exact h.symm
    subst this
    exact ⟨hR, fun a b _ _ => by simp [pathEdges]⟩
  | @step u v p hv hne hpar hpos hn hu ih =>
    cases fuel with
    | zero => simp [augment, hne] at h
    | succ g =>
      simp only [augment, hne, if_false, parentOf_eq hpar] at h
      have huv : u ≠ v := by intro e; subst e; exact hn hu.head_mem
      obtain ⟨hsq, hent⟩ := ih (hR.pushEdge _ _ _) h
      refine ⟨hsq, ?_⟩
      intro a b ha hb
      rw [hent a b ha hb, rd_pushEdge hR hu.lt hv huv, pathEdges_cons hu]
      have d1 : a = u ∧ b = v → (a, b) ∉ pathEdges p := by
        rintro ⟨_, e⟩ hm
        have := (hu.mem_pathEdges hm).2.1
        rw [e] at this
        exact hn this
      have d2 : a = v ∧ b = u → (b, a) ∉ pathEdges p := by
        rintro ⟨e, _⟩ hm
        have := (hu.mem_pathEdges hm).2.1
        rw [e] at this
        exact hn this
      have k1 : (if (a, b) ∈ (u, v) :: pathEdges p then pf else 0) =
          (if a = u ∧ b = v then pf else 0) + (if (a, b) ∈ pathEdges p then pf else 0) := by
        by_cases c1 : a = u ∧ b = v
        · have c3 := d1 c1
          have : (a, b) ∈ (u, v) :: pathEdges p := by
            rw [c1.1, c1.2]; exact List.mem_cons_self _ _
          rw [if_pos this, if_pos c1, if_neg c3]; ring
        · by_cases c3 : (a, b) ∈ pathEdges p
          · rw [if_pos (List.mem_cons_of_mem _ c3), if_neg c1, if_pos c3]; ring
          · have : (a, b) ∉ (u, v) :: pathEdges p := by
              intro hm
              rcases List.mem_cons.1 hm with e | hm
              · simp only [Prod.mk.injEq] at e; exact c1 e
              · exact c3 hm
            rw [if_neg this, if_neg c1, if_neg c3]; ring
      have k2 : (if (b, a) ∈ (u, v) :: pathEdges p then pf else 0) =
          (if a = v ∧ b = u then pf else 0) + (if (b, a) ∈ pathEdges p then pf else 0) := by
        by_cases c2 : a = v ∧ b = u
        · have c4 := d2 c2
          have : (b, a) ∈ (u, v) :: pathEdges p := by
            rw [c2.1, c2.2]; exact List.mem_cons_self _ _
          rw [if_pos this, if_pos c2, if_neg c4]; ring
        · by_cases c4 : (b, a) ∈ pathEdges p
          · rw [if_pos (List.mem_cons_of_mem _ c4), if_neg c2, if_pos c4]; ring
          · have : (b, a) ∉ (u, v) :: pathEdges p := by
              intro hm
              rcases List.mem_cons.1 hm with e | hm
              · simp only [Prod.mk.injEq] at e; exact c2 ⟨e.2, e.1⟩
              · exact c4 hm
            rw [if_neg this, if_neg c2, if_neg c4]; ring
      rw [k1, k2]; ring

/-! ## The states of the main loop -/

theorem loopBody_true {b w source sink : Nat} {st st' : FFState}
    (h : loopBody b w source sink st = some (true, st')) :
    ∃ parent' pf R', BFS b st.res source sink st.parent = some (true, parent') ∧
      bottleneck st.res parent' source w sink 10000007 = some pf ∧
      augment parent' source pf w sink st.res = some R' ∧
      st' = { res := R', parent := parent', maxflow := st.maxflow + pf } := by
  unfold loopBody at h
  cases hB : BFS b st.res source sink st.parent with
  | none => simp [hB] at h
  | some bp =>
    obtain ⟨vis, parent'⟩ := bp
    rw [hB] at h
    cases vis with
    | false => simp at h
    | true =>
      simp only at h
      cases h1 : bottleneck st.res parent' source w sink 10000007 with
      | none => simp [h1] at h
      | some pf =>
        rw [h1] at h
        simp only at h
        cases h2 : augment parent' source pf w sink st.res with
        | none => simp [h2] at h
        | some R' =>
          rw [h2] at h
          simp only [Option.some.injEq, Prod.mk.injEq, true_and] at h
          exact ⟨parent', pf, R', rfl, h1, h2, h.symm⟩

theorem pathMin_pos {res : Matrix} {parent : List Int} {n source v : Nat} {p : List Nat}
    (hp : ParentPath res parent n source v p) {init : Int} (h0 : 0 < init) :
    0 < pathMin res p init := by
  rcases pathMin_attained res p init with h | ⟨e, he, h⟩
  · rw [h]; exact h0
  · rw [h]; exact (hp.mem_pathEdges he).2.2.2.2

/-- Every iteration of the main loop that finds a path is an augmentation in the
sense of `Augments`. -/
theorem loopBody_augments {n source sink : Nat} {st st' : FFState} {b w : Nat}
    (hsq : Square n st.res) (hpl : st.parent.length = n) (hs : source < n) (ht : sink < n)
    (h : loopBody b w source sink st = some (true, st')) :
    ∃ p pf, Augments n source sink st st' p pf ∧
      bottleneck st.res st'.parent source w sink 10000007 = some pf := by
  obtain ⟨parent', pf, R', hB, hbot, haug, rfl⟩ := loopBody_true h
  obtain ⟨bst, hrun, hb, rfl⟩ := BFS_some hB
  obtain ⟨_, _, hchain⟩ := bfsRun_spec hsq.1 hs hpl hrun
  obtain ⟨p, hp⟩ := hchain sink ht hb.symm
  have hpf := bottleneck_eq_pathMin hp hbot
  obtain ⟨hsq', hent⟩ := augment_entries hp pf hsq haug
  exact ⟨p, pf, ⟨hp, hpf, by rw [hpf]; exact pathMin_pos hp (by norm_num), rfl, hsq', hent⟩,
    hbot⟩

/-- The invariant of the main loop survives one evaluation of the loop
condition and body, whatever the fuel. -/
theorem loopBody_sound {n : Nat} {adjMatrix : Matrix} {source sink : Nat} {st st' : FFState}
    {b w : Nat} {c : Bool} (hinv : FlowInv n adjMatrix source sink st) (hs : source < n)
    (ht : sink < n) (h : loopBody b w source sink st = some (c, st')) :
    FlowInv n adjMatrix source sink st' ∧
      (c = false → ¬ Reach st.res n source sink ∧ st'.res = st.res ∧
        st'.maxflow = st.maxflow) ∧
      (c = true → Reach st.res n source sink ∧ st.maxflow < st'.maxflow) := by
  obtain ⟨c', st'', h', hI, hF, hT⟩ := @loopBody_spec n adjMatrix source sink st hinv hs ht
    (max b n) (max w n) (le_max_right _ _) (le_trans (le_max_right w n) (Nat.le_succ _))
  have := loopBody_mono (le_max_left b n) (le_max_left w n) h
  rw [h'] at this
  simp only [Option.some.injEq, Prod.mk.injEq] at this
  obtain ⟨rfl, rfl⟩ := this
  exact ⟨hI, hF, hT⟩

theorem ffAfter_inv {n : Nat} {adjMatrix : Matrix} {source sink : Nat} {b w : Nat}
    (hs : source < n) (ht : sink < n) (k : Nat) {st st' : FFState}
    (hinv : FlowInv n adjMatrix source sink st)
    (h : ffAfter b w source sink k st = some st') : FlowInv n adjMatrix source sink st' := by
  induction k generalizing st with
  | zero =>
    simp only [ffAfter, Option.some.injEq] at h
    subst h; exact hinv
  | succ k ih =>
    cases hb : loopBody b w source sink st with
    | none => simp [ffAfter, hb] at h
    | some r =>
      obtain ⟨c, s1⟩ := r
      cases c with
      | false => simp [ffAfter, hb] at h
      | true =>
        simp only [ffAfter, hb] at h
        exact ih (loopBody_sound hinv hs ht hb).1 h

/-- Every state of the main loop of a solve satisfies the invariant. -/
theorem ffAfter_init_inv {n : Nat} {adjMatrix : Matrix} {source sink : Nat} {b w k : Nat}
    {st : FFState} (hsq : Square n adjMatrix) (hs : source < n) (ht : sink < n)
    (h : ffAfter b w source sink k (ffInit adjMatrix) = some st) :
    FlowInv n adjMatrix source sink st :=
  ffAfter_inv hs ht k (ffInit_inv source sink hsq) h

theorem loopBody_false {b w source sink : Nat} {st st' : FFState}
    (h : loopBody b w source sink st = some (false, st')) :
    ∃ parent', BFS b st.res source sink st.parent = some (false, parent') ∧
      st' = { st with parent := parent' } := by
  unfold loopBody at h
  cases hB : BFS b st.res source sink st.parent with
  | none => simp [hB] at h
  | some bp =>
    obtain ⟨vis, parent'⟩ := bp
    rw [hB] at h
    cases vis with
    | false =>
      simp only [Option.some.injEq, Prod.mk.injEq, true_and] at h
      exact ⟨parent', rfl, h.symm⟩
    | true =>
      simp only at h
      cases h1 : bottleneck st.res parent' source w sink 10000007 with
      | none => simp [h1] at h
      | some pf =>
        rw [h1] at h
        simp only at h
        cases h2 : augment parent' source pf w sink st.res with
        | none => simp [h2] at h
        | some R' => simp [h2] at h

/-- The state in which the main loop exits is the state after some number of
augmentations, up to the parent vector rewritten by the last call of `BFS`. -/
theorem ffLoop_after {b w source sink : Nat} (fuel : Nat) {st st' : FFState}
    (h : ffLoop b w source sink fuel st = some st') :
    ∃ k st'', k ≤ fuel ∧ ffAfter b w source sink k st = some st'' ∧
      loopBody b w source sink st'' = some (false, st') ∧ st'.maxflow = st''.maxflow ∧
      st'.res = st''.res := by
  induction fuel generalizing st with
  | zero =>
    cases hb : loopBody b w source sink st with
    | none => simp [ffLoop, hb] at h
    | some r =>
      obtain ⟨c, s1⟩ := r
      cases c with
      | true => simp [ffLoop, hb] at h
      | false =>
        simp only [ffLoop, hb, Option.some.injEq] at h
        subst h
        obtain ⟨parent', _, rfl⟩ := loopBody_false hb
        exact ⟨0, st, le_refl _, rfl, hb, rfl, rfl⟩
  | succ fuel ih =>
    cases hb : loopBody b w source sink st with
    | none => simp [ffLoop, hb] at h
    | some r =>
      obtain ⟨c, s1⟩ := r
      cases c with
      | true =>
        simp only [ffLoop, hb] at h
        obtain ⟨k, st'', hk, h1, h2, h3, h4⟩ := ih h
        exact ⟨k + 1, st'', by omega, by simp only [ffAfter, hb]; exact h1, h2, h3, h4⟩
      | false =>
        simp only [ffLoop, hb, Option.some.injEq] at h
        subst h
        obtain ⟨parent', _, rfl⟩ := loopBody_false hb
        exact ⟨0, st, Nat.zero_le _, rfl, hb, rfl, rfl⟩

theorem nonNeg_of_rd {n : Nat} {M : Matrix} (hsq : Square n M)
    (h : ∀ a c, a < n → c < n → 0 ≤ rd M a c) : NonNeg M := by
  intro row hrow x hx
  obtain ⟨a, ha, rfl⟩ := List.getElem_of_mem hrow
  obtain ⟨c, hc, rfl⟩ := List.getElem_of_mem hx
  have hlen : M[a].length = n := hsq.2 _ (List.getElem_mem _)
  have := h a c (by rw [← hsq.1]; exact ha) (by rw [← hlen]; exact hc)
  unfold rd at this
  simpa [List.getD_eq_getElem?_getD, ha, hc] using this

/-! ## The value of one augmentation -/

/-- C16 fails on the table `[[0, 20000000], [0, 0]]` with `source = 0` and
`sink = 1`: `BFS` finds the path with the single edge `0 → 1`, whose residual
entry is `20000000`, and the first parent walk returns the sentinel `10000007`
it started from, not that minimum.  The solve still returns the maximum flow
`20000000`, in two augmentations of `10000007` and `9999993`. -/
theorem C16_sentinel_caps_pathflow :
    BFS 2 [[0, 20000000], [0, 0]] 0 1 (initParent 2) = some (true, [-1, 0]) ∧
    ParentPath [[0, 20000000], [0, 0]] [-1, 0] 2 0 1 [1, 0] ∧
    (pathEdges [1, 0]).map (fun e => rd [[0, 20000000], [0, 0]] e.1 e.2) = [20000000] ∧
    bottleneck [[0, 20000000], [0, 0]] [-1, 0] 0 1 1 10000007 = some 10000007 ∧
    ((ffAfter 2 1 0 1 1 (ffInit [[0, 20000000], [0, 0]])).map (fun st => st.maxflow)
      = some 10000007) ∧
    FordFulkerson 2 [[0, 20000000], [0, 0]] 0 1 = some 20000000 := by
  refine ⟨by decide, ?_, by decide, by decide, by decide, by decide⟩
  exact ParentPath.step (by decide) (by decide) (by decide) (by decide) (by decide)
    (ParentPath.base (by decide))

/-- Over unbounded integers: on an `n × n` table with `source ≠ sink` in
`[0, n)`, after the initial copy (`k = 0`) and after every augmentation, the
residual table encodes a flow of value `maxflow`: with
`f(u, v) = adjMatrix[u][v] - resAdjMatrix[u][v]`, the sum over `v` of `f(x, v)`
is 0 at every vertex `x` other than `source` and `sink`, the sum over `v` of
`f(source, v)` is `maxflow`, and the sum over `v` of `f(v, sink)` is
`maxflow`. -/
theorem unbounded_residual_encodes_flow (n : Nat) (adjMatrix : Matrix) (source sink : Nat)
    (hsq : Square n adjMatrix) (hs : source < n) (ht : sink < n) (hst : source ≠ sink) :
    ∀ (b w k : Nat) (st : FFState),
      ffAfter b w source sink k (ffInit adjMatrix) = some st →
      (∀ x, x < n → x ≠ source → x ≠ sink →
        ∑ v in Finset.range n, (rd adjMatrix x v - rd st.res x v) = 0) ∧
      ∑ v in Finset.range n, (rd adjMatrix source v - rd st.res source v) = st.maxflow ∧
      ∑ v in Finset.range n, (rd adjMatrix v sink - rd st.res v sink) = st.maxflow := by
  intro b w k st h
  have hinv := ffAfter_init_inv hsq hs ht h
  have hrow : ∀ x, x < n → ∑ v in Finset.range n, (rd adjMatrix x v - rd st.res x v) =
      (if x = source then st.maxflow else 0) - (if x = sink then st.maxflow else 0) := by
    intro x hx
    rw [Finset.sum_sub_distrib]
    have := hinv.rows x hx
    unfold rowSum at this
    rw [this]; ring
  refine ⟨?_, ?_, ?_⟩
  · intro x hx h1 h2
    rw [hrow x hx, if_neg h1, if_neg h2]; ring
  · rw [hrow source hs, if_pos rfl, if_neg hst]; ring
  · have hcol : ∀ v ∈ Finset.range n, rd adjMatrix v sink - rd st.res v sink =
        -(rd adjMatrix sink v - rd st.res sink v) := by
      intro v hv
      have := hinv.pair v sink (Finset.mem_range.1 hv) ht
      omega
    rw [Finset.sum_congr rfl hcol, Finset.sum_neg_distrib, hrow sink ht,
      if_neg (Ne.symm hst), if_pos rfl]
    ring

/-! ## Successive augmenting paths -/

theorem ParentPath.reach_of_mem {res : Matrix} {parent : List Int} {n source v : Nat}
    {p : List Nat} (h : ParentPath res parent n source v p) {x : Nat} (hx : x ∈ p) :
    Reach res n source x := by
  induction h with
  | base _ => simp at hx; subst hx; exact Relation.ReflTransGen.refl
  | @step u v p hv hne hpar hpos hn hu ih =>
    rcases List.mem_cons.1 hx with rfl | hx
    · exact (ParentPath.step hv hne hpar hpos hn hu).reach
    · exact ih hx

/-! ## No overflow -/

theorem wrap32_eq {x : Int} (h0 : -2147483648 ≤ x) (h1 : x ≤ 2147483647) : wrap32 x = x := by
  unfold wrap32; omega

theorem pushEdge32_eq {n : Nat} {R : Matrix} (hR : Square n R) {u v : Nat} (hu : u < n)
    (hv : v < n) (huv : u ≠ v) {pf : Int} (hpf : 0 ≤ pf) (hcap : pf ≤ rd R u v)
    (h0 : 0 ≤ rd R v u) (hsum : rd R u v + rd R v u ≤ 2147483647) :
    pushEdge32 R u v pf = pushEdge R u v pf := by
  unfold pushEdge32 pushEdge
  simp only
  rw [wrap32_eq (by omega) (by omega)]
  have : rd (wr R u v (rd R u v - pf)) v u = rd R v u := by
    rw [rd_wr hR hu hv]
    have : ¬ (v = u ∧ u = v) := fun ⟨e, _⟩ => huv e.symm
    rw [if_neg this]
  rw [this, wrap32_eq (by omega) (by omega)]

/-- On a table with non-negative entries whose opposite pairs sum to at most
`2^31 - 1`, the second parent walk never overflows: the 32-bit walk is the
walk over unbounded integers. -/
theorem augment32_eq {res0 : Matrix} {parent : List Int} {n source v : Nat} {p : List Nat}
    (hp : ParentPath res0 parent n source v p) {pf : Int} (hpf : 0 ≤ pf) (fuel : Nat)
    (R : Matrix) (hR : Square n R)
    (hcap : ∀ w ∈ p, w ≠ source → pf ≤ rd R (parentOf parent w) w)
    (hnn : ∀ a b, a < n → b < n → 0 ≤ rd R a b)
    (hsum : ∀ a b, a < n → b < n → rd R a b + rd R b a ≤ 2147483647) :
    augment32 parent source pf fuel v R = augment parent source pf fuel v R := by
  induction hp generalizing fuel R with
  | base _ => cases fuel <;> simp [augment32, augment]
  | @step u v p hv hne hpar hpos hn hu ih =>
    cases fuel with
    | zero => simp [augment32, augment, hne]
    | succ g =>
      have hpo := parentOf_eq hpar
      have hult := hu.lt
      have huv : u ≠ v := by intro e; subst e; exact hn hu.head_mem
      have hcapv : pf ≤ rd R u v := by
        have := hcap v (List.mem_cons_self _ _) hne
        rwa [hpo] at this
      have hrd := rd_pushEdge hR hult hv huv pf
      simp only [augment32, augment, hne, if_false, hpo]
      rw [pushEdge32_eq hR hult hv huv hpf hcapv (hnn v u hv hult) (hsum u v hult hv)]
      apply ih g (pushEdge R u v pf) (hR.pushEdge _ _ _)
      · intro w hw hws
        have hwv : w ≠ v := by intro e; subst e; exact hn hw
        rw [hrd]
        have h1 : ¬ (parentOf parent w = u ∧ w = v) := fun ⟨_, e⟩ => hwv e
        rw [if_neg h1]
        have := hcap w (List.mem_cons_of_mem _ hw) hws
        split <;> omega
      · intro a b ha hb
        rw [hrd]
        have := hnn a b ha hb
        by_cases h1 : a = u ∧ b = v
        · rw [if_pos h1, h1.1, h1.2]
          split <;> omega
        · rw [if_neg h1]
          split <;> omega
      · intro a b ha hb
        rw [hrd, hrd]
        have := hsum a b ha hb
        by_cases h1 : a = u ∧ b = v
        · have h2 : ¬ (a = v ∧ b = u) := fun ⟨e, _⟩ => huv (h1.1.symm.trans e)
          have h3 : b = v ∧ a = u := ⟨h1.2, h1.1⟩
          have h4 : ¬ (b = u ∧ a = v) := fun ⟨e, _⟩ => huv (e.symm.trans h1.2)
          rw [if_pos h1, if_neg h2, if_pos h3, if_neg h4]; omega
        · have h3 : ¬ (b = v ∧ a = u) := fun ⟨e1, e2⟩ => h1 ⟨e2, e1⟩
          rw [if_neg h1, if_neg h3]
          by_cases h2 : a = v ∧ b = u
          · have h4 : b = u ∧ a = v := ⟨h2.2, h2.1⟩
            rw [if_pos h2, if_pos h4]; omega
          · have h4 : ¬ (b = u ∧ a = v) := fun ⟨e1, e2⟩ => h2 ⟨e2, e1⟩
            rw [if_neg h2, if_neg h4]; omega

theorem FlowInv.entry_range {n : Nat} {adjMatrix : Matrix} {source sink : Nat} {st : FFState}
    (h : FlowInv n adjMatrix source sink st) (hfit : Fits32 n adjMatrix source)
    {a b : Nat} (ha : a < n) (hb : b < n) :
    0 ≤ rd st.res a b ∧ rd st.res a b ≤ 2147483647 ∧
      rd st.res a b + rd st.res b a ≤ 2147483647 := by
  have h1 := h.lower a b ha hb
  rw [min_eq_left (hfit.nonneg.rd a b)] at h1
  have h2 := h.lower b a hb ha
  rw [min_eq_left (hfit.nonneg.rd b a)] at h2
  have h3 := h.pair a b ha hb
  have h4 := hfit.pair a b ha hb
  exact ⟨h1, by omega, by omega⟩

/-- On a state of a solve within the bounds, one evaluation of the loop
condition and body gives the same with 32-bit results as over unbounded
integers. -/
theorem loopBody32_eq {n : Nat} {adjMatrix : Matrix} {source sink : Nat} {st : FFState}
    (hinv : FlowInv n adjMatrix source sink st) (hfit : Fits32 n adjMatrix source)
    (hs : source < n) (ht : sink < n) (hst : source ≠ sink) (b w : Nat) :
    loopBody32 b w source sink st = loopBody b w source sink st := by
  cases hB : BFS b st.res source sink st.parent with
  | none => simp [loopBody32, loopBody, hB]
  | some bp =>
    obtain ⟨vis, parent'⟩ := bp
    cases vis with
    | false => simp [loopBody32, loopBody, hB]
    | true =>
      obtain ⟨bst, hrun, hb, rfl⟩ := BFS_some hB
      obtain ⟨_, _, hchain⟩ := bfsRun_spec hinv.square.1 hs hinv.plen hrun
      obtain ⟨p, hp⟩ := hchain sink ht hb.symm
      cases h1 : bottleneck st.res bst.parent source w sink 10000007 with
      | none => simp [loopBody32, loopBody, hB, h1]
      | some pf =>
        have hpf := bottleneck_eq_pathMin hp h1
        have hpos : 0 < pf := by rw [hpf]; exact pathMin_pos hp (by norm_num)
        have hcap : ∀ x ∈ p, x ≠ source → pf ≤ rd st.res (parentOf bst.parent x) x := by
          intro x hx hxs
          rw [hpf]
          exact pathMin_le_edge st.res p _ (hp.edge_of_mem hx hxs)
        have haug := augment32_eq hp (le_of_lt hpos) w st.res hinv.square hcap
          (fun a c ha hc => (hinv.entry_range hfit ha hc).1)
          (fun a c ha hc => (hinv.entry_range hfit ha hc).2.2)
        cases h2 : augment bst.parent source pf w sink st.res with
        | none =>
          rw [h2] at haug
          simp [loopBody32, loopBody, hB, h1, h2, haug]
        | some R' =>
          rw [h2] at haug
          have hbody : loopBody b w source sink st = some (true,
              { res := R', parent := bst.parent, maxflow := st.maxflow + pf }) := by
            simp [loopBody, hB, h1, h2]
          have hinv' := (loopBody_sound hinv hs ht hbody).1
          have hle := hinv'.maxflow_le hs hst
          rw [capOut_eq_rowSum hfit.nonneg] at hle
          have hout := hfit.out
          have h0 := hinv.nonneg
          simp only at hle
          rw [hbody]
          simp only [loopBody32, hB, h1, haug]
          rw [wrap32_eq (by omega) (by omega)]

theorem ffLoop32_eq {n : Nat} {adjMatrix : Matrix} {source sink : Nat}
    (hfit : Fits32 n adjMatrix source) (hs : source < n) (ht : sink < n)
    (hst : source ≠ sink) (b w fuel : Nat) (st : FFState)
    (hinv : FlowInv n adjMatrix source sink st) :
    ffLoop32 b w source sink fuel st = ffLoop b w source sink fuel st := by
  induction fuel generalizing st with
  | zero =>
    simp only [ffLoop32, ffLoop, loopBody32_eq hinv hfit hs ht hst]
  | succ fuel ih =>
    simp only [ffLoop32, ffLoop, loopBody32_eq hinv hfit hs ht hst]
    cases hb : loopBody b w source sink st with
    | none => rfl
    | some r =>
      obtain ⟨c, st'⟩ := r
      cases c with
      | false => rfl
      | true => exact ih st' (loopBody_sound hinv hs ht hb).1

/-- C20: with 32-bit `int` arithmetic, on a valid input in which every pair of
opposite capacities sums to at most `2^31 - 1` and the capacities leaving
`source` sum to at most `2^31 - 1`, no computation of `FordFulkerson`
overflows: the 32-bit function returns what the function over unbounded
integers returns, and after the initial copy and after every augmentation each
residual entry and `maxflow` lie in `[0, 2^31 - 1]`, each `pathflow` lies in
`(0, 10000007]`, and the next iteration with 32-bit results is the iteration
over unbounded integers. -/
theorem C20_no_overflow_in_32_bits (n : Nat) (adjMatrix : Matrix) (source sink : Nat)
    (hsq : Square n adjMatrix) (hnn : NonNeg adjMatrix) (hs : source < n) (ht : sink < n)
    (hst : source ≠ sink)
    (hpair : ∀ u v, u < n → v < n → rd adjMatrix u v + rd adjMatrix v u ≤ 2147483647)
    (hout : rowSum n adjMatrix source ≤ 2147483647) :
    (∀ fuel, FordFulkerson32 fuel adjMatrix source sink
      = FordFulkerson fuel adjMatrix source sink) ∧
    (∃ r : Int, 0 ≤ r ∧ r ≤ 2147483647 ∧ ∀ fuel, enoughFuel n adjMatrix source ≤ fuel →
      FordFulkerson32 fuel adjMatrix source sink = some r) ∧
    ∀ (b w k : Nat) (st : FFState),
      ffAfter b w source sink k (ffInit adjMatrix) = some st →
      (∀ u v, u < n → v < n → 0 ≤ rd st.res u v ∧ rd st.res u v ≤ 2147483647) ∧
      0 ≤ st.maxflow ∧ st.maxflow ≤ 2147483647 ∧
      loopBody32 b w source sink st = loopBody b w source sink st ∧
      ∀ st', loopBody b w source sink st = some (true, st') →
        ∃ pathflow : Int,
          bottleneck st.res st'.parent source w sink 10000007 = some pathflow ∧
          0 < pathflow ∧ pathflow ≤ 10000007 ∧
          st'.maxflow = st.maxflow + pathflow ∧ st'.maxflow ≤ 2147483647 := by
  have hfit : Fits32 n adjMatrix source := ⟨hnn, hpair, hout⟩
  have hbound : ∀ st, FlowInv n adjMatrix source sink st → st.maxflow ≤ 2147483647 := by
    intro st hinv
    have := hinv.maxflow_le hs hst
    rw [capOut_eq_rowSum hnn] at this
    omega
  have heq : ∀ fuel, FordFulkerson32 fuel adjMatrix source sink
      = FordFulkerson fuel adjMatrix source sink := by
    intro fuel
    unfold FordFulkerson32 FordFulkerson ffRun
    rw [ffLoop32_eq hfit hs ht hst fuel fuel fuel _ (ffInit_inv source sink hsq)]
  refine ⟨heq, ?_, ?_⟩
  · obtain ⟨st, hinv, _, hrun, _⟩ := solve_spec hsq hs ht hst
    refine ⟨st.maxflow, hinv.nonneg, hbound st hinv, ?_⟩
    intro fuel hf
    rw [heq]
    exact FordFulkerson_of_ffRun (hrun fuel hf)
  · intro b w k st h
    have hinv := ffAfter_init_inv hsq hs ht h
    refine ⟨fun u v hu hv => ⟨(hinv.entry_range hfit hu hv).1,
      (hinv.entry_range hfit hu hv).2.1⟩, hinv.nonneg, hbound st hinv,
      loopBody32_eq hinv hfit hs ht hst b w, ?_⟩
    intro st' hb
    obtain ⟨p, pf, hA, hbot⟩ := loopBody_augments hinv.square hinv.plen hs ht hb
    have hinv' := (loopBody_sound hinv hs ht hb).1
    refine ⟨pf, hbot, hA.pos, ?_, hA.maxflow, hbound st' hinv'⟩
    rw [hA.flow]
    exact pathMin_le_init _ _ _

theorem FormAdjMatrix_pairs (u v : Nat) (hu : u < 6) (hv : v < 6) :
    rd FormAdjMatrix u v + rd FormAdjMatrix v u ≤ 2147483647 := by
  interval_cases u <;> interval_cases v <;> decide

theorem FormAdjMatrix_out_of_0 : rowSum 6 FormAdjMatrix 0 ≤ 2147483647 := by
  decide

/-- C20 at the example graph, from vertex 0 to vertex 5. -/
theorem C20_no_overflow_in_32_bits_witness :
    Square 6 FormAdjMatrix ∧ NonNeg FormAdjMatrix ∧
    (∀ u v, u < 6 → v < 6 →
      rd FormAdjMatrix u v + rd FormAdjMatrix v u ≤ 2147483647) ∧
    rowSum 6 FormAdjMatrix 0 ≤ 2147483647 ∧
    (∀ fuel, FordFulkerson32 fuel FormAdjMatrix 0 5 = FordFulkerson fuel FormAdjMatrix 0 5) ∧
    (∃ r : Int, 0 ≤ r ∧ r ≤ 2147483647 ∧ ∀ fuel, enoughFuel 6 FormAdjMatrix 0 ≤ fuel →
      FordFulkerson32 fuel FormAdjMatrix 0 5 = some r) ∧
    ∀ (b w k : Nat) (st : FFState),
      ffAfter b w 0 5 k (ffInit FormAdjMatrix) = some st →
      (∀ u v, u < 6 → v < 6 → 0 ≤ rd st.res u v ∧ rd st.res u v ≤ 2147483647) ∧
      0 ≤ st.maxflow ∧ st.maxflow ≤ 2147483647 ∧
      loopBody32 b w 0 5 st = loopBody b w 0 5 st ∧
      ∀ st', loopBody b w 0 5 st = some (true, st') →
        ∃ pathflow : Int,
          bottleneck st.res st'.parent 0 w 5 10000007 = some pathflow ∧
          0 < pathflow ∧ pathflow ≤ 10000007 ∧
          st'.maxflow = st.maxflow + pathflow ∧ st'.maxflow ≤ 2147483647 :=
  ⟨by decide, by decide, FormAdjMatrix_pairs, FormAdjMatrix_out_of_0,
    C20_no_overflow_in_32_bits 6 FormAdjMatrix 0 5 (by decide) (by decide) (by decide)
      (by decide) (by decide) FormAdjMatrix_pairs FormAdjMatrix_out_of_0⟩

/-! ## The 32-bit functions: fuel, shape and the effect of an augmentation -/

theorem augment32_mono (parent : List Int) (source : Nat) (pf : Int) {f f' : Nat}
    (hf : f ≤ f') {v : Nat} {res r : Matrix}
    (h : augment32 parent source pf f v res = some r) :
    augment32 parent source pf f' v res = some r := by
  induction f generalizing f' v res with
  | zero =>
    by_cases hv : v = source
    · cases f' <;> simp_all [augment32]
    · simp [augment32, hv] at h
  | succ f ih =>
    obtain ⟨g, rfl⟩ : ∃ g, f' = g + 1 := ⟨f' - 1, by omega⟩
    by_cases hv : v = source
    · simp_all [augment32]
    · simp only [augment32, hv, if_false] at h ⊢
      exact ih (by omega) h

theorem loopBody32_true {b w source sink : Nat} {st st' : FFState}
    (h : loopBody32 b w source sink st = some (true, st')) :
    ∃ parent' pf R', BFS b st.res source sink st.parent = some (true, parent') ∧
      bottleneck st.res parent' source w sink 10000007 = some pf ∧
      augment32 parent' source pf w sink st.res = some R' ∧
      st' = { res := R', parent := parent', maxflow := wrap32 (st.maxflow + pf) } := by
  unfold loopBody32 at h
  cases hB : BFS b st.res source sink st.parent with
  | none => simp [hB] at h
  | some bp =>
    obtain ⟨vis, parent'⟩ := bp
    rw [hB] at h
    cases vis with
    | false => simp at h
    | true =>
      simp only at h
      cases h1 : bottleneck st.res parent' source w sink 10000007 with
      | none => simp [h1] at h
      | some pf =>
        rw [h1] at h
        simp only at h
        cases h2 : augment32 parent' source pf w sink st.res with
        | none => simp [h2] at h
        | some R' =>
          rw [h2] at h
          simp only [Option.some.injEq, Prod.mk.injEq, true_and] at h
          exact ⟨parent', pf, R', rfl, h1, h2, h.symm⟩

theorem loopBody32_false {b w source sink : Nat} {st st' : FFState}
    (h : loopBody32 b w source sink st = some (false, st')) :
    ∃ parent', BFS b st.res source sink st.parent = some (false, parent') ∧
      st' = { st with parent := parent' } := by
  unfold loopBody32 at h
  cases hB : BFS b st.res source sink st.parent with
  | none => simp [hB] at h
  | some bp =>
    obtain ⟨vis, parent'⟩ := bp
    rw [hB] at h
    cases vis with
    | false =>
      simp only [Option.some.injEq, Prod.mk.injEq, true_and] at h
      exact ⟨parent', rfl, h.symm⟩
    | true =>
      simp only at h
      cases h1 : bottleneck st.res parent' source w sink 10000007 with
      | none => simp [h1] at h
      | some pf =>
        rw [h1] at h
        simp only at h
        cases h2 : augment32 parent' source pf w sink st.res with
        | none => simp [h2] at h
        | some R' => simp [h2] at h

theorem loopBody32_of_true {b w source sink : Nat} {st : FFState} {parent' : List Int}
    {pf : Int} {R' : Matrix}
    (hB : BFS b st.res source sink st.parent = some (true, parent'))
    (h1 : bottleneck st.res parent' source w sink 10000007 = some pf)
    (h2 : augment32 parent' source pf w sink st.res = some R') :
    loopBody32 b w source sink st =
      some (true, { res := R', parent := parent', maxflow := wrap32 (st.maxflow + pf) }) := by
  unfold loopBody32; rw [hB]; simp only; rw [h1]; simp only; rw [h2]

theorem loopBody32_of_false {b w source sink : Nat} {st : FFState} {parent' : List Int}
    (hB : BFS b st.res source sink st.parent = some (false, parent')) :
    loopBody32 b w source sink st = some (false, { st with parent := parent' }) := by
  unfold loopBody32; rw [hB]

theorem loopBody32_mono {b b' w w' : Nat} (hb : b ≤ b') (hw : w ≤ w') {source sink : Nat}
    {st : FFState} {r : Bool × FFState} (h : loopBody32 b w source sink st = some r) :
    loopBody32 b' w' source sink st = some r := by
  obtain ⟨c, st'⟩ := r
  cases c with
  | false =>
    obtain ⟨parent', hB, rfl⟩ := loopBody32_false h
    exact loopBody32_of_false (BFS_mono hb hB)
  | true =>
    obtain ⟨parent', pf, R', hB, h1, h2, rfl⟩ := loopBody32_true h
    exact loopBody32_of_true (BFS_mono hb hB) (bottleneck_mono _ _ _ hw h1)
      (augment32_mono _ _ _ hw h2)

theorem ffLoop32_mono {b b' w w' f f' : Nat} (hb : b ≤ b') (hw : w ≤ w') (hf : f ≤ f')
    {source sink : Nat} {st st' : FFState} (h : ffLoop32 b w source sink f st = some st') :
    ffLoop32 b' w' source sink f' st = some st' := by
  induction f generalizing f' st with
  | zero =>
    cases hB : loopBody32 b w source sink st with
    | none => simp [ffLoop32, hB] at h
    | some r =>
      have hB' := loopBody32_mono hb hw hB
      obtain ⟨c, s⟩ := r
      cases c with
      | false => cases f' <;> simp_all [ffLoop32]
      | true => simp [ffLoop32, hB] at h
  | succ f ih =>
    obtain ⟨g, rfl⟩ : ∃ g, f' = g + 1 := ⟨f' - 1, by omega⟩
    cases hB : loopBody32 b w source sink st with
    | none => simp [ffLoop32, hB] at h
    | some r =>
      have hB' := loopBody32_mono hb hw hB
      obtain ⟨c, s⟩ := r
      cases c with
      | false => simp_all [ffLoop32]
      | true =>
        simp only [ffLoop32, hB, hB'] at h ⊢
        exact ih (by omega) h

theorem ffRun32_mono {f f' : Nat} (hf : f ≤ f') {adjMatrix : Matrix} {source sink : Nat}
    {st : FFState} (h : ffRun32 f adjMatrix source sink = some st) :
    ffRun32 f' adjMatrix source sink = some st :=
  ffLoop32_mono hf hf hf h

theorem FordFulkerson32_eq_map (fuel : Nat) (adjMatrix : Matrix) (source sink : Nat) :
    FordFulkerson32 fuel adjMatrix source sink =
      (ffRun32 fuel adjMatrix source sink).map (fun st => st.maxflow) := rfl

theorem FordFulkerson32_of_ffRun32 {fuel : Nat} {adjMatrix : Matrix} {source sink : Nat}
    {st : FFState} (h : ffRun32 fuel adjMatrix source sink = some st) :
    FordFulkerson32 fuel adjMatrix source sink = some st.maxflow := by
  rw [FordFulkerson32_eq_map, h]; rfl

theorem FordFulkerson32_some {fuel : Nat} {adjMatrix : Matrix} {source sink : Nat} {r : Int}
    (h : FordFulkerson32 fuel adjMatrix source sink = some r) :
    ∃ st, ffRun32 fuel adjMatrix source sink = some st ∧ st.maxflow = r := by
  rw [FordFulkerson32_eq_map] at h
  cases hr : ffRun32 fuel adjMatrix source sink with
  | none => simp [hr] at h
  | some st =>
    rw [hr] at h
    exact ⟨st, rfl, by simpa using h⟩

theorem FordFulkerson32_mono {f f' : Nat} (hf : f ≤ f') {adjMatrix : Matrix}
    {source sink : Nat} {r : Int} (h : FordFulkerson32 f adjMatrix source sink = some r) :
    FordFulkerson32 f' adjMatrix source sink = some r := by
  obtain ⟨st, hrun, rfl⟩ := FordFulkerson32_some h
  exact FordFulkerson32_of_ffRun32 (ffRun32_mono hf hrun)

/-- Two amounts of fuel that both produce a 32-bit result produce the same one. -/
theorem FordFulkerson32_fuel_unique {f f' : Nat} {adjMatrix : Matrix} {source sink : Nat}
    {r r' : Int} (h : FordFulkerson32 f adjMatrix source sink = some r)
    (h' : FordFulkerson32 f' adjMatrix source sink = some r') : r = r' := by
  have h1 := FordFulkerson32_mono (Nat.le_max_left f f') h
  have h2 := FordFulkerson32_mono (Nat.le_max_right f f') h'
  rw [h1] at h2
  exact Option.some.inj h2

theorem Square.pushEdge32 {n : Nat} {M : Matrix} (h : Square n M) (u v : Nat) (pf : Int) :
    Square n (pushEdge32 M u v pf) := by
  unfold MaxFlow.pushEdge32
  exact (h.wr _ _ _).wr _ _ _

theorem rd_pushEdge32 {n : Nat} {M : Matrix} (h : Square n M) {u v : Nat} (hu : u < n)
    (hv : v < n) (huv : u ≠ v) (pf : Int) (a b : Nat) :
    rd (pushEdge32 M u v pf) a b =
      if a = u ∧ b = v then wrap32 (rd M u v - pf)
      else if a = v ∧ b = u then wrap32 (rd M v u + pf)
      else rd M a b := by
  unfold pushEdge32
  simp only
  rw [rd_wr (h.wr _ _ _) hv hu, rd_wr h hu hv, rd_wr h hu hv]
  have h3 : ¬ (v = u ∧ u = v) := fun ⟨e, _⟩ => huv e.symm
  rw [if_neg h3]
  by_cases h1 : a = v ∧ b = u
  · have h2 : ¬ (a = u ∧ b = v) := fun ⟨e1, _⟩ => huv (e1.symm.trans h1.1)
    rw [if_pos h1, if_neg h2, if_pos h1]
  · rw [if_neg h1]
    by_cases h2 : a = u ∧ b = v
    · rw [if_pos h2, if_pos h2]
    · rw [if_neg h2, if_neg h2, if_neg h1]

/-- The second parent walk with 32-bit results ends within the length of the
path. -/
theorem augment32_total {res0 : Matrix} {parent : List Int} {n source v : Nat} {p : List Nat}
    (hp : ParentPath res0 parent n source v p) (pf : Int) (fuel : Nat) (R : Matrix)
    (hf : p.length ≤ fuel + 1) :
    ∃ R', augment32 parent source pf fuel v R = some R' := by
  induction hp generalizing fuel R with
  | base _ => exact ⟨R, by cases fuel <;> simp [augment32]⟩
  | @step u v p hv hne hpar hpos hn hu ih =>
    have hlen : 1 ≤ p.length := List.length_pos_of_mem hu.head_mem
    obtain ⟨g, rfl⟩ : ∃ g, fuel = g + 1 := ⟨fuel - 1, by simp at hf; omega⟩
    obtain ⟨R', hR'⟩ := ih g (pushEdge32 R u v pf) (by simpa using hf)
    exact ⟨R', by simp only [augment32, hne, if_false, parentOf_eq hpar]; exact hR'⟩

/-- Whatever the second parent walk returns with 32-bit results: every edge of
the path has been lowered once, every reversed edge raised once, each with a
32-bit result, and nothing else has changed. -/
theorem augment32_entries {res0 : Matrix} {parent : List Int} {n source v : Nat}
    {p : List Nat} (hp : ParentPath res0 parent n source v p) (pf : Int) {fuel : Nat}
    {R R' : Matrix} (hR : Square n R) (h : augment32 parent source pf fuel v R = some R') :
    Square n R' ∧ ∀ a b, a < n → b < n → rd R' a b =
      if (a, b) ∈ pathEdges p then wrap32 (rd R a b - pf)
      else if (b, a) ∈ pathEdges p then wrap32 (rd R a b + pf)
      else rd R a b := by
  induction hp generalizing fuel R with
  | base _ =>
    have : R' = R := by cases fuel <;> simp [augment32] at h <;> exact h.symm
    subst this
    exact ⟨hR, fun a b _ _ => by simp [pathEdges]⟩
  | @step u v p hv hne hpar hpos hn hu ih =>
    cases fuel with
    | zero => simp [augment32, hne] at h
    | succ g =>
      simp only [augment32, hne, if_false, parentOf_eq hpar] at h
      have huv : u ≠ v := by intro e; subst e; exact hn hu.head_mem
      obtain ⟨hsq, hent⟩ := ih (hR.pushEdge32 _ _ _) h
      refine ⟨hsq, ?_⟩
      intro a b ha hb
      rw [hent a b ha hb, pathEdges_cons hu]
      have hrd := rd_pushEdge32 hR hu.lt hv huv pf
      have nv1 : ∀ x, (x, v) ∉ pathEdges p := fun x hm => hn (hu.mem_pathEdges hm).2.1
      have nv2 : ∀ x, (v, x) ∉ pathEdges p := fun x hm => hn (hu.mem_pathEdges hm).1
      by_cases c1 : a = u ∧ b = v
      · obtain ⟨rfl, rfl⟩ := c1
        rw [if_neg (nv1 a), if_neg (nv2 a), hrd, if_pos ⟨rfl, rfl⟩,
          if_pos (List.mem_cons_self _ _)]
      · by_cases c2 : a = v ∧ b = u
        · obtain ⟨rfl, rfl⟩ := c2
          have hne1 : (a, b) ∉ (b, a) :: pathEdges p := by
            intro hm
            rcases List.mem_cons.1 hm with e | hm
            · simp only [Prod.mk.injEq] at e; exact huv e.2
            · exact nv2 b hm
          rw [if_neg (nv2 b), if_neg (nv1 b), hrd, if_neg c1, if_pos ⟨rfl, rfl⟩,
            if_neg hne1, if_pos (List.mem_cons_self _ _)]
        · have e1 : ((a, b) ∈ (u, v) :: pathEdges p) ↔ (a, b) ∈ pathEdges p := by
            constructor
            · intro hm
              rcases List.mem_cons.1 hm with e | hm
              · simp only [Prod.mk.injEq] at e; exact absurd e c1
              · exact hm
            · exact List.mem_cons_of_mem _
          have e2 : ((b, a) ∈ (u, v) :: pathEdges p) ↔ (b, a) ∈ pathEdges p := by
            constructor
            · intro hm
              rcases List.mem_cons.1 hm with e | hm
              · simp only [Prod.mk.injEq] at e; exact absurd ⟨e.2, e.1⟩ c2
              · exact hm
            · exact List.mem_cons_of_mem _
          rw [hrd, if_neg c1, if_neg c2]
          simp only [e1, e2]

/-- Every iteration of the 32-bit loop that finds a path is an augmentation in
the sense of `Augments32`, and its value is at most every entry on the path. -/
theorem loopBody32_augments {n source sink : Nat} {st st' : FFState} {b w : Nat}
    (hsh : Shape n st) (hs : source < n) (ht : sink < n)
    (h : loopBody32 b w source sink st = some (true, st')) :
    ∃ p pf, Augments32 n source sink st st' p pf ∧
      bottleneck st.res st'.parent source w sink 10000007 = some pf ∧
      (∀ e ∈ pathEdges p, pf ≤ rd st.res e.1 e.2) ∧ pf ≤ 10000007 := by
  obtain ⟨parent', pf, R', hB, hbot, haug, rfl⟩ := loopBody32_true h
  obtain ⟨bst, hrun, hb, rfl⟩ := BFS_some hB
  obtain ⟨hpl, _, hchain⟩ := bfsRun_spec hsh.square.1 hs hsh.plen hrun
  obtain ⟨p, hp⟩ := hchain sink ht hb.symm
  have hpf := bottleneck_eq_pathMin hp hbot
  obtain ⟨hsq', hent⟩ := augment32_entries hp pf hsh.square haug
  refine ⟨p, pf, ⟨hp, hpf, by rw [hpf]; exact pathMin_pos hp (by norm_num), rfl,
    ⟨hsq', hpl⟩, hent⟩, hbot, ?_, ?_⟩
  · intro e he; rw [hpf]; exact pathMin_le_edge _ _ _ he
  · rw [hpf]; exact pathMin_le_init _ _ _

theorem ffInit_shape {n : Nat} {adjMatrix : Matrix} (hsq : Square n adjMatrix) :
    Shape n (ffInit adjMatrix) := by
  refine ⟨?_, ?_⟩
  · simp only [ffInit, copyMatrix_eq]; exact hsq
  · simp only [ffInit, initParent_length]; exact hsq.1

/-- The shape survives one evaluation of the 32-bit loop condition and body. -/
theorem loopBody32_shape {n source sink : Nat} {st st' : FFState} {b w : Nat} {c : Bool}
    (hsh : Shape n st) (hs : source < n) (ht : sink < n)
    (h : loopBody32 b w source sink st = some (c, st')) : Shape n st' := by
  cases c with
  | true =>
    obtain ⟨p, pf, hA, _⟩ := loopBody32_augments hsh hs ht h
    exact hA.shape
  | false =>
    obtain ⟨parent', hB, rfl⟩ := loopBody32_false h
    obtain ⟨bst, hrun, _, rfl⟩ := BFS_some hB
    exact ⟨hsh.square, (bfsRun_spec hsh.square.1 hs hsh.plen hrun).1⟩

theorem ffAfter32_shape {n source sink : Nat} {b w : Nat} (hs : source < n) (ht : sink < n)
    (k : Nat) {st st' : FFState} (hsh : Shape n st)
    (h : ffAfter32 b w source sink k st = some st') : Shape n st' := by
  induction k generalizing st with
  | zero =>
    simp only [ffAfter32, Option.some.injEq] at h
    subst h; exact hsh
  | succ k ih =>
    cases hb : loopBody32 b w source sink st with
    | none => simp [ffAfter32, hb] at h
    | some r =>
      obtain ⟨c, s1⟩ := r
      cases c with
      | false => simp [ffAfter32, hb] at h
      | true =>
        simp only [ffAfter32, hb] at h
        exact ih (loopBody32_shape hsh hs ht hb) h

/-- With `n` dequeues for `BFS` and `n - 1` steps for each parent walk, one
evaluation of the 32-bit loop condition and body runs to its end; it answers
false exactly when `sink` cannot be reached in the residual table. -/
theorem loopBody32_total {n source sink : Nat} {st : FFState} (hsh : Shape n st)
    (hs : source < n) (ht : sink < n) {b w : Nat} (hb : n ≤ b) (hw : n ≤ w + 1) :
    ∃ c st', loopBody32 b w source sink st = some (c, st') ∧
      (c = false ↔ ¬ Reach st.res n source sink) := by
  obtain ⟨bst, hrun⟩ := bfsRun_total st.parent hsh.square.1 hs hb
  obtain ⟨_, hreach, hchain⟩ := bfsRun_spec hsh.square.1 hs hsh.plen hrun
  have hB := BFS_eq sink hrun
  cases hvis : bst.visited.getD sink false with
  | false =>
    rw [hvis] at hB
    refine ⟨false, _, loopBody32_of_false hB, ?_⟩
    simp only [true_iff]
    intro hr
    have := (hreach sink ht).2 hr
    unfold Vis at this
    rw [hvis] at this
    exact Bool.noConfusion this
  | true =>
    rw [hvis] at hB
    obtain ⟨p, hp⟩ := hchain sink ht hvis
    have hlen : p.length ≤ w + 1 := le_trans hp.length_le hw
    obtain ⟨pf, hpf, _⟩ := bottleneck_spec hp w 10000007 hlen
    obtain ⟨R', hR'⟩ := augment32_total hp pf w st.res hlen
    refine ⟨true, _, loopBody32_of_true hB hpf hR', ?_⟩
    constructor
    · intro h; exact Bool.noConfusion h
    · intro h; exact absurd ((hreach sink ht).1 hvis) h

/-! ## The 32-bit loop: the row of `source` and termination -/

theorem wrap32_add_wrap32 (a b : Int) : wrap32 (wrap32 a + b) = wrap32 (a + b) := by
  unfold wrap32; omega

theorem IntEntries.rd_range {M : Matrix} (h : IntEntries M) (u v : Nat) :
    -2147483648 ≤ rd M u v ∧ rd M u v ≤ 2147483647 := by
  unfold MaxFlow.rd
  simp only [List.getD_eq_getElem?_getD]
  cases hu : M[u]? with
  | none => simp
  | some row =>
    simp only [Option.getD_some]
    cases hv : row[v]? with
    | none => simp
    | some x =>
      simp only [Option.getD_some]
      exact h row (List.getElem?_mem hu) x (List.getElem?_mem hv)

/-- A parent path that starts away from `source` has exactly one edge that
leaves `source`. -/
theorem ParentPath.source_edge {res : Matrix} {parent : List Int} {n source v : Nat}
    {p : List Nat} (h : ParentPath res parent n source v p) (hv : v ≠ source) :
    ∃ c, (source, c) ∈ pathEdges p ∧ ∀ c', (source, c') ∈ pathEdges p → c' = c := by
  induction h with
  | base _ => exact absurd rfl hv
  | @step u v p hvn hne hpar hpos hn hu ih =>
    rw [pathEdges_cons hu]
    by_cases hus : u = source
    · subst hus
      have hp : p = [u] := by
        cases hu with
        | base _ => rfl
        | step _ hne' _ _ _ _ => exact absurd rfl hne'
      subst hp
      refine ⟨v, List.mem_cons_self _ _, ?_⟩
      intro c' hc'
      simpa [pathEdges] using hc'
    · obtain ⟨c, hc, huniq⟩ := ih hus
      refine ⟨c, List.mem_cons_of_mem _ hc, ?_⟩
      intro c' hc'
      rcases List.mem_cons.1 hc' with e | hc'
      · simp only [Prod.mk.injEq] at e; exact absurd e.1.symm hus
      · exact huniq c' hc'

theorem sentOut_bounds {n : Nat} {adjMatrix : Matrix} {source : Nat} {st : FFState}
    (h : RowInv n adjMatrix source st) :
    0 ≤ sentOut n adjMatrix source st ∧
      sentOut n adjMatrix source st ≤ capOut n adjMatrix source := by
  unfold sentOut capOut
  constructor
  · apply Finset.sum_nonneg
    intro v hv
    have := h.hi v (Finset.mem_range.1 hv)
    omega
  · apply Finset.sum_le_sum
    intro v hv
    have := h.lo v (Finset.mem_range.1 hv)
    rcases le_total 0 (rd adjMatrix source v) with h0 | h0
    · rw [min_eq_left h0] at this; rw [max_eq_right h0]; omega
    · rw [min_eq_right h0] at this; rw [max_eq_left h0]; omega

theorem ffInit_rowInv {n : Nat} {adjMatrix : Matrix} (source : Nat)
    (hsq : Square n adjMatrix) : RowInv n adjMatrix source (ffInit adjMatrix) := by
  refine ⟨ffInit_shape hsq, ?_, ?_, ?_⟩
  · intro v _; simp only [ffInit, copyMatrix_eq]; exact min_le_right _ _
  · intro v _; simp only [ffInit, copyMatrix_eq]; exact le_refl _
  · unfold sentOut
    simp only [ffInit, copyMatrix_eq, sub_self, Finset.sum_const_zero]
    rfl

/-- One augmentation of the 32-bit loop lowers exactly one entry of the row of
`source`, by the value of the augmentation and without overflow, so what has
left `source` grows by that value. -/
theorem loopBody32_rowInv_true {n : Nat} {adjMatrix : Matrix} {source sink : Nat}
    {st st' : FFState} {b w : Nat} (hinv : RowInv n adjMatrix source st)
    (hrow : ∀ v, v < n → rd adjMatrix source v ≤ 2147483647)
    (hs : source < n) (ht : sink < n) (hst : source ≠ sink)
    (h : loopBody32 b w source sink st = some (true, st')) :
    RowInv n adjMatrix source st' ∧
      ∃ pf : Int, bottleneck st.res st'.parent source w sink 10000007 = some pf ∧
        0 < pf ∧ pf ≤ 10000007 ∧
        sentOut n adjMatrix source st' = sentOut n adjMatrix source st + pf ∧
        st'.maxflow = wrap32 (st.maxflow + pf) := by
  obtain ⟨p, pf, hA, hbot, hcap, hle⟩ := loopBody32_augments hinv.shape hs ht h
  obtain ⟨c, hc, huniq⟩ := hA.path.source_edge (Ne.symm hst)
  have hcn : c < n := hA.path.all_lt c (hA.path.mem_pathEdges hc).2.1
  have hpos := hA.pos
  have hcapc : pf ≤ rd st.res source c := hcap (source, c) hc
  have hrowv : ∀ v, v < n →
      rd st'.res source v = rd st.res source v - (if v = c then pf else 0) := by
    intro v hv
    rw [hA.entries source v hs hv]
    by_cases hvc : v = c
    · subst hvc
      rw [if_pos hc, if_pos rfl]
      have h1 := hinv.hi v hv
      have h2 := hrow v hv
      exact wrap32_eq (by omega) (by omega)
    · have h1 : (source, v) ∉ pathEdges p := fun hm => hvc (huniq v hm)
      have h2 : (v, source) ∉ pathEdges p := fun hm =>
        (hA.path.mem_pathEdges hm).2.2.1 rfl
      rw [if_neg h1, if_neg h2, if_neg hvc]; ring
  have hsent : sentOut n adjMatrix source st' = sentOut n adjMatrix source st + pf := by
    unfold sentOut
    have : ∀ v ∈ Finset.range n, rd adjMatrix source v - rd st'.res source v =
        (rd adjMatrix source v - rd st.res source v) + (if v = c then pf else 0) := by
      intro v hv
      rw [hrowv v (Finset.mem_range.1 hv)]; ring
    rw [Finset.sum_congr rfl this, Finset.sum_add_distrib,
      Finset.sum_ite_eq' (Finset.range n) c (fun _ => pf)]
    simp [hcn]
  refine ⟨⟨hA.shape, ?_, ?_, ?_⟩, pf, hbot, hpos, hle, hsent, hA.maxflow⟩
  · intro v hv
    rw [hrowv v hv]
    have h1 := hinv.lo v hv
    by_cases hvc : v = c
    · subst hvc
      rw [if_pos rfl]
      have : min 0 (rd adjMatrix source v) ≤ 0 := min_le_left _ _
      omega
    · rw [if_neg hvc]; omega
  · intro v hv
    rw [hrowv v hv]
    have h1 := hinv.hi v hv
    split <;> omega
  · rw [hA.maxflow, hinv.flow, hsent, wrap32_add_wrap32]

theorem loopBody32_rowInv_false {n : Nat} {adjMatrix : Matrix} {source sink : Nat}
    {st st' : FFState} {b w : Nat} (hinv : RowInv n adjMatrix source st)
    (hs : source < n) (ht : sink < n)
    (h : loopBody32 b w source sink st = some (false, st')) :
    RowInv n adjMatrix source st' ∧ st'.res = st.res ∧ st'.maxflow = st.maxflow := by
  have hsh := loopBody32_shape hinv.shape hs ht h
  obtain ⟨parent', _, rfl⟩ := loopBody32_false h
  exact ⟨⟨hsh, hinv.lo, hinv.hi, hinv.flow⟩, rfl, rfl⟩

theorem ffAfter32_rowInv {n : Nat} {adjMatrix : Matrix} {source sink : Nat} {b w : Nat}
    (hrow : ∀ v, v < n → rd adjMatrix source v ≤ 2147483647)
    (hs : source < n) (ht : sink < n) (hst : source ≠ sink) (k : Nat) {st st' : FFState}
    (hinv : RowInv n adjMatrix source st)
    (h : ffAfter32 b w source sink k st = some st') : RowInv n adjMatrix source st' := by
  induction k generalizing st with
  | zero =>
    simp only [ffAfter32, Option.some.injEq] at h
    subst h; exact hinv
  | succ k ih =>
    cases hb : loopBody32 b w source sink st with
    | none => simp [ffAfter32, hb] at h
    | some r =>
      obtain ⟨c, s1⟩ := r
      cases c with
      | false => simp [ffAfter32, hb] at h
      | true =>
        simp only [ffAfter32, hb] at h
        exact ih (loopBody32_rowInv_true hinv hrow hs ht hst hb).1 h

/-- The 32-bit main loop exits: what has left `source` grows by at least 1 with
every augmentation and cannot exceed the positive capacity of the row of
`source`, whatever happens to the other entries. -/
theorem ffLoop32_total {n : Nat} {adjMatrix : Matrix} {source sink : Nat}
    (hrow : ∀ v, v < n → rd adjMatrix source v ≤ 2147483647)
    (hs : source < n) (ht : sink < n) (hst : source ≠ sink) {b w : Nat}
    (hb : n ≤ b) (hw : n ≤ w + 1) (fuel : Nat) (st : FFState)
    (hinv : RowInv n adjMatrix source st)
    (hf : capOut n adjMatrix source ≤ sentOut n adjMatrix source st + fuel) :
    ∃ st', ffLoop32 b w source sink fuel st = some st' ∧
      RowInv n adjMatrix source st' ∧ ¬ Reach st'.res n source sink := by
  induction fuel generalizing st with
  | zero =>
    obtain ⟨c, st', hbody, hc⟩ := loopBody32_total hinv.shape hs ht hb hw
    cases c with
    | false =>
      obtain ⟨hinv', hres, _⟩ := loopBody32_rowInv_false hinv hs ht hbody
      exact ⟨st', by simp [ffLoop32, hbody], hinv', by rw [hres]; exact hc.1 rfl⟩
    | true =>
      obtain ⟨hinv', pf, _, hpos, _, hsent, _⟩ :=
        loopBody32_rowInv_true hinv hrow hs ht hst hbody
      have := (sentOut_bounds hinv').2
      simp at hf
      omega
  | succ fuel ih =>
    obtain ⟨c, st', hbody, hc⟩ := loopBody32_total hinv.shape hs ht hb hw
    cases c with
    | false =>
      obtain ⟨hinv', hres, _⟩ := loopBody32_rowInv_false hinv hs ht hbody
      exact ⟨st', by simp [ffLoop32, hbody], hinv', by rw [hres]; exact hc.1 rfl⟩
    | true =>
      obtain ⟨hinv', pf, _, hpos, _, hsent, _⟩ :=
        loopBody32_rowInv_true hinv hrow hs ht hst hbody
      obtain ⟨st'', h1, h2, h3⟩ := ih st' hinv' (by push_cast at hf; omega)
      exact ⟨st'', by simp only [ffLoop32, hbody]; exact h1, h2, h3⟩

/-- The state in which the 32-bit main loop exits is the state after some
number of augmentations, up to the parent vector rewritten by the last call of
`BFS`. -/
theorem ffLoop32_after {b w source sink : Nat} (fuel : Nat) {st st' : FFState}
    (h : ffLoop32 b w source sink fuel st = some st') :
    ∃ k st'', k ≤ fuel ∧ ffAfter32 b w source sink k st = some st'' ∧
      loopBody32 b w source sink st'' = some (false, st') ∧ st'.maxflow = st''.maxflow ∧
      st'.res = st''.res := by
  induction fuel generalizing st with
  | zero =>
    cases hb : loopBody32 b w source sink st with
    | none => simp [ffLoop32, hb] at h
    | some r =>
      obtain ⟨c, s1⟩ := r
      cases c with
      | true => simp [ffLoop32, hb] at h
      | false =>
        simp only [ffLoop32, hb, Option.some.injEq] at h
        subst h
        obtain ⟨parent', _, rfl⟩ := loopBody32_false hb
        exact ⟨0, st, le_refl _, rfl, hb, rfl, rfl⟩
  | succ fuel ih =>
    cases hb : loopBody32 b w source sink st with
    | none => simp [ffLoop32, hb] at h
    | some r =>
      obtain ⟨c, s1⟩ := r
      cases c with
      | true =>
        simp only [ffLoop32, hb] at h
        obtain ⟨k, st'', hk, h1, h2, h3, h4⟩ := ih h
        exact ⟨k + 1, st'', by omega, by simp only [ffAfter32, hb]; exact h1, h2, h3, h4⟩
      | false =>
        simp only [ffLoop32, hb, Option.some.injEq] at h
        subst h
        obtain ⟨parent', _, rfl⟩ := loopBody32_false hb
        exact ⟨0, st, Nat.zero_le _, rfl, hb, rfl, rfl⟩

/-- A 32-bit solve on a square table whose row of `source` holds `int` values
runs to completion with `enoughFuel`; its final state satisfies the row
invariant and has no residual path to `sink`, and it is the only result for
any fuel. -/
theorem solve32_spec {n : Nat} {adjMatrix : Matrix} {source sink : Nat}
    (hsq : Square n adjMatrix) (hrow : ∀ v, v < n → rd adjMatrix source v ≤ 2147483647)
    (hs : source < n) (ht : sink < n) (hst : source ≠ sink) :
    ∃ st, RowInv n adjMatrix source st ∧ ¬ Reach st.res n source sink ∧
      ffLoop32 n (n - 1) source sink (capOut n adjMatrix source).toNat (ffInit adjMatrix)
        = some st ∧
      (∀ fuel, enoughFuel n adjMatrix source ≤ fuel →
        ffRun32 fuel adjMatrix source sink = some st) ∧
      (∀ fuel r, FordFulkerson32 fuel adjMatrix source sink = some r → r = st.maxflow) := by
  have h0 : sentOut n adjMatrix source (ffInit adjMatrix) = 0 := by
    unfold sentOut
    simp only [ffInit, copyMatrix_eq, sub_self, Finset.sum_const_zero]
  obtain ⟨st, hloop, hinv, hno⟩ := ffLoop32_total hrow hs ht hst (le_refl n)
    (show n ≤ (n - 1) + 1 by omega) (capOut n adjMatrix source).toNat (ffInit adjMatrix)
    (ffInit_rowInv source hsq) (by
      rw [h0]
      have := Int.self_le_toNat (capOut n adjMatrix source)
      omega)
  have hrun : ∀ fuel, enoughFuel n adjMatrix source ≤ fuel →
      ffRun32 fuel adjMatrix source sink = some st := by
    intro fuel hf
    unfold enoughFuel at hf
    exact ffLoop32_mono (by omega) (by omega) (by omega) hloop
  refine ⟨st, hinv, hno, hloop, hrun, ?_⟩
  intro fuel r hr
  exact FordFulkerson32_fuel_unique hr (FordFulkerson32_of_ffRun32 (hrun _ (le_refl _)))

theorem rd_le_rowSum {n : Nat} {M : Matrix} (hnn : NonNeg M) (u : Nat) {v : Nat}
    (hv : v < n) : rd M u v ≤ rowSum n M u := by
  unfold rowSum
  exact Finset.single_le_sum (f := fun v => rd M u v) (fun i _ => hnn.rd u i)
    (Finset.mem_range.2 hv)

/-! ## A solve whose `maxflow` overflows -/

theorem ffAfter32_succ {b w source sink : Nat} (k : Nat) {st st' st'' : FFState}
    (h : ffAfter32 b w source sink k st = some st')
    (hb : loopBody32 b w source sink st' = some (true, st'')) :
    ffAfter32 b w source sink (k + 1) st = some st'' := by
  induction k generalizing st with
  | zero =>
    simp only [ffAfter32, Option.some.injEq] at h
    subst h
    simp only [ffAfter32, hb]
  | succ k ih =>
    cases h1 : loopBody32 b w source sink st with
    | none => simp [ffAfter32, h1] at h
    | some r =>
      obtain ⟨c, s1⟩ := r
      cases c with
      | false => simp [ffAfter32, h1] at h
      | true =>
        simp only [ffAfter32, h1] at h
        have := ih h
        rw [ffAfter32, h1]
        exact this

theorem ffLoop32_of_after {b w source sink : Nat} (k : Nat) {st st' st'' : FFState}
    (h : ffAfter32 b w source sink k st = some st')
    (hb : loopBody32 b w source sink st' = some (false, st'')) :
    ffLoop32 b w source sink k st = some st'' := by
  induction k generalizing st with
  | zero =>
    simp only [ffAfter32, Option.some.injEq] at h
    subst h
    simp only [ffLoop32, hb]
  | succ k ih =>
    cases h1 : loopBody32 b w source sink st with
    | none => simp [ffAfter32, h1] at h
    | some r =>
      obtain ⟨c, s1⟩ := r
      cases c with
      | false => simp [ffAfter32, h1] at h
      | true =>
        simp only [ffAfter32, h1] at h
        have := ih h
        rw [ffLoop32, h1]
        exact this

/-- One iteration on a table of the shape that `bigSourceTable` keeps while the
edge `0 → 1` still has at least `10000007` left: the path is `0 → 1` and the
value is the sentinel. -/
theorem bigSource_step (x y m : Int) (parent : List Int) (hp : parent.length = 3)
    (hx : 10000007 ≤ x) :
    loopBody32 3 2 0 1
        { res := [[0, x, 1], [y, 0, 0], [0, 1, 0]], parent := parent, maxflow := m } =
      some (true, { res := [[0, wrap32 (x - 10000007), 1], [wrap32 (y + 10000007), 0, 0],
                            [0, 1, 0]],
                    parent := [-1, 0, 0], maxflow := wrap32 (m + 10000007) }) := by
  have h0 : 0 < x := by omega
  have h1 : min 10000007 x = 10000007 := min_eq_left hx
  match parent, hp with
  | [a, b, c], _ =>
    simp [loopBody32, BFS, bfsRun, bfsLoop, bfsInit, scan, scanStep, rd, wr, bottleneck,
      augment32, pushEdge32, parentOf, List.range, List.range.loop, h0, h1]

theorem bigSource_chain (k : Nat) (x y m : Int) (parent : List Int) (hp : parent.length = 3)
    (hx : 10000007 * ((k : Int) + 1) ≤ x) (hx1 : x ≤ 2147483647) (hy : 0 ≤ y)
    (hy1 : y + 10000007 * ((k : Int) + 1) ≤ 2147483647) (hm : 0 ≤ m)
    (hm1 : m + 10000007 * ((k : Int) + 1) ≤ 2147483647) :
    ffAfter32 3 2 0 1 (k + 1)
        { res := [[0, x, 1], [y, 0, 0], [0, 1, 0]], parent := parent, maxflow := m } =
      some { res := [[0, x - 10000007 * ((k : Int) + 1), 1],
                     [y + 10000007 * ((k : Int) + 1), 0, 0], [0, 1, 0]],
             parent := [-1, 0, 0], maxflow := m + 10000007 * ((k : Int) + 1) } := by
  induction k generalizing x y m parent with
  | zero =>
    simp only [ffAfter32, bigSource_step x y m parent hp (by omega)]
    rw [wrap32_eq (by omega) (by omega), wrap32_eq (by omega) (by omega),
      wrap32_eq (by omega) (by omega)]
    simp
  | succ k ih =>
    rw [ffAfter32, bigSource_step x y m parent hp (by push_cast at hx; omega)]
    simp only
    push_cast at hx hy1 hm1
    rw [wrap32_eq (by omega) (by omega), wrap32_eq (by omega) (by omega),
      wrap32_eq (by omega) (by omega)]
    rw [ih (x - 10000007) (y + 10000007) (m + 10000007) [-1, 0, 0] rfl (by omega) (by omega)
      (by omega) (by omega) (by omega) (by omega)]
    have e1 : x - 10000007 - 10000007 * ((k : Int) + 1) =
        x - 10000007 * (((k + 1 : Nat) : Int) + 1) := by push_cast; ring
    have e2 : y + 10000007 + 10000007 * ((k : Int) + 1) =
        y + 10000007 * (((k + 1 : Nat) : Int) + 1) := by push_cast; ring
    have e3 : m + 10000007 + 10000007 * ((k : Int) + 1) =
        m + 10000007 * (((k + 1 : Nat) : Int) + 1) := by push_cast; ring
    rw [e1, e2, e3]

theorem ffInit_bigSourceTable : ffInit bigSourceTable =
    { res := [[0, 2147483647, 1], [0, 0, 0], [0, 1, 0]], parent := [-1, -1, -1],
      maxflow := 0 } := by
  simp [ffInit, copyMatrix_eq, initParent_eq, bigSourceTable]

/-- After 214 augmentations of `10000007` along `0 → 1`. -/
theorem bigSource_after_214 : ffAfter32 3 2 0 1 214 (ffInit bigSourceTable) =
    some { res := [[0, 7482149, 1], [2140001498, 0, 0], [0, 1, 0]], parent := [-1, 0, 0],
           maxflow := 2140001498 } := by
  rw [ffInit_bigSourceTable]
  have := bigSource_chain 213 2147483647 0 0 [-1, -1, -1] rfl (by norm_num) (by norm_num)
    (by norm_num) (by norm_num) (by norm_num) (by norm_num)
  norm_num at this
  exact this

theorem bigSource_step_215 : loopBody32 3 2 0 1
      { res := [[0, 7482149, 1], [2140001498, 0, 0], [0, 1, 0]], parent := [-1, 0, 0],
        maxflow := 2140001498 } =
    some (true, { res := [[0, 0, 1], [2147483647, 0, 0], [0, 1, 0]], parent := [-1, 0, 0],
                  maxflow := 2147483647 }) := by
  simp [loopBody32, BFS, bfsRun, bfsLoop, bfsInit, scan, scanStep, rd, wr, bottleneck,
    augment32, pushEdge32, parentOf, List.range, List.range.loop, wrap32]

theorem bigSource_step_216 : loopBody32 3 2 0 1
      { res := [[0, 0, 1], [2147483647, 0, 0], [0, 1, 0]], parent := [-1, 0, 0],
        maxflow := 2147483647 } =
    some (true, { res := [[0, 0, 0], [2147483647, 0, 1], [1, 0, 0]], parent := [-1, 2, 0],
                  maxflow := -2147483648 }) := by
  simp [loopBody32, BFS, bfsRun, bfsLoop, bfsInit, scan, scanStep, rd, wr, bottleneck,
    augment32, pushEdge32, parentOf, List.range, List.range.loop, wrap32]

theorem bigSource_step_217 : loopBody32 3 2 0 1
      { res := [[0, 0, 0], [2147483647, 0, 1], [1, 0, 0]], parent := [-1, 2, 0],
        maxflow := -2147483648 } =
    some (false, { res := [[0, 0, 0], [2147483647, 0, 1], [1, 0, 0]], parent := [-1, 2, 0],
                   maxflow := -2147483648 }) := by
  simp [loopBody32, BFS, bfsRun, bfsLoop, bfsInit, scan, scanStep, rd, wr,
    List.range, List.range.loop]

theorem bigSource_after_215 : ffAfter32 3 2 0 1 215 (ffInit bigSourceTable) =
    some { res := [[0, 0, 1], [2147483647, 0, 0], [0, 1, 0]], parent := [-1, 0, 0],
           maxflow := 2147483647 } :=
  ffAfter32_succ 214 bigSource_after_214 bigSource_step_215

theorem bigSource_after_216 : ffAfter32 3 2 0 1 216 (ffInit bigSourceTable) =
    some { res := [[0, 0, 0], [2147483647, 0, 1], [1, 0, 0]], parent := [-1, 2, 0],
           maxflow := -2147483648 } :=
  ffAfter32_succ 215 bigSource_after_215 bigSource_step_216

/-- The 32-bit solve on `bigSourceTable` from 0 to 1 returns `-2^31`. -/
theorem FordFulkerson32_bigSourceTable :
    FordFulkerson32 216 bigSourceTable 0 1 = some (-2147483648) :=
  FordFulkerson32_of_ffRun32
    (@ffLoop32_mono 3 216 2 216 216 216 (by norm_num) (by norm_num) (le_refl _) 0 1 _ _
      (ffLoop32_of_after 216 bigSource_after_216 bigSource_step_217))

/-! ## Bounds on the result, termination and the accumulator -/

theorem rowInv_maxflow {n : Nat} {adjMatrix : Matrix} {source : Nat} {st : FFState}
    (hnn : NonNeg adjMatrix) (hout : rowSum n adjMatrix source ≤ 2147483647)
    (h : RowInv n adjMatrix source st) :
    st.maxflow = sentOut n adjMatrix source st ∧ 0 ≤ st.maxflow ∧
      st.maxflow ≤ rowSum n adjMatrix source := by
  obtain ⟨h0, h1⟩ := sentOut_bounds h
  rw [capOut_eq_rowSum hnn] at h1
  have : st.maxflow = sentOut n adjMatrix source st := by
    rw [h.flow]; exact wrap32_eq (by omega) (by omega)
  exact ⟨this, by omega, by omega⟩

/-- C4, amended: on every valid input on which the capacities that leave
`source` sum to at most `2^31 - 1`, `FordFulkerson` with 32-bit `int`
arithmetic returns a value, and every value `r` it returns satisfies
`0 ≤ r ≤ sum over v of adjMatrix[source][v]`. -/
theorem C4_result_between_zero_and_source_capacity (n : Nat) (adjMatrix : Matrix)
    (source sink : Nat) (hsq : Square n adjMatrix) (hnn : NonNeg adjMatrix)
    (hs : source < n) (ht : sink < n) (hst : source ≠ sink)
    (hout : rowSum n adjMatrix source ≤ 2147483647) :
    (∃ r, FordFulkerson32 (enoughFuel n adjMatrix source) adjMatrix source sink = some r) ∧
    ∀ fuel r, FordFulkerson32 fuel adjMatrix source sink = some r →
      0 ≤ r ∧ r ≤ rowSum n adjMatrix source := by
  have hrow : ∀ v, v < n → rd adjMatrix source v ≤ 2147483647 := fun v hv =>
    le_trans (rd_le_rowSum hnn source hv) hout
  obtain ⟨st, hinv, _, _, hrun, huniq⟩ := solve32_spec hsq hrow hs ht hst
  refine ⟨⟨st.maxflow, FordFulkerson32_of_ffRun32 (hrun _ (le_refl _))⟩, ?_⟩
  intro fuel r hr
  rw [huniq fuel r hr]
  exact (rowInv_maxflow hnn hout hinv).2

/-- C4 at the example graph, from vertex 0 to vertex 5. -/
theorem C4_result_between_zero_and_source_capacity_witness :
    Square 6 FormAdjMatrix ∧ NonNeg FormAdjMatrix ∧
    rowSum 6 FormAdjMatrix 0 ≤ 2147483647 ∧
    (∃ r, FordFulkerson32 (enoughFuel 6 FormAdjMatrix 0) FormAdjMatrix 0 5 = some r) ∧
    ∀ fuel r, FordFulkerson32 fuel FormAdjMatrix 0 5 = some r →
      0 ≤ r ∧ r ≤ rowSum 6 FormAdjMatrix 0 :=
  ⟨by decide, by decide, FormAdjMatrix_out_of_0,
    C4_result_between_zero_and_source_capacity 6 FormAdjMatrix 0 5 (by decide) (by decide)
      (by decide) (by decide) (by decide) FormAdjMatrix_out_of_0⟩

/-- C4 as stated fails on the valid input `bigSourceTable` with `source = 0` and
`sink = 1`: the capacities out of vertex 0 sum to `2^31`, the 217th evaluation
of the loop condition ends the loop, and the value returned is `-2^31`, which
is negative. -/
theorem C4_overflowing_source_row_returns_negative :
    Square 3 bigSourceTable ∧ NonNeg bigSourceTable ∧ IntEntries bigSourceTable ∧
    FordFulkerson32 216 bigSourceTable 0 1 = some (-2147483648) ∧
    ¬ ∀ fuel r, FordFulkerson32 fuel bigSourceTable 0 1 = some r →
      0 ≤ r ∧ r ≤ rowSum 3 bigSourceTable 0 := by
  refine ⟨by decide, by decide, by decide, FordFulkerson32_bigSourceTable, ?_⟩
  intro h
  have := (h 216 _ FordFulkerson32_bigSourceTable).1
  omega

/-- C5: on every valid input `FordFulkerson` with 32-bit `int` arithmetic
terminates.  The run in which the while loop of each `BFS` call dequeues at
most `n` vertices, each of the two parent walks of an iteration takes at most
`n - 1` steps and the main loop performs at most
`sum over v of adjMatrix[source][v]` augmentations reaches the exit of the main
loop: after some number `k` of augmentations the call of `BFS` answers false,
there is then no path of strictly positive entries from `source` to `sink`, and
the final `maxflow` is what `FordFulkerson` returns. -/
theorem C5_FordFulkerson_terminates (n : Nat) (adjMatrix : Matrix) (source sink : Nat)
    (hsq : Square n adjMatrix) (hnn : NonNeg adjMatrix) (hint : IntEntries adjMatrix)
    (hs : source < n) (ht : sink < n) (hst : source ≠ sink) :
    ∃ st : FFState,
      ffLoop32 n (n - 1) source sink (rowSum n adjMatrix source).toNat (ffInit adjMatrix)
        = some st ∧
      (∃ k st', k ≤ (rowSum n adjMatrix source).toNat ∧
        ffAfter32 n (n - 1) source sink k (ffInit adjMatrix) = some st' ∧
        loopBody32 n (n - 1) source sink st' = some (false, st)) ∧
      ¬ Reach st.res n source sink ∧
      ∀ fuel, enoughFuel n adjMatrix source ≤ fuel →
        FordFulkerson32 fuel adjMatrix source sink = some st.maxflow := by
  have hrow : ∀ v, v < n → rd adjMatrix source v ≤ 2147483647 := fun v _ =>
    (hint.rd_range source v).2
  obtain ⟨st, _, hno, hloop, hrun, _⟩ := solve32_spec hsq hrow hs ht hst
  rw [capOut_eq_rowSum hnn] at hloop
  obtain ⟨k, st', hk, h1, h2, _, _⟩ := ffLoop32_after _ hloop
  exact ⟨st, hloop, ⟨k, st', hk, h1, h2⟩, hno,
    fun fuel hf => FordFulkerson32_of_ffRun32 (hrun fuel hf)⟩

/-- C5 at the example graph, from vertex 0 to vertex 5. -/
theorem C5_FordFulkerson_terminates_witness :
    Square 6 FormAdjMatrix ∧ NonNeg FormAdjMatrix ∧ IntEntries FormAdjMatrix ∧
    ∃ st : FFState,
      ffLoop32 6 (6 - 1) 0 5 (rowSum 6 FormAdjMatrix 0).toNat (ffInit FormAdjMatrix)
        = some st ∧
      (∃ k st', k ≤ (rowSum 6 FormAdjMatrix 0).toNat ∧
        ffAfter32 6 (6 - 1) 0 5 k (ffInit FormAdjMatrix) = some st' ∧
        loopBody32 6 (6 - 1) 0 5 st' = some (false, st)) ∧
      ¬ Reach st.res 6 0 5 ∧
      ∀ fuel, enoughFuel 6 FormAdjMatrix 0 ≤ fuel →
        FordFulkerson32 fuel FormAdjMatrix 0 5 = some st.maxflow :=
  ⟨by decide, by decide, by decide,
    C5_FordFulkerson_terminates 6 FormAdjMatrix 0 5 (by decide) (by decide) (by decide)
      (by decide) (by decide) (by decide)⟩

/-- C17, amended: on every valid input on which the capacities that leave
`source` sum to at most `2^31 - 1`, with 32-bit `int` arithmetic `maxflow`
starts at 0, is never negative, and every iteration of the loop adds to it the
`pathflow` of its augmentation, which is strictly positive, so that it strictly
increases; `FordFulkerson` returns a value, and the value it returns is
`maxflow` after the last augmentation, when `BFS` answers false. -/
theorem C17_maxflow_strictly_increases (n : Nat) (adjMatrix : Matrix) (source sink : Nat)
    (hsq : Square n adjMatrix) (hnn : NonNeg adjMatrix) (hs : source < n) (ht : sink < n)
    (hst : source ≠ sink) (hout : rowSum n adjMatrix source ≤ 2147483647) :
    (ffInit adjMatrix).maxflow = 0 ∧
    (∀ (b w k : Nat) (st : FFState),
      ffAfter32 b w source sink k (ffInit adjMatrix) = some st →
      0 ≤ st.maxflow ∧
      ∀ st', loopBody32 b w source sink st = some (true, st') →
        ∃ pathflow : Int,
          bottleneck st.res st'.parent source w sink 10000007 = some pathflow ∧
          0 < pathflow ∧ st'.maxflow = st.maxflow + pathflow ∧
          st.maxflow < st'.maxflow) ∧
    (∃ r, ∀ fuel, enoughFuel n adjMatrix source ≤ fuel →
      FordFulkerson32 fuel adjMatrix source sink = some r) ∧
    (∀ fuel r, FordFulkerson32 fuel adjMatrix source sink = some r →
      ∃ k st, ffAfter32 fuel fuel source sink k (ffInit adjMatrix) = some st ∧
        (∃ st', loopBody32 fuel fuel source sink st = some (false, st')) ∧
        r = st.maxflow) := by
  have hrow : ∀ v, v < n → rd adjMatrix source v ≤ 2147483647 := fun v hv =>
    le_trans (rd_le_rowSum hnn source hv) hout
  refine ⟨rfl, ?_, ?_, ?_⟩
  · intro b w k st h
    have hinv := ffAfter32_rowInv hrow hs ht hst k (ffInit_rowInv source hsq) h
    obtain ⟨e0, h0, _⟩ := rowInv_maxflow hnn hout hinv
    refine ⟨h0, ?_⟩
    intro st' hb
    obtain ⟨hinv', pf, hbot, hpos, _, hsent, _⟩ :=
      loopBody32_rowInv_true hinv hrow hs ht hst hb
    obtain ⟨e1, _, _⟩ := rowInv_maxflow hnn hout hinv'
    exact ⟨pf, hbot, hpos, by rw [e1, e0, hsent], by rw [e1, e0, hsent]; omega⟩
  · obtain ⟨st, _, _, _, hrun, _⟩ := solve32_spec hsq hrow hs ht hst
    exact ⟨st.maxflow, fun fuel hf => FordFulkerson32_of_ffRun32 (hrun fuel hf)⟩
  · intro fuel r hr
    obtain ⟨stf, hl, hr'⟩ := FordFulkerson32_some hr
    obtain ⟨k, st, _, h1, h2, h3, _⟩ := ffLoop32_after fuel hl
    exact ⟨k, st, h1, ⟨stf, h2⟩, by rw [← hr', h3]⟩

/-- C17 at the example graph, from vertex 0 to vertex 5, where the loop performs
four augmentations. -/
theorem C17_maxflow_strictly_increases_witness :
    Square 6 FormAdjMatrix ∧ NonNeg FormAdjMatrix ∧
    rowSum 6 FormAdjMatrix 0 ≤ 2147483647 ∧
    (ffAfter32 6 5 0 5 4 (ffInit FormAdjMatrix)).isSome = true ∧
    (ffInit FormAdjMatrix).maxflow = 0 ∧
    (∀ (b w k : Nat) (st : FFState),
      ffAfter32 b w 0 5 k (ffInit FormAdjMatrix) = some st →
      0 ≤ st.maxflow ∧
      ∀ st', loopBody32 b w 0 5 st = some (true, st') →
        ∃ pathflow : Int,
          bottleneck st.res st'.parent 0 w 5 10000007 = some pathflow ∧
          0 < pathflow ∧ st'.maxflow = st.maxflow + pathflow ∧
          st.maxflow < st'.maxflow) ∧
    (∃ r, ∀ fuel, enoughFuel 6 FormAdjMatrix 0 ≤ fuel →
      FordFulkerson32 fuel FormAdjMatrix 0 5 = some r) ∧
    (∀ fuel r, FordFulkerson32 fuel FormAdjMatrix 0 5 = some r →
      ∃ k st, ffAfter32 fuel fuel 0 5 k (ffInit FormAdjMatrix) = some st ∧
        (∃ st', loopBody32 fuel fuel 0 5 st = some (false, st')) ∧
        r = st.maxflow) :=
  ⟨by decide, by decide, FormAdjMatrix_out_of_0, by decide,
    C17_maxflow_strictly_increases 6 FormAdjMatrix 0 5 (by decide) (by decide) (by decide)
      (by decide) (by decide) FormAdjMatrix_out_of_0⟩

/-- C17 as stated fails on the valid input `bigSourceTable` with `source = 0`
and `sink = 1`: after 215 augmentations `maxflow` is `2^31 - 1`, and the 216th
augmentation, of value 1, leaves it at `-2^31`: it has decreased and is
negative. -/
theorem C17_maxflow_wraps_to_negative :
    Square 3 bigSourceTable ∧ NonNeg bigSourceTable ∧ IntEntries bigSourceTable ∧
    ∃ st st', ffAfter32 3 2 0 1 215 (ffInit bigSourceTable) = some st ∧
      loopBody32 3 2 0 1 st = some (true, st') ∧
      bottleneck st.res st'.parent 0 2 1 10000007 = some 1 ∧
      st.maxflow = 2147483647 ∧ st'.maxflow = -2147483648 ∧ st'.maxflow < st.maxflow :=
  ⟨by decide, by decide, by decide, _, _, bigSource_after_215, bigSource_step_216,
    by decide, rfl, rfl, by decide⟩

/-! ## The 32-bit loop: pairs of opposite entries -/

theorem ffInit_pairInv {n : Nat} {adjMatrix : Matrix} (hsq : Square n adjMatrix)
    (hnn : NonNeg adjMatrix) : PairInv n adjMatrix (ffInit adjMatrix) := by
  refine ⟨ffInit_shape hsq, ?_, ?_⟩
  · intro a b _ _; simp only [ffInit, copyMatrix_eq]; exact hnn.rd a b
  · intro a b _ _; simp only [ffInit, copyMatrix_eq]

/-- Under the pair bound an augmentation of the 32-bit loop does not overflow:
it lowers the entry of every edge of the path by the value of the augmentation,
raises the entry of the reversed edge by the same value, and keeps the
invariant. -/
theorem loopBody32_pairInv {n : Nat} {adjMatrix : Matrix} {source sink : Nat}
    {st st' : FFState} {b w : Nat} (hinv : PairInv n adjMatrix st)
    (hpair : ∀ u v, u < n → v < n → rd adjMatrix u v + rd adjMatrix v u ≤ 2147483647)
    (hs : source < n) (ht : sink < n)
    (h : loopBody32 b w source sink st = some (true, st')) :
    PairInv n adjMatrix st' ∧
      ∃ (p : List Nat) (pf : Int), ParentPath st.res st'.parent n source sink p ∧
        bottleneck st.res st'.parent source w sink 10000007 = some pf ∧ 0 < pf ∧
        ∀ a c, a < n → c < n → rd st'.res a c =
          rd st.res a c - (if (a, c) ∈ pathEdges p then pf else 0)
            + (if (c, a) ∈ pathEdges p then pf else 0) := by
  obtain ⟨p, pf, hA, hbot, hcap, _⟩ := loopBody32_augments hinv.shape hs ht h
  have hpos := hA.pos
  have hex : ∀ a c, a < n → c < n → rd st'.res a c =
      rd st.res a c - (if (a, c) ∈ pathEdges p then pf else 0)
        + (if (c, a) ∈ pathEdges p then pf else 0) := by
    intro a c ha hc
    rw [hA.entries a c ha hc]
    have h1 := hinv.nonneg a c ha hc
    have h2 := hinv.nonneg c a hc ha
    have h3 := hinv.pair a c ha hc
    have h4 := hpair a c ha hc
    by_cases hac : (a, c) ∈ pathEdges p
    · have hca := hA.path.pathEdges_asymm hac
      have := hcap (a, c) hac
      simp only at this
      rw [if_pos hac, if_pos hac, if_neg hca, wrap32_eq (by omega) (by omega)]; ring
    · by_cases hca : (c, a) ∈ pathEdges p
      · have := hcap (c, a) hca
        simp only at this
        rw [if_neg hac, if_pos hca, if_neg hac, if_pos hca, wrap32_eq (by omega) (by omega)]
        ring
      · rw [if_neg hac, if_neg hca, if_neg hac, if_neg hca]; ring
  refine ⟨⟨hA.shape, ?_, ?_⟩, p, pf, hA.path, hbot, hpos, hex⟩
  · intro a c ha hc
    rw [hex a c ha hc]
    have h1 := hinv.nonneg a c ha hc
    by_cases hac : (a, c) ∈ pathEdges p
    · have := hcap (a, c) hac
      simp only at this
      rw [if_pos hac]
      split <;> omega
    · rw [if_neg hac]
      split <;> omega
  · intro a c ha hc
    rw [hex a c ha hc, hex c a hc ha, ← hinv.pair a c ha hc]
    ring

theorem ffAfter32_pairInv {n : Nat} {adjMatrix : Matrix} {source sink : Nat} {b w : Nat}
    (hpair : ∀ u v, u < n → v < n → rd adjMatrix u v + rd adjMatrix v u ≤ 2147483647)
    (hs : source < n) (ht : sink < n) (k : Nat) {st st' : FFState}
    (hinv : PairInv n adjMatrix st)
    (h : ffAfter32 b w source sink k st = some st') : PairInv n adjMatrix st' := by
  induction k generalizing st with
  | zero =>
    simp only [ffAfter32, Option.some.injEq] at h
    subst h; exact hinv
  | succ k ih =>
    cases hb : loopBody32 b w source sink st with
    | none => simp [ffAfter32, hb] at h
    | some r =>
      obtain ⟨c, s1⟩ := r
      cases c with
      | false => simp [ffAfter32, hb] at h
      | true =>
        simp only [ffAfter32, hb] at h
        exact ih (loopBody32_pairInv hinv hpair hs ht hb).1 h

theorem ffInit_twoBigEdgesTable : ffInit twoBigEdgesTable =
    { res := [[0, 2147483647], [2147483647, 0]], parent := [-1, -1], maxflow := 0 } := by
  simp [ffInit, copyMatrix_eq, initParent_eq, twoBigEdgesTable]

/-- The first augmentation on `twoBigEdgesTable` from 0 to 1: the path is
`0 → 1`, the value is the sentinel, and `resAdjMatrix[1][0] += pathflow`
overflows. -/
theorem twoBigEdges_after_1 : ffAfter32 2 1 0 1 1 (ffInit twoBigEdgesTable) =
    some { res := [[0, 2137483640], [-2137483642, 0]], parent := [-1, 0],
           maxflow := 10000007 } := by
  rw [ffInit_twoBigEdgesTable]
  simp [ffAfter32, loopBody32, BFS, bfsRun, bfsLoop, bfsInit, scan, scanStep, rd, wr,
    bottleneck, augment32, pushEdge32, parentOf, List.range, List.range.loop, wrap32]

/-- C14, amended: throughout a solve with 32-bit `int` arithmetic on a valid
input in which every pair of opposite capacities sums to at most `2^31 - 1`,
after the initial copy (`k = 0`) and after every augmentation, each pair of
opposite residual entries has the sum of the two capacities; and every
augmentation lowers `resAdjMatrix[u][v]` and raises `resAdjMatrix[v][u]` by the
same `pathflow` on every edge `(u, v)` of the path and leaves every entry that
is neither an edge of the path nor the reverse of one unchanged. -/
theorem C14_pair_sums_and_augmentation (n : Nat) (adjMatrix : Matrix) (source sink : Nat)
    (hsq : Square n adjMatrix) (hnn : NonNeg adjMatrix) (hs : source < n) (ht : sink < n)
    (hpair : ∀ u v, u < n → v < n → rd adjMatrix u v + rd adjMatrix v u ≤ 2147483647) :
    ∀ (b w k : Nat) (st : FFState),
      ffAfter32 b w source sink k (ffInit adjMatrix) = some st →
      (∀ u v, u < n → v < n →
        rd st.res u v + rd st.res v u = rd adjMatrix u v + rd adjMatrix v u) ∧
      ∀ st', loopBody32 b w source sink st = some (true, st') →
        ∃ (p : List Nat) (pathflow : Int),
          ParentPath st.res st'.parent n source sink p ∧
          bottleneck st.res st'.parent source w sink 10000007 = some pathflow ∧
          (∀ u v, (u, v) ∈ pathEdges p →
            rd st'.res u v = rd st.res u v - pathflow ∧
            rd st'.res v u = rd st.res v u + pathflow) ∧
          (∀ u v, u < n → v < n → (u, v) ∉ pathEdges p → (v, u) ∉ pathEdges p →
            rd st'.res u v = rd st.res u v) := by
  intro b w k st h
  have hinv := ffAfter32_pairInv hpair hs ht k (ffInit_pairInv hsq hnn) h
  refine ⟨hinv.pair, ?_⟩
  intro st' hb
  obtain ⟨_, p, pf, hpath, hbot, _, hex⟩ := loopBody32_pairInv hinv hpair hs ht hb
  refine ⟨p, pf, hpath, hbot, ?_, ?_⟩
  · intro u v huv
    have hm := hpath.mem_pathEdges huv
    have hu := hpath.all_lt u hm.1
    have hv := hpath.all_lt v hm.2.1
    have hvu := hpath.pathEdges_asymm huv
    constructor
    · rw [hex u v hu hv, if_pos huv, if_neg hvu]; ring
    · rw [hex v u hv hu, if_neg hvu, if_pos huv]; ring
  · intro u v hu hv h1 h2
    rw [hex u v hu hv, if_neg h1, if_neg h2]; ring

/-- C14 at the example graph, from vertex 0 to vertex 5; the loop does perform
augmentations there. -/
theorem C14_pair_sums_and_augmentation_witness :
    Square 6 FormAdjMatrix ∧ NonNeg FormAdjMatrix ∧
    (∀ u v, u < 6 → v < 6 →
      rd FormAdjMatrix u v + rd FormAdjMatrix v u ≤ 2147483647) ∧
    (ffAfter32 6 5 0 5 4 (ffInit FormAdjMatrix)).isSome = true ∧
    ∀ (b w k : Nat) (st : FFState),
      ffAfter32 b w 0 5 k (ffInit FormAdjMatrix) = some st →
      (∀ u v, u < 6 → v < 6 →
        rd st.res u v + rd st.res v u = rd FormAdjMatrix u v + rd FormAdjMatrix v u) ∧
      ∀ st', loopBody32 b w 0 5 st = some (true, st') →
        ∃ (p : List Nat) (pathflow : Int),
          ParentPath st.res st'.parent 6 0 5 p ∧
          bottleneck st.res st'.parent 0 w 5 10000007 = some pathflow ∧
          (∀ u v, (u, v) ∈ pathEdges p →
            rd st'.res u v = rd st.res u v - pathflow ∧
            rd st'.res v u = rd st.res v u + pathflow) ∧
          (∀ u v, u < 6 → v < 6 → (u, v) ∉ pathEdges p → (v, u) ∉ pathEdges p →
            rd st'.res u v = rd st.res u v) :=
  ⟨by decide, by decide, FormAdjMatrix_pairs, by decide,
    C14_pair_sums_and_augmentation 6 FormAdjMatrix 0 5 (by decide) (by decide) (by decide)
      (by decide) FormAdjMatrix_pairs⟩

/-- C14 as stated fails on the valid input `twoBigEdgesTable` with `source = 0`
and `sink = 1`: the first augmentation, of value `10000007` along `0 → 1`,
leaves `resAdjMatrix[1][0]` at `-2137483642` instead of raising it by
`10000007`, and the two opposite entries then sum to `-2` while the two
capacities sum to `4294967294`. -/
theorem C14_pair_sum_broken_by_overflow :
    Square 2 twoBigEdgesTable ∧ NonNeg twoBigEdgesTable ∧ IntEntries twoBigEdgesTable ∧
    ∃ st, ffAfter32 2 1 0 1 1 (ffInit twoBigEdgesTable) = some st ∧
      rd st.res 0 1 + rd st.res 1 0 = -2 ∧
      rd twoBigEdgesTable 0 1 + rd twoBigEdgesTable 1 0 = 4294967294 ∧
      rd st.res 1 0 ≠ rd twoBigEdgesTable 1 0 + 10000007 :=
  ⟨by decide, by decide, by decide, _, twoBigEdges_after_1, by decide, by decide, by decide⟩

/-- C15, amended: if every entry of `adjMatrix` is non-negative and every pair
of opposite capacities sums to at most `2^31 - 1`, then with 32-bit `int`
arithmetic every entry of the residual table is non-negative after the initial
copy (`k = 0`) and after every augmentation. -/
theorem C15_residual_entries_nonneg (n : Nat) (adjMatrix : Matrix) (source sink : Nat)
    (hsq : Square n adjMatrix) (hnn : NonNeg adjMatrix) (hs : source < n) (ht : sink < n)
    (hpair : ∀ u v, u < n → v < n → rd adjMatrix u v + rd adjMatrix v u ≤ 2147483647) :
    ∀ (b w k : Nat) (st : FFState),
      ffAfter32 b w source sink k (ffInit adjMatrix) = some st →
      NonNeg st.res ∧ ∀ u v, 0 ≤ rd st.res u v := by
  intro b w k st h
  have hinv := ffAfter32_pairInv hpair hs ht k (ffInit_pairInv hsq hnn) h
  have hnn' : NonNeg st.res := nonNeg_of_rd hinv.shape.square hinv.nonneg
  exact ⟨hnn', hnn'.rd⟩

/-- C15 at the example graph, from vertex 0 to vertex 5. -/
theorem C15_residual_entries_nonneg_witness :
    Square 6 FormAdjMatrix ∧ NonNeg FormAdjMatrix ∧
    (∀ u v, u < 6 → v < 6 →
      rd FormAdjMatrix u v + rd FormAdjMatrix v u ≤ 2147483647) ∧
    (ffAfter32 6 5 0 5 4 (ffInit FormAdjMatrix)).isSome = true ∧
    ∀ (b w k : Nat) (st : FFState),
      ffAfter32 b w 0 5 k (ffInit FormAdjMatrix) = some st →
      NonNeg st.res ∧ ∀ u v, 0 ≤ rd st.res u v :=
  ⟨by decide, by decide, FormAdjMatrix_pairs, by decide,
    C15_residual_entries_nonneg 6 FormAdjMatrix 0 5 (by decide) (by decide) (by decide)
      (by decide) FormAdjMatrix_pairs⟩

/-- C15 as stated fails on `twoBigEdgesTable`, whose entries are all
non-negative, with `source = 0` and `sink = 1`: after the first augmentation
`resAdjMatrix[1][0]` is `-2137483642`. -/
theorem C15_entry_negative_after_overflow :
    Square 2 twoBigEdgesTable ∧ NonNeg twoBigEdgesTable ∧ IntEntries twoBigEdgesTable ∧
    ∃ st, ffAfter32 2 1 0 1 1 (ffInit twoBigEdgesTable) = some st ∧
      rd st.res 1 0 = -2137483642 ∧ rd st.res 1 0 < 0 ∧ ¬ NonNeg st.res :=
  ⟨by decide, by decide, by decide, _, twoBigEdges_after_1, by decide, by decide, by decide⟩

/-! ## The 32-bit solve within the bounds -/

theorem ffAfter32_eq {n : Nat} {adjMatrix : Matrix} {source sink : Nat}
    (hfit : Fits32 n adjMatrix source) (hs : source < n) (ht : sink < n)
    (hst : source ≠ sink) (b w k : Nat) (st : FFState)
    (hinv : FlowInv n adjMatrix source sink st) :
    ffAfter32 b w source sink k st = ffAfter b w source sink k st := by
  induction k generalizing st with
  | zero => rfl
  | succ k ih =>
    simp only [ffAfter32, ffAfter, loopBody32_eq hinv hfit hs ht hst]
    cases hb : loopBody b w source sink st with
    | none => rfl
    | some r =>
      obtain ⟨c, st'⟩ := r
      cases c with
      | false => rfl
      | true => exact ih st' (loopBody_sound hinv hs ht hb).1

theorem ffRun32_eq {n : Nat} {adjMatrix : Matrix} {source sink : Nat}
    (hsq : Square n adjMatrix) (hfit : Fits32 n adjMatrix source) (hs : source < n)
    (ht : sink < n) (hst : source ≠ sink) (fuel : Nat) :
    ffRun32 fuel adjMatrix source sink = ffRun fuel adjMatrix source sink :=
  ffLoop32_eq hfit hs ht hst fuel fuel fuel _ (ffInit_inv source sink hsq)

theorem FordFulkerson32_eq {n : Nat} {adjMatrix : Matrix} {source sink : Nat}
    (hsq : Square n adjMatrix) (hfit : Fits32 n adjMatrix source) (hs : source < n)
    (ht : sink < n) (hst : source ≠ sink) (fuel : Nat) :
    FordFulkerson32 fuel adjMatrix source sink = FordFulkerson fuel adjMatrix source sink := by
  rw [FordFulkerson32_eq_map, ffRun32_eq hsq hfit hs ht hst]; rfl

/-! ## A solve that misses the maximum flow -/

theorem twoPathsFlow_feasible : Feasible 6 bigBackEdgeTable 0 5 twoPathsFlow := by
  refine ⟨?_, ?_, ?_⟩
  · intro u v hu hv
    interval_cases u <;> interval_cases v <;> decide
  · intro u v hu hv
    interval_cases u <;> interval_cases v <;> decide
  · intro w hw h0 h5
    interval_cases w <;> first | exact absurd rfl h0 | exact absurd rfl h5 | decide

theorem twoPathsFlow_value : flowValue 6 0 twoPathsFlow = 2 := by
  decide

theorem FordFulkerson32_bigBackEdgeTable :
    FordFulkerson32 6 bigBackEdgeTable 0 5 = some 1 := by
  decide

theorem ffInit_bigBackEdgeTable : ffInit bigBackEdgeTable =
    { res := bigBackEdgeTable, parent := [-1, -1, -1, -1, -1, -1], maxflow := 0 } := by
  simp [ffInit, copyMatrix_eq, initParent_eq, bigBackEdgeTable]

/-- The first augmentation on `bigBackEdgeTable` from 0 to 5: the path is
`0 → 1 → 3 → 5`, the value is 1, and `resAdjMatrix[3][1] += pathflow`
overflows. -/
theorem bigBackEdge_after_1 : ffAfter32 6 5 0 5 1 (ffInit bigBackEdgeTable) =
    some { res := [[0, 0, 1, 0, 0, 0],
                   [1, 0, 0, 0, 1, 0],
                   [0, 0, 0, 1, 0, 0],
                   [0, -2147483648, 0, 0, 0, 0],
                   [0, 0, 0, 0, 0, 1],
                   [0, 0, 0, 1, 0, 0]],
           parent := [-1, 0, 0, 1, 1, 3], maxflow := 1 } := by
  rw [ffInit_bigBackEdgeTable]
  simp [bigBackEdgeTable, ffAfter32, loopBody32, BFS, bfsRun, bfsLoop, bfsInit, scan,
    scanStep, rd, wr, bottleneck, augment32, pushEdge32, parentOf, List.range,
    List.range.loop, wrap32]

theorem bigBackEdge_step_2 : loopBody32 6 5 0 5
      { res := [[0, 0, 1, 0, 0, 0],
                [1, 0, 0, 0, 1, 0],
                [0, 0, 0, 1, 0, 0],
                [0, -2147483648, 0, 0, 0, 0],
                [0, 0, 0, 0, 0, 1],
                [0, 0, 0, 1, 0, 0]],
        parent := [-1, 0, 0, 1, 1, 3], maxflow := 1 } =
    some (false, { res := [[0, 0, 1, 0, 0, 0],
                           [1, 0, 0, 0, 1, 0],
                           [0, 0, 0, 1, 0, 0],
                           [0, -2147483648, 0, 0, 0, 0],
                           [0, 0, 0, 0, 0, 1],
                           [0, 0, 0, 1, 0, 0]],
                   parent := [-1, 0, 0, 2, 1, 3], maxflow := 1 }) := by
  simp [loopBody32, BFS, bfsRun, bfsLoop, bfsInit, scan, scanStep, rd, wr,
    List.range, List.range.loop]

theorem ffRun32_bigBackEdgeTable : ffRun32 6 bigBackEdgeTable 0 5 =
    some { res := [[0, 0, 1, 0, 0, 0],
                   [1, 0, 0, 0, 1, 0],
                   [0, 0, 0, 1, 0, 0],
                   [0, -2147483648, 0, 0, 0, 0],
                   [0, 0, 0, 0, 0, 1],
                   [0, 0, 0, 1, 0, 0]],
           parent := [-1, 0, 0, 2, 1, 3], maxflow := 1 } :=
  @ffLoop32_mono 6 6 5 6 1 6 (le_refl _) (by norm_num) (by norm_num) 0 5 _ _
    (ffLoop32_of_after 1 bigBackEdge_after_1 bigBackEdge_step_2)

/-- The vertices that `BFS` visits in the final residual table of the solve on
`bigBackEdgeTable`. -/
theorem bigBackEdge_final_bfs : bfsRun 6
      [[0, 0, 1, 0, 0, 0],
       [1, 0, 0, 0, 1, 0],
       [0, 0, 0, 1, 0, 0],
       [0, -2147483648, 0, 0, 0, 0],
       [0, 0, 0, 0, 0, 1],
       [0, 0, 0, 1, 0, 0]] 0 [-1, 0, 0, 2, 1, 3] =
    some { q := [], parent := [-1, 0, 0, 2, 1, 3],
           visited := [true, false, true, true, false, false] } := by
  simp [bfsRun, bfsLoop, bfsInit, scan, scanStep, rd, List.range, List.range.loop]

theorem bigSourceTable_pairs (u v : Nat) (hu : u < 3) (hv : v < 3) :
    rd bigSourceTable u v + rd bigSourceTable v u ≤ 2147483647 := by
  interval_cases u <;> interval_cases v <;> decide

theorem zeroFlow_feasible {n : Nat} {adjMatrix : Matrix} (hnn : NonNeg adjMatrix)
    (source sink : Nat) : Feasible n adjMatrix source sink (fun _ _ => 0) :=
  ⟨fun _ _ _ _ => le_refl _, fun u v _ _ => hnn.rd u v, fun _ _ _ _ => rfl⟩

theorem ffRun32_bigSourceTable : ffRun32 216 bigSourceTable 0 1 =
    some { res := [[0, 0, 0], [2147483647, 0, 1], [1, 0, 0]], parent := [-1, 2, 0],
           maxflow := -2147483648 } :=
  @ffLoop32_mono 3 216 2 216 216 216 (by norm_num) (by norm_num) (le_refl _) 0 1 _ _
    (ffLoop32_of_after 216 bigSource_after_216 bigSource_step_217)

/-- The vertices that `BFS` visits in the final residual table of the solve on
`bigSourceTable`. -/
theorem bigSource_final_bfs : bfsRun 3 [[0, 0, 0], [2147483647, 0, 1], [1, 0, 0]] 0
      [-1, 2, 0] =
    some { q := [], parent := [-1, 2, 0], visited := [true, false, false] } := by
  simp [bfsRun, bfsLoop, bfsInit, scan, scanStep, rd, List.range, List.range.loop]

/-- C1, amended: for every `n × n` table of non-negative capacities in which
every pair of opposite capacities sums to at most `2^31 - 1` and the capacities
that leave `source` sum to at most `2^31 - 1`, and every `source ≠ sink` in
`[0, n)`, `FordFulkerson` with 32-bit `int` arithmetic returns a value `r`
(with any sufficient fuel, and no other value with any fuel) that is the
maximum flow value: some feasible flow has value `r` and no feasible flow has a
larger value. -/
theorem C1_FordFulkerson_returns_max_flow (n : Nat) (adjMatrix : Matrix) (source sink : Nat)
    (hsq : Square n adjMatrix) (hnn : NonNeg adjMatrix) (hs : source < n) (ht : sink < n)
    (hst : source ≠ sink)
    (hpair : ∀ u v, u < n → v < n → rd adjMatrix u v + rd adjMatrix v u ≤ 2147483647)
    (hout : rowSum n adjMatrix source ≤ 2147483647) :
    ∃ r : Int,
      (∀ fuel, enoughFuel n adjMatrix source ≤ fuel →
        FordFulkerson32 fuel adjMatrix source sink = some r) ∧
      (∀ fuel r', FordFulkerson32 fuel adjMatrix source sink = some r' → r' = r) ∧
      (∃ f, Feasible n adjMatrix source sink f ∧ flowValue n source f = r) ∧
      (∀ g, Feasible n adjMatrix source sink g → flowValue n source g ≤ r) := by
  have hfit : Fits32 n adjMatrix source := ⟨hnn, hpair, hout⟩
  obtain ⟨r, h1, h2, h3, h4⟩ := unbounded_returns_max_flow n adjMatrix source sink hsq hnn
    hs ht hst
  refine ⟨r, ?_, ?_, h3, h4⟩
  · intro fuel hf
    rw [FordFulkerson32_eq hsq hfit hs ht hst]
    exact h1 fuel hf
  · intro fuel r' hr
    rw [FordFulkerson32_eq hsq hfit hs ht hst] at hr
    exact h2 fuel r' hr

/-- C1 at the example graph, from vertex 0 to vertex 5. -/
theorem C1_FordFulkerson_returns_max_flow_witness :
    Square 6 FormAdjMatrix ∧ NonNeg FormAdjMatrix ∧
    (∀ u v, u < 6 → v < 6 →
      rd FormAdjMatrix u v + rd FormAdjMatrix v u ≤ 2147483647) ∧
    rowSum 6 FormAdjMatrix 0 ≤ 2147483647 ∧
    ∃ r : Int,
      (∀ fuel, enoughFuel 6 FormAdjMatrix 0 ≤ fuel →
        FordFulkerson32 fuel FormAdjMatrix 0 5 = some r) ∧
      (∀ fuel r', FordFulkerson32 fuel FormAdjMatrix 0 5 = some r' → r' = r) ∧
      (∃ f, Feasible 6 FormAdjMatrix 0 5 f ∧ flowValue 6 0 f = r) ∧
      (∀ g, Feasible 6 FormAdjMatrix 0 5 g → flowValue 6 0 g ≤ r) :=
  ⟨by decide, by decide, FormAdjMatrix_pairs, FormAdjMatrix_out_of_0,
    C1_FordFulkerson_returns_max_flow 6 FormAdjMatrix 0 5 (by decide) (by decide)
      (by decide) (by decide) (by decide) FormAdjMatrix_pairs FormAdjMatrix_out_of_0⟩

/-- C1 as stated fails on two valid inputs.  On `bigBackEdgeTable` with
`source = 0` and `sink = 5`, where only the pair bound is exceeded, the first
augmentation overflows `resAdjMatrix[3][1]`, the second call of `BFS` finds no
path, and the value returned is 1 (with every fuel that returns), while the
feasible flow `twoPathsFlow` has value 2.  On `bigSourceTable` with
`source = 0` and `sink = 1`, where only the bound on the capacities that leave
`source` is exceeded, the value returned is `-2^31`, while the zero flow is
feasible and has value 0. -/
theorem C1_overflow_misses_the_maximum_flow :
    (Square 6 bigBackEdgeTable ∧ NonNeg bigBackEdgeTable ∧ IntEntries bigBackEdgeTable ∧
      rowSum 6 bigBackEdgeTable 0 ≤ 2147483647 ∧
      FordFulkerson32 6 bigBackEdgeTable 0 5 = some 1 ∧
      (∀ fuel r, FordFulkerson32 fuel bigBackEdgeTable 0 5 = some r → r = 1) ∧
      ∃ f, Feasible 6 bigBackEdgeTable 0 5 f ∧ flowValue 6 0 f = 2) ∧
    (Square 3 bigSourceTable ∧ NonNeg bigSourceTable ∧ IntEntries bigSourceTable ∧
      (∀ u v, u < 3 → v < 3 →
        rd bigSourceTable u v + rd bigSourceTable v u ≤ 2147483647) ∧
      FordFulkerson32 216 bigSourceTable 0 1 = some (-2147483648) ∧
      ∃ f, Feasible 3 bigSourceTable 0 1 f ∧ flowValue 3 0 f = 0) :=
  ⟨⟨by decide, by decide, by decide, by decide, FordFulkerson32_bigBackEdgeTable,
      fun _ _ hr => FordFulkerson32_fuel_unique hr FordFulkerson32_bigBackEdgeTable,
      twoPathsFlow, twoPathsFlow_feasible, twoPathsFlow_value⟩,
    ⟨by decide, by decide, by decide, bigSourceTable_pairs, FordFulkerson32_bigSourceTable,
      fun _ _ => 0, zeroFlow_feasible (by decide) 0 1, by decide⟩⟩

/-- C2, amended: when the loop of `FordFulkerson` with 32-bit `int` arithmetic
exits on a valid input in which every pair of opposite capacities sums to at
most `2^31 - 1` and the capacities that leave `source` sum to at most
`2^31 - 1`, `sink` is not among the vertices reachable from `source` through
strictly positive entries of the final residual table, the capacity of the cut
around these vertices equals the returned `maxflow`, and no cut that separates
`source` from `sink` has a smaller capacity. -/
theorem C2_final_cut_is_minimum (n : Nat) (adjMatrix : Matrix) (source sink : Nat)
    (hsq : Square n adjMatrix) (hnn : NonNeg adjMatrix) (hs : source < n) (ht : sink < n)
    (hst : source ≠ sink)
    (hpair : ∀ u v, u < n → v < n → rd adjMatrix u v + rd adjMatrix v u ≤ 2147483647)
    (hout : rowSum n adjMatrix source ≤ 2147483647) :
    ∃ st : FFState,
      (∀ fuel, enoughFuel n adjMatrix source ≤ fuel →
        ffRun32 fuel adjMatrix source sink = some st ∧
        FordFulkerson32 fuel adjMatrix source sink = some st.maxflow) ∧
      ¬ Reach st.res n source sink ∧
      (∃ inS : Nat → Bool, (∀ v, inS v = true ↔ Reach st.res n source v) ∧
        inS source = true ∧ inS sink = false ∧ cutCap n adjMatrix inS = st.maxflow) ∧
      (∀ C : Nat → Bool, C source = true → C sink = false →
        st.maxflow ≤ cutCap n adjMatrix C) := by
  have hfit : Fits32 n adjMatrix source := ⟨hnn, hpair, hout⟩
  obtain ⟨st, h1, h2, h3, h4⟩ := unbounded_final_cut_is_minimum n adjMatrix source sink hsq
    hnn hs ht hst
  refine ⟨st, ?_, h2, h3, h4⟩
  intro fuel hf
  rw [ffRun32_eq hsq hfit hs ht hst, FordFulkerson32_eq hsq hfit hs ht hst]
  exact h1 fuel hf

/-- C2 at the example graph, from vertex 0 to vertex 5. -/
theorem C2_final_cut_is_minimum_witness :
    Square 6 FormAdjMatrix ∧ NonNeg FormAdjMatrix ∧
    (∀ u v, u < 6 → v < 6 →
      rd FormAdjMatrix u v + rd FormAdjMatrix v u ≤ 2147483647) ∧
    rowSum 6 FormAdjMatrix 0 ≤ 2147483647 ∧
    ∃ st : FFState,
      (∀ fuel, enoughFuel 6 FormAdjMatrix 0 ≤ fuel →
        ffRun32 fuel FormAdjMatrix 0 5 = some st ∧
        FordFulkerson32 fuel FormAdjMatrix 0 5 = some st.maxflow) ∧
      ¬ Reach st.res 6 0 5 ∧
      (∃ inS : Nat → Bool, (∀ v, inS v = true ↔ Reach st.res 6 0 v) ∧
        inS 0 = true ∧ inS 5 = false ∧ cutCap 6 FormAdjMatrix inS = st.maxflow) ∧
      (∀ C : Nat → Bool, C 0 = true → C 5 = false →
        st.maxflow ≤ cutCap 6 FormAdjMatrix C) :=
  ⟨by decide, by decide, FormAdjMatrix_pairs, FormAdjMatrix_out_of_0,
    C2_final_cut_is_minimum 6 FormAdjMatrix 0 5 (by decide) (by decide)
      (by decide) (by decide) (by decide) FormAdjMatrix_pairs FormAdjMatrix_out_of_0⟩

/-- C2 as stated fails on two valid inputs.  On `bigBackEdgeTable` with
`source = 0` and `sink = 5`, where only the pair bound is exceeded, the loop
exits with `maxflow = 1`; the vertices reachable from 0 through strictly
positive entries of the final residual table are 0, 2 and 3, the cut around
them has capacity `2^31 + 1`, not 1, and every cut that separates 0 from 5 has
a capacity of at least 2.  On `bigSourceTable` with `source = 0` and
`sink = 1`, where only the bound on the capacities that leave `source` is
exceeded, the loop exits with `maxflow = -2^31`, only vertex 0 is reachable,
and the cut around it has capacity `2^31`. -/
theorem C2_cut_of_final_table_is_not_the_result :
    (Square 6 bigBackEdgeTable ∧ NonNeg bigBackEdgeTable ∧ IntEntries bigBackEdgeTable ∧
      rowSum 6 bigBackEdgeTable 0 ≤ 2147483647 ∧
      ∃ (st : FFState) (inS : Nat → Bool),
        ffRun32 6 bigBackEdgeTable 0 5 = some st ∧
        FordFulkerson32 6 bigBackEdgeTable 0 5 = some st.maxflow ∧
        (∀ v, v < 6 → (inS v = true ↔ Reach st.res 6 0 v)) ∧
        st.maxflow = 1 ∧ cutCap 6 bigBackEdgeTable inS = 2147483649 ∧
        ∀ C : Nat → Bool, C 0 = true → C 5 = false →
          st.maxflow < cutCap 6 bigBackEdgeTable C) ∧
    (Square 3 bigSourceTable ∧ NonNeg bigSourceTable ∧ IntEntries bigSourceTable ∧
      (∀ u v, u < 3 → v < 3 →
        rd bigSourceTable u v + rd bigSourceTable v u ≤ 2147483647) ∧
      ∃ (st : FFState) (inS : Nat → Bool),
        ffRun32 216 bigSourceTable 0 1 = some st ∧
        FordFulkerson32 216 bigSourceTable 0 1 = some st.maxflow ∧
        (∀ v, v < 3 → (inS v = true ↔ Reach st.res 3 0 v)) ∧
        st.maxflow = -2147483648 ∧ cutCap 3 bigSourceTable inS = 2147483648) := by
  refine ⟨⟨by decide, by decide, by decide, by decide, _,
    fun v => [true, false, true, true, false, false].getD v false,
    ffRun32_bigBackEdgeTable, FordFulkerson32_of_ffRun32 ffRun32_bigBackEdgeTable, ?_, rfl,
    by decide, ?_⟩,
    ⟨by decide, by decide, by decide, bigSourceTable_pairs, _,
    fun v => [true, false, false].getD v false,
    ffRun32_bigSourceTable, FordFulkerson32_of_ffRun32 ffRun32_bigSourceTable, ?_, rfl,
    by decide⟩⟩
  · intro v hv
    exact (bfsRun_spec rfl (by decide) rfl bigBackEdge_final_bfs).2.1 v hv
  · intro C h0 h5
    have := flowValue_le_cutCap twoPathsFlow_feasible C (by decide) h0 h5
    rw [twoPathsFlow_value] at this
    show (1 : Int) < _
    omega
  · intro v hv
    exact (bfsRun_spec rfl (by decide) rfl bigSource_final_bfs).2.1 v hv

/-- C19, amended: on a valid input in which every pair of opposite capacities
sums to at most `2^31 - 1` and the capacities that leave `source` sum to at
most `2^31 - 1`, with 32-bit `int` arithmetic, after the initial copy
(`k = 0`) and after every augmentation, the residual table encodes a flow of
value `maxflow`: with `f(u, v) = adjMatrix[u][v] - resAdjMatrix[u][v]`, the sum
over `v` of `f(x, v)` is 0 at every vertex `x` other than `source` and `sink`,
the sum over `v` of `f(source, v)` is `maxflow`, and the sum over `v` of
`f(v, sink)` is `maxflow`. -/
theorem C19_residual_encodes_flow (n : Nat) (adjMatrix : Matrix) (source sink : Nat)
    (hsq : Square n adjMatrix) (hnn : NonNeg adjMatrix) (hs : source < n) (ht : sink < n)
    (hst : source ≠ sink)
    (hpair : ∀ u v, u < n → v < n → rd adjMatrix u v + rd adjMatrix v u ≤ 2147483647)
    (hout : rowSum n adjMatrix source ≤ 2147483647) :
    ∀ (b w k : Nat) (st : FFState),
      ffAfter32 b w source sink k (ffInit adjMatrix) = some st →
      (∀ x, x < n → x ≠ source → x ≠ sink →
        ∑ v in Finset.range n, (rd adjMatrix x v - rd st.res x v) = 0) ∧
      ∑ v in Finset.range n, (rd adjMatrix source v - rd st.res source v) = st.maxflow ∧
      ∑ v in Finset.range n, (rd adjMatrix v sink - rd st.res v sink) = st.maxflow := by
  intro b w k st h
  have hfit : Fits32 n adjMatrix source := ⟨hnn, hpair, hout⟩
  rw [ffAfter32_eq hfit hs ht hst b w k _ (ffInit_inv source sink hsq)] at h
  exact unbounded_residual_encodes_flow n adjMatrix source sink hsq hs ht hst b w k st h

/-- C19 at the example graph, from vertex 0 to vertex 5. -/
theorem C19_residual_encodes_flow_witness :
    Square 6 FormAdjMatrix ∧ NonNeg FormAdjMatrix ∧
    (∀ u v, u < 6 → v < 6 →
      rd FormAdjMatrix u v + rd FormAdjMatrix v u ≤ 2147483647) ∧
    rowSum 6 FormAdjMatrix 0 ≤ 2147483647 ∧
    (ffAfter32 6 5 0 5 4 (ffInit FormAdjMatrix)).isSome = true ∧
    ∀ (b w k : Nat) (st : FFState),
      ffAfter32 b w 0 5 k (ffInit FormAdjMatrix) = some st →
      (∀ x, x < 6 → x ≠ 0 → x ≠ 5 →
        ∑ v in Finset.range 6, (rd FormAdjMatrix x v - rd st.res x v) = 0) ∧
      ∑ v in Finset.range 6, (rd FormAdjMatrix 0 v - rd st.res 0 v) = st.maxflow ∧
      ∑ v in Finset.range 6, (rd FormAdjMatrix v 5 - rd st.res v 5) = st.maxflow :=
  ⟨by decide, by decide, FormAdjMatrix_pairs, FormAdjMatrix_out_of_0, by decide,
    C19_residual_encodes_flow 6 FormAdjMatrix 0 5 (by decide) (by decide) (by decide)
      (by decide) (by decide) FormAdjMatrix_pairs FormAdjMatrix_out_of_0⟩

/-- C19 as stated fails on two valid inputs.  On `bigBackEdgeTable` with
`source = 0` and `sink = 5`, where only the pair bound is exceeded, after the
first augmentation, at vertex 3, which is neither `source` nor `sink`, the sum
over `v` of `adjMatrix[3][v] - resAdjMatrix[3][v]` is `2^32`, not 0.  On
`bigSourceTable` with `source = 0` and `sink = 1`, where only the bound on the
capacities that leave `source` is exceeded, after 216 augmentations the sum
over `v` of `adjMatrix[0][v] - resAdjMatrix[0][v]` is `2^31` while `maxflow`
is `-2^31`. -/
theorem C19_overflow_breaks_conservation :
    (Square 6 bigBackEdgeTable ∧ NonNeg bigBackEdgeTable ∧ IntEntries bigBackEdgeTable ∧
      rowSum 6 bigBackEdgeTable 0 ≤ 2147483647 ∧
      ∃ st, ffAfter32 6 5 0 5 1 (ffInit bigBackEdgeTable) = some st ∧
        ∑ v in Finset.range 6, (rd bigBackEdgeTable 3 v - rd st.res 3 v) = 4294967296) ∧
    (Square 3 bigSourceTable ∧ NonNeg bigSourceTable ∧ IntEntries bigSourceTable ∧
      (∀ u v, u < 3 → v < 3 →
        rd bigSourceTable u v + rd bigSourceTable v u ≤ 2147483647) ∧
      ∃ st, ffAfter32 3 2 0 1 216 (ffInit bigSourceTable) = some st ∧
        ∑ v in Finset.range 3, (rd bigSourceTable 0 v - rd st.res 0 v) = 2147483648 ∧
        st.maxflow = -2147483648) :=
  ⟨⟨by decide, by decide, by decide, by decide, _, bigBackEdge_after_1, by decide⟩,
    ⟨by decide, by decide, by decide, bigSourceTable_pairs, _, bigSource_after_216,
      by decide, rfl⟩⟩

/-! ## Successive augmenting paths of the 32-bit loop -/

/-- After an augmentation of the 32-bit loop along the parent path that `BFS`
found, every edge of the new residual table that leaves a vertex visited by
that `BFS` call still goes down by at most one level of that call: an entry
that has become strictly positive is the reverse of an edge of the path,
whether or not the addition overflowed. -/
theorem relax_after_augment32 {n source sink : Nat} {st st' : FFState} {p : List Nat}
    {pf : Int} {bst : BFSState} {d : Nat → Nat}
    (hA : Augments32 n source sink st st' p pf) (hpar : st'.parent = bst.parent)
    (hvis : ∀ x ∈ p, Vis bst x)
    (hlink : ∀ v, v < n → Vis bst v → v ≠ source →
      ∃ u : Nat, bst.parent.getD v (-1) = (u : Int) ∧ u < n ∧ Vis bst u ∧ d v = d u + 1)
    (hrelax : ∀ w, w < n → Vis bst w → ∀ v, v < n → 0 < rd st.res w v →
      Vis bst v ∧ d v ≤ d w + 1) :
    ∀ w, w < n → Vis bst w → ∀ v, v < n → 0 < rd st'.res w v →
      Vis bst v ∧ d v ≤ d w + 1 := by
  intro w hw hwv v hv hpos
  by_cases h0 : 0 < rd st.res w v
  · exact hrelax w hw hwv v hv h0
  · have hent := hA.entries w v hw hv
    have hwv' : (w, v) ∉ pathEdges p := fun hm => h0 (hA.path.mem_pathEdges hm).2.2.2.2
    rw [if_neg hwv'] at hent
    have hmem : (v, w) ∈ pathEdges p := by
      by_contra hn
      rw [if_neg hn] at hent
      omega
    obtain ⟨_, hwp, hws, hpw, _⟩ := hA.path.mem_pathEdges hmem
    obtain ⟨u0, h1, _, h3, h4⟩ := hlink w hw (hvis w hwp) hws
    have : u0 = v := by
      rw [hpar] at hpw
      have := h1.symm.trans hpw
      exact_mod_cast this
    subst this
    exact ⟨h3, by omega⟩

/-- C18: on an `n × n` table with `source` and `sink` in `[0, n)`, with 32-bit
`int` arithmetic, the augmenting paths of two successive iterations of one
solve do not get shorter: the path of the later augmentation has at least as
many vertices, hence at least as many edges, as the path of the earlier one. -/
theorem C18_path_lengths_do_not_decrease (n : Nat) (adjMatrix : Matrix) (source sink : Nat)
    (hsq : Square n adjMatrix) (hs : source < n) (ht : sink < n) :
    ∀ (b w k : Nat) (st0 st1 st2 : FFState),
      ffAfter32 b w source sink k (ffInit adjMatrix) = some st0 →
      loopBody32 b w source sink st0 = some (true, st1) →
      loopBody32 b w source sink st1 = some (true, st2) →
      ∃ p1 p2 : List Nat,
        ParentPath st0.res st1.parent n source sink p1 ∧
        ParentPath st1.res st2.parent n source sink p2 ∧
        (pathEdges p1).length = p1.length - 1 ∧ (pathEdges p2).length = p2.length - 1 ∧
        p1.length - 1 ≤ p2.length - 1 := by
  intro b w k st0 st1 st2 h0 h1 h2
  have hsh0 := ffAfter32_shape hs ht k (ffInit_shape hsq) h0
  have hsh1 := loopBody32_shape hsh0 hs ht h1
  obtain ⟨p1, pf1, hA1, _⟩ := loopBody32_augments hsh0 hs ht h1
  obtain ⟨p2, pf2, hA2, _⟩ := loopBody32_augments hsh1 hs ht h2
  obtain ⟨parent1, _, _, hB, _, _, hst1⟩ := loopBody32_true h1
  obtain ⟨bst, hrun, hb, hp1⟩ := BFS_some hB
  have hpar : st1.parent = bst.parent := by rw [hst1, hp1]
  obtain ⟨_, hreach, _⟩ := bfsRun_spec hsh0.square.1 hs hsh0.plen hrun
  obtain ⟨d, hd0, _, hlink, hrelax⟩ := bfsRun_levels hsh0.square.1 hs hsh0.plen hrun
  have hvs : Vis bst source := (hreach source hs).2 Relation.ReflTransGen.refl
  have hvt : Vis bst sink := hb.symm
  have hpath1 : ParentPath st0.res bst.parent n source sink p1 := hpar ▸ hA1.path
  have hvisp : ∀ x ∈ p1, Vis bst x := fun x hx =>
    (hreach x (hpath1.all_lt x hx)).2 (hpath1.reach_of_mem hx)
  have hlen1 := hpath1.length_eq_depth hd0 hlink hvt
  have hrel := relax_after_augment32 hA1 hpar hvisp hlink hrelax
  have hd := (hA2.path.edgePath.depth_le hvs hd0 hrel).2
  refine ⟨p1, p2, hA1.path, hA2.path, ?_, ?_, by omega⟩
  · simp [pathEdges, List.length_zip]
  · simp [pathEdges, List.length_zip]

/-- C18 at the example graph, from vertex 0 to vertex 5, where the loop performs
four augmentations. -/
theorem C18_path_lengths_do_not_decrease_witness :
    Square 6 FormAdjMatrix ∧ (ffAfter32 6 5 0 5 4 (ffInit FormAdjMatrix)).isSome = true ∧
    ∀ (b w k : Nat) (st0 st1 st2 : FFState),
      ffAfter32 b w 0 5 k (ffInit FormAdjMatrix) = some st0 →
      loopBody32 b w 0 5 st0 = some (true, st1) →
      loopBody32 b w 0 5 st1 = some (true, st2) →
      ∃ p1 p2 : List Nat,
        ParentPath st0.res st1.parent 6 0 5 p1 ∧
        ParentPath st1.res st2.parent 6 0 5 p2 ∧
        (pathEdges p1).length = p1.length - 1 ∧ (pathEdges p2).length = p2.length - 1 ∧
        p1.length - 1 ≤ p2.length - 1 :=
  ⟨by decide, by decide,
    C18_path_lengths_do_not_decrease 6 FormAdjMatrix 0 5 (by decide) (by decide)
      (by decide)⟩

/-! ## Equal endpoints in the 32-bit loop -/

theorem augment32_self (parent : List Int) (s fuel : Nat) (pf : Int) (res : Matrix) :
    augment32 parent s pf fuel s res = some res := by
  cases fuel <;> simp [augment32]

/-- With `sink` equal to `source`, whatever one evaluation of the loop condition
and body produces is an iteration of the loop body with two empty parent walks:
the residual table is as it was and `pathflow` is still the sentinel. -/
theorem loopBody32_self {b w s : Nat} {st : FFState} {r : Bool × FFState}
    (hs : s < st.res.length) (h : loopBody32 b w s s st = some r) :
    ∃ p, BFS b st.res s s st.parent = some (true, p) ∧
      r = (true, { res := st.res, parent := p,
                   maxflow := wrap32 (st.maxflow + 10000007) }) := by
  unfold loopBody32 at h
  cases hB : BFS b st.res s s st.parent with
  | none => simp [hB] at h
  | some bp =>
    obtain ⟨vis, p⟩ := bp
    have := BFS_self hs hB
    subst this
    rw [hB] at h
    simp only [bottleneck_self, augment32_self, Option.some.injEq] at h
    exact ⟨p, rfl, h.symm⟩

theorem loopBody32_self_total {b w s : Nat} {st : FFState} (hs : s < st.res.length)
    (hb : st.res.length ≤ b) :
    ∃ p, BFS b st.res s s st.parent = some (true, p) ∧
      loopBody32 b w s s st =
        some (true, { res := st.res, parent := p,
                      maxflow := wrap32 (st.maxflow + 10000007) }) := by
  obtain ⟨bst, hrun⟩ := bfsRun_total st.parent rfl hs hb
  have hB := BFS_eq s hrun
  have := BFS_self hs hB
  refine ⟨bst.parent, by rw [hB, this], ?_⟩
  unfold loopBody32
  rw [hB, this]
  simp only [bottleneck_self, augment32_self]

theorem ffLoop32_self {b w s : Nat} (fuel : Nat) {st : FFState} (hs : s < st.res.length) :
    ffLoop32 b w s s fuel st = none := by
  induction fuel generalizing st with
  | zero =>
    cases hB : loopBody32 b w s s st with
    | none => simp [ffLoop32, hB]
    | some r =>
      obtain ⟨p, _, rfl⟩ := loopBody32_self hs hB
      simp [ffLoop32, hB]
  | succ fuel ih =>
    cases hB : loopBody32 b w s s st with
    | none => simp [ffLoop32, hB]
    | some r =>
      obtain ⟨p, _, rfl⟩ := loopBody32_self hs hB
      simp only [ffLoop32, hB]
      exact ih hs

theorem FordFulkerson32_self (fuel : Nat) {adjMatrix : Matrix} {s : Nat}
    (hs : s < adjMatrix.length) : FordFulkerson32 fuel adjMatrix s s = none := by
  unfold FordFulkerson32
  rw [ffLoop32_self fuel (by simpa [ffInit, copyMatrix_eq] using hs)]
  rfl

/-- C6, amended: `FordFulkerson` has no check for `source == sink`; the guard is
in the caller.  For a vertex `s` of the table, the first call of `BFS` in
`FordFulkerson(G, s, s)` answers true, so the call is neither rejected nor
ended with 0 before the loop body runs; in that first iteration both parent
walks are empty and the residual table stays the copy of `G`.  Every call that
`main` makes has `source ≠ sink`, both in `[0, 6)`. -/
theorem C6_equal_endpoints_are_left_to_the_caller (adjMatrix : Matrix) (s : Nat)
    (hs : s < adjMatrix.length) :
    (∀ bfsFuel walkFuel : Nat, adjMatrix.length ≤ bfsFuel →
      ∃ (p : List Int) (st' : FFState),
        BFS bfsFuel (ffInit adjMatrix).res s s (ffInit adjMatrix).parent = some (true, p) ∧
        loopBody32 bfsFuel walkFuel s s (ffInit adjMatrix) = some (true, st') ∧
        augment32 p s 10000007 walkFuel s (ffInit adjMatrix).res = some adjMatrix ∧
        st'.res = adjMatrix ∧ st'.parent = p) ∧
    ∀ c ∈ mainCalls, c.1 ≠ c.2 ∧ c.1 < 6 ∧ c.2 < 6 := by
  refine ⟨?_, by decide⟩
  intro b w hb
  have hres : (ffInit adjMatrix).res = adjMatrix := copyMatrix_eq adjMatrix
  obtain ⟨p, hB, hbody⟩ := @loopBody32_self_total b w s (ffInit adjMatrix)
    (by rw [hres]; exact hs) (by rw [hres]; exact hb)
  exact ⟨p, _, hB, hbody, by rw [augment32_self, hres], hres, rfl⟩

/-- C6 at vertex 0 of the example graph. -/
theorem C6_equal_endpoints_are_left_to_the_caller_witness :
    0 < FormAdjMatrix.length ∧
    (∀ bfsFuel walkFuel : Nat, FormAdjMatrix.length ≤ bfsFuel →
      ∃ (p : List Int) (st' : FFState),
        BFS bfsFuel (ffInit FormAdjMatrix).res 0 0 (ffInit FormAdjMatrix).parent
          = some (true, p) ∧
        loopBody32 bfsFuel walkFuel 0 0 (ffInit FormAdjMatrix) = some (true, st') ∧
        augment32 p 0 10000007 walkFuel 0 (ffInit FormAdjMatrix).res = some FormAdjMatrix ∧
        st'.res = FormAdjMatrix ∧ st'.parent = p) ∧
    ∀ c ∈ mainCalls, c.1 ≠ c.2 ∧ c.1 < 6 ∧ c.2 < 6 :=
  ⟨by decide, C6_equal_endpoints_are_left_to_the_caller FormAdjMatrix 0 (by decide)⟩

/-- C6 as stated fails on the example graph with `source = sink = 0`: the first
evaluation of the loop condition holds and the loop body runs, leaving
`maxflow` at `10000007`, and no amount of fuel makes the call return 0. -/
theorem C6_example_does_not_return_zero :
    (∃ st, loopBody32 6 5 0 0 (ffInit FormAdjMatrix) = some (true, st) ∧
      st.maxflow = 10000007) ∧
    ¬ ∃ fuel, FordFulkerson32 fuel FormAdjMatrix 0 0 = some 0 := by
  refine ⟨?_, ?_⟩
  · obtain ⟨p, _, hp⟩ := @loopBody32_self_total 6 5 0 (ffInit FormAdjMatrix)
      (by decide) (by decide)
    exact ⟨_, hp,
      show wrap32 ((ffInit FormAdjMatrix).maxflow + 10000007) = 10000007 by decide⟩
  · rintro ⟨fuel, h⟩
    rw [FordFulkerson32_self fuel (by decide)] at h
    exact Option.noConfusion h

/-! ## Arguments that are not validated -/

theorem scanStepChecked_ok {res : Matrix} {u v : Nat} {st st' : BFSState}
    (h : scanStepChecked res u st v = Access.ok st') : st' = scanStep res u st v := by
  unfold scanStepChecked at h
  unfold scanStep
  split at h
  · split at h
    · rename_i hc
      split at h
      · rw [if_pos hc]
        exact (Access.ok.inj h).symm
      · exact Access.noConfusion h
    · rename_i hc
      rw [if_neg hc]
      exact (Access.ok.inj h).symm
  · exact Access.noConfusion h

theorem scanChecked_succ (res : Matrix) (u i : Nat) (st : BFSState) :
    scanChecked res (i + 1) u st =
      match scanChecked res i u st with
      | Access.ok s => scanStepChecked res u s i
      | Access.outOfBounds => Access.outOfBounds := by
  unfold scanChecked
  rw [List.range_succ, List.foldl_append]
  rfl

theorem scanChecked_ok {res : Matrix} {u : Nat} (i : Nat) {st st' : BFSState}
    (h : scanChecked res i u st = Access.ok st') : st' = scan res i u st := by
  induction i generalizing st' with
  | zero =>
    exact (Access.ok.inj h).symm
  | succ i ih =>
    rw [scanChecked_succ] at h
    rw [scan_eq_foldl_succ]
    cases hs : scanChecked res i u st with
    | outOfBounds => rw [hs] at h; exact Access.noConfusion h
    | ok s =>
      rw [hs] at h
      rw [← ih hs]
      exact scanStepChecked_ok h

/-- A checked run of the while loop that meets no access out of bounds is the
run of `bfsLoop`. -/
theorem bfsLoopChecked_ok {res : Matrix} {n : Nat} (fuel : Nat) {st st' : BFSState}
    (h : bfsLoopChecked res n fuel st = some (Access.ok st')) :
    bfsLoop res n fuel st = some st' := by
  induction fuel generalizing st with
  | zero =>
    cases hq : st.q with
    | nil =>
      simp only [bfsLoopChecked, hq, Option.some.injEq] at h
      have e := Access.ok.inj h
      subst e
      simp only [bfsLoop, hq]
    | cons u rest => simp [bfsLoopChecked, hq] at h
  | succ fuel ih =>
    cases hq : st.q with
    | nil =>
      simp only [bfsLoopChecked, hq, Option.some.injEq] at h
      have e := Access.ok.inj h
      subst e
      simp only [bfsLoop, hq]
    | cons u rest =>
      simp only [bfsLoopChecked, hq] at h
      simp only [bfsLoop, hq]
      cases hs : scanChecked res n u { st with q := rest } with
      | outOfBounds => rw [hs] at h; simp at h
      | ok s =>
        rw [hs] at h
        rw [← scanChecked_ok n hs]
        exact ih h

/-- The checked while loop ends, with or without an access out of bounds, as
soon as the fuel reaches the measure. -/
theorem bfsLoopChecked_total (res : Matrix) (n : Nat) (fuel : Nat) (st : BFSState)
    (hl : st.visited.length = n) (hm : bfsMeasure st ≤ fuel) :
    ∃ r, bfsLoopChecked res n fuel st = some r := by
  induction fuel generalizing st with
  | zero =>
    cases hq : st.q with
    | nil => exact ⟨Access.ok st, by simp [bfsLoopChecked, hq]⟩
    | cons u rest => simp [bfsMeasure, hq] at hm
  | succ fuel ih =>
    cases hq : st.q with
    | nil => exact ⟨Access.ok st, by simp [bfsLoopChecked, hq]⟩
    | cons u rest =>
      simp only [bfsLoopChecked, hq]
      cases hs : scanChecked res n u { st with q := rest } with
      | outOfBounds => exact ⟨_, rfl⟩
      | ok s =>
        have hs' := scanChecked_ok n hs
        simp only
        apply ih
        · rw [hs', scan_vlen]; exact hl
        · rw [hs', scan_measure _ _ _ _ (by simp [hl])]
          simp only [bfsMeasure, hq, List.length_cons] at hm ⊢
          omega

/-- A checked call of `BFS` that meets no access out of bounds is the call of
`BFS`. -/
theorem BFSChecked_ok {fuel : Nat} {res : Matrix} {source sink : Int} {parent : List Int}
    {r : Bool × List Int} (h : BFSChecked fuel res source sink parent = some (Access.ok r)) :
    BFS fuel res source.toNat sink.toNat parent = some r := by
  unfold BFSChecked at h
  split at h
  · cases hl : bfsLoopChecked res res.length fuel (bfsInit res source.toNat parent) with
    | none => simp [hl] at h
    | some a =>
      cases a with
      | outOfBounds => simp [hl] at h
      | ok st =>
        rw [hl] at h
        simp only at h
        split at h
        · simp only [Option.some.injEq] at h
          unfold BFS bfsRun
          rw [bfsLoopChecked_ok fuel hl, ← Access.ok.inj h]
          rfl
        · simp at h
  · simp at h

theorem scanStepChecked_eq {res : Matrix} {n source u i : Nat} {st : BFSState}
    (hsq : Square n res) (h : ScanInv res n source u i st) (hi : i < n) :
    scanStepChecked res u st i = Access.ok (scanStep res u st i) := by
  have hrow : (res.getD u []).length = n := hsq.row_length h.ult
  have hc : u < res.length ∧ i < (res.getD u []).length ∧ i < st.visited.length := by
    rw [hsq.1, hrow, h.inv.vlen]; exact ⟨h.ult, hi, hi⟩
  have hp : i < st.parent.length := by rw [h.inv.plen]; exact hi
  unfold scanStepChecked scanStep
  rw [if_pos hc]
  by_cases hcc : st.visited.getD i false = false ∧ rd res u i > 0
  · rw [if_pos hcc, if_pos hp, if_pos hcc]
  · rw [if_neg hcc, if_neg hcc]

theorem scanChecked_eq {res : Matrix} {n source u : Nat} {st : BFSState}
    (hsq : Square n res) (h : ScanInv res n source u 0 st) (i : Nat) (hi : i ≤ n) :
    scanChecked res i u st = Access.ok (scan res i u st) := by
  induction i with
  | zero => rfl
  | succ i ih =>
    rw [scanChecked_succ, ih (by omega), scan_eq_foldl_succ]
    exact scanStepChecked_eq hsq (scan_inv h i (by omega)) (by omega)

/-- On a square table, from a state that satisfies the invariant of the while
loop, no access of the loop is out of bounds: the checked loop is `bfsLoop`. -/
theorem bfsLoopChecked_eq {res : Matrix} {n source : Nat} (hsq : Square n res)
    (fuel : Nat) {st : BFSState} (hinv : BFSInv res n source st) (hcl : Closed res n st) :
    bfsLoopChecked res n fuel st = (bfsLoop res n fuel st).map Access.ok := by
  induction fuel generalizing st with
  | zero =>
    cases hq : st.q with
    | nil => simp [bfsLoopChecked, bfsLoop, hq]
    | cons u rest => simp [bfsLoopChecked, bfsLoop, hq]
  | succ fuel ih =>
    cases hq : st.q with
    | nil => simp [bfsLoopChecked, bfsLoop, hq]
    | cons u rest =>
      simp only [bfsLoopChecked, bfsLoop, hq]
      have hu := hinv.qvis u (by rw [hq]; exact List.mem_cons_self _ _)
      have h0 : ScanInv res n source u 0 { st with q := rest } := by
        refine ⟨⟨hinv.vlen, hinv.plen, hinv.srclt, hinv.src, ?_, hinv.chain⟩, hu.1, hu.2, ?_, ?_⟩
        · intro v hv
          exact hinv.qvis v (by rw [hq]; exact List.mem_cons_of_mem _ hv)
        · intro w hw hvis hnq hwu v hv hpos
          apply hcl w hw hvis _ v hv hpos
          rw [hq]
          intro hm
          rcases List.mem_cons.1 hm with e | hm
          · exact hwu e
          · exact hnq hm
        · intro v hv; omega
      have hn := scan_inv h0 n (le_refl n)
      rw [scanChecked_eq hsq h0 n (le_refl n)]
      simp only
      apply ih hn.inv
      intro w hw hvis hnq v hv hpos
      by_cases hwu : w = u
      · subst hwu; exact hn.done v hv hpos
      · exact hn.others w hw hvis hnq hwu v hv hpos

/-- On a square table of `n` rows, with a parent vector of `n` entries and
`source` and `sink` in `[0, n)`, no access of `BFS` is out of bounds: the
checked call is the call of `BFS`. -/
theorem BFSChecked_eq {n : Nat} {res : Matrix} {parent : List Int} (hsq : Square n res)
    (hp : parent.length = n) {source sink : Nat} (hs : source < n) (ht : sink < n)
    (fuel : Nat) :
    BFSChecked fuel res source sink parent =
      (BFS fuel res source sink parent).map Access.ok := by
  obtain ⟨hi, hc⟩ := bfsInit_inv res n source parent hsq.1 hs hp
  have hcond : (0 : Int) ≤ source ∧ (source : Int) < res.length ∧
      (source : Int) < parent.length := by
    rw [hsq.1, hp]; omega
  have hsink : (0 : Int) ≤ sink ∧ (sink : Int) < res.length := by
    rw [hsq.1]; omega
  unfold BFSChecked BFS bfsRun
  rw [if_pos hcond, Int.toNat_ofNat, hsq.1, bfsLoopChecked_eq hsq fuel hi hc]
  cases bfsLoop res n fuel (bfsInit res source parent) with
  | none => rfl
  | some st =>
    simp only [Option.map_some']
    rw [if_pos (by rw [← hsq.1]; exact hsink), Int.toNat_ofNat]

/-- With `source` or `sink` outside `[0, n)` a call of `BFS` on a table of `n`
rows and a parent vector of `n` entries indexes a vector out of bounds. -/
theorem BFSChecked_out_of_range {fuel : Nat} {res : Matrix} {parent : List Int} {n : Nat}
    (hn : res.length = n) (hf : n ≤ fuel) (source sink : Int)
    (h : ¬ (0 ≤ source ∧ source < n ∧ 0 ≤ sink ∧ sink < n)) :
    BFSChecked fuel res source sink parent = some Access.outOfBounds := by
  unfold BFSChecked
  split
  · rename_i hc
    obtain ⟨h0, h1, _⟩ := hc
    rw [hn] at h1
    have hs : source.toNat < n := by omega
    obtain ⟨r, hr⟩ := bfsLoopChecked_total res res.length fuel (bfsInit res source.toNat parent)
      (by simp [bfsInit]) (by rw [bfsInit_measure res n _ parent hn hs]; exact hf)
    rw [hr]
    cases r with
    | outOfBounds => rfl
    | ok st =>
      simp only
      rw [if_neg]
      rw [hn]
      intro hk
      exact h ⟨h0, h1, hk.1, hk.2⟩
  · rfl

/-- C7, amended: `FordFulkerson` validates none of its arguments and reports no
failure.  On an `n × n` table of `int` entries, some of which may be negative,
and `source ≠ sink` in `[0, n)`, the solve with 32-bit `int` arithmetic
proceeds and returns a value `r`; when the positive capacities that leave
`source` sum to at most `2^31 - 1`, `0 ≤ r` and `r` is at most that sum.  That
`source` and `sink` lie in `[0, n)` is left to the caller: with either of them
outside `[0, n)`, the first call of `BFS` indexes a vector out of bounds. -/
theorem C7_arguments_are_not_validated (n : Nat) (adjMatrix : Matrix)
    (hsq : Square n adjMatrix) (hint : IntEntries adjMatrix) :
    (∀ source sink : Nat, source < n → sink < n → source ≠ sink →
      ∃ r : Int,
        (∀ fuel, enoughFuel n adjMatrix source ≤ fuel →
          FordFulkerson32 fuel adjMatrix source sink = some r) ∧
        (capOut n adjMatrix source ≤ 2147483647 →
          0 ≤ r ∧ r ≤ capOut n adjMatrix source)) ∧
    ∀ (source sink : Int) (fuel : Nat), n ≤ fuel →
      ¬ (0 ≤ source ∧ source < n ∧ 0 ≤ sink ∧ sink < n) →
      BFSChecked fuel (ffInit adjMatrix).res source sink (ffInit adjMatrix).parent
        = some Access.outOfBounds := by
  refine ⟨?_, ?_⟩
  · intro source sink hs ht hst
    have hrow : ∀ v, v < n → rd adjMatrix source v ≤ 2147483647 := fun v _ =>
      (hint.rd_range source v).2
    obtain ⟨st, hinv, _, _, hrun, _⟩ := solve32_spec hsq hrow hs ht hst
    refine ⟨st.maxflow, fun fuel hf => FordFulkerson32_of_ffRun32 (hrun fuel hf), ?_⟩
    intro hcap
    obtain ⟨h0, h1⟩ := sentOut_bounds hinv
    rw [hinv.flow, wrap32_eq (by omega) (by omega)]
    exact ⟨h0, h1⟩
  · intro source sink fuel hf h
    exact BFSChecked_out_of_range (by simp only [ffInit, copyMatrix_eq]; exact hsq.1) hf
      source sink h

/-- C7 at a 2 × 2 table with the negative entry `-3`. -/
theorem C7_arguments_are_not_validated_witness :
    Square 2 [[0, 5], [-3, 0]] ∧ IntEntries [[0, 5], [-3, 0]] ∧
    ¬ NonNeg [[0, 5], [-3, 0]] ∧
    (∀ source sink : Nat, source < 2 → sink < 2 → source ≠ sink →
      ∃ r : Int,
        (∀ fuel, enoughFuel 2 [[0, 5], [-3, 0]] source ≤ fuel →
          FordFulkerson32 fuel [[0, 5], [-3, 0]] source sink = some r) ∧
        (capOut 2 [[0, 5], [-3, 0]] source ≤ 2147483647 →
          0 ≤ r ∧ r ≤ capOut 2 [[0, 5], [-3, 0]] source)) ∧
    ∀ (source sink : Int) (fuel : Nat), 2 ≤ fuel →
      ¬ (0 ≤ source ∧ source < (2 : Nat) ∧ 0 ≤ sink ∧ sink < (2 : Nat)) →
      BFSChecked fuel (ffInit [[0, 5], [-3, 0]]).res source sink
        (ffInit [[0, 5], [-3, 0]]).parent = some Access.outOfBounds :=
  ⟨by decide, by decide, by decide,
    C7_arguments_are_not_validated 2 [[0, 5], [-3, 0]] (by decide) (by decide)⟩

/-- C7 as stated fails: on the table `[[0, 5], [-3, 0]]`, which has the negative
entry `adjMatrix[1][0] = -3`, the call with `source = 0` and `sink = 1` returns
the flow value 5; and on the example graph with `sink = 6`, outside `[0, 6)`,
the first call of `BFS` runs its loop and then reads `visited[6]` out of
bounds, no failure having been reported. -/
theorem C7_negative_entry_returns_value :
    rd [[0, 5], [-3, 0]] 1 0 < 0 ∧ FordFulkerson32 2 [[0, 5], [-3, 0]] 0 1 = some 5 ∧
    BFSChecked 6 (ffInit FormAdjMatrix).res 0 6 (ffInit FormAdjMatrix).parent
      = some Access.outOfBounds :=
  ⟨by decide, by decide,
    @BFSChecked_out_of_range 6 _ _ 6 (by decide) (le_refl _) 0 6 (by decide)⟩

/-! ## The caller's table during a call -/

theorem frameBody_eq (b w : Nat) (c : Caller) (st : FFState) :
    frameBody b w (Frame.of c st) =
      (loopBody32 b w c.source c.sink st).map (fun r => (r.1, Frame.of c r.2)) := by
  unfold frameBody loopBody32 Frame.of
  simp only
  cases BFS b st.res c.source c.sink st.parent with
  | none => rfl
  | some bp =>
    obtain ⟨vis, parent'⟩ := bp
    cases vis with
    | false => rfl
    | true =>
      simp only
      cases bottleneck st.res parent' c.source w c.sink 10000007 with
      | none => rfl
      | some pf =>
        simp only
        cases augment32 parent' c.source pf w c.sink st.res with
        | none => rfl
        | some R => rfl

theorem frameLoop_eq (b w fuel : Nat) (c : Caller) (st : FFState) :
    frameLoop b w fuel (Frame.of c st) =
      (ffLoop32 b w c.source c.sink fuel st).map (Frame.of c) := by
  induction fuel generalizing st with
  | zero =>
    simp only [frameLoop, ffLoop32, frameBody_eq]
    cases loopBody32 b w c.source c.sink st with
    | none => rfl
    | some r =>
      obtain ⟨cond, st'⟩ := r
      cases cond <;> rfl
  | succ fuel ih =>
    simp only [frameLoop, ffLoop32, frameBody_eq]
    cases loopBody32 b w c.source c.sink st with
    | none => rfl
    | some r =>
      obtain ⟨cond, st'⟩ := r
      cases cond with
      | false => rfl
      | true => exact ih st'

theorem frameInit_eq (c : Caller) : frameInit c = Frame.of c (ffInit c.adjMatrix) := rfl

/-- A call leaves the caller's objects as they were and returns what
`FordFulkerson32` computes from them. -/
theorem FordFulkersonCall_eq (fuel : Nat) (c : Caller) :
    FordFulkersonCall fuel c =
      (FordFulkerson32 fuel c.adjMatrix c.source c.sink).map (fun r => (c, r)) := by
  unfold FordFulkersonCall FordFulkerson32
  rw [frameInit_eq, frameLoop_eq]
  cases ffLoop32 fuel fuel c.source c.sink fuel (ffInit c.adjMatrix) <;> rfl

/-- C8: `FordFulkerson` works on `resAdjMatrix`, which it fills as an exact copy
of `adjMatrix` (same dimensions, same values), and never writes to `adjMatrix`.
On a valid input the call returns; whenever it returns, the caller holds the
same `adjMatrix`, `source` and `sink` as before the call; and two successive
calls return the same value. -/
theorem C8_copy_and_repeat (n : Nat) (adjMatrix : Matrix) (source sink : Nat)
    (hsq : Square n adjMatrix) (hint : IntEntries adjMatrix) (hs : source < n)
    (ht : sink < n) (hst : source ≠ sink) :
    (frameInit ⟨adjMatrix, source, sink⟩).resAdjMatrix = adjMatrix ∧
    (frameInit ⟨adjMatrix, source, sink⟩).caller.adjMatrix = adjMatrix ∧
    (∀ fuel c' r, FordFulkersonCall fuel ⟨adjMatrix, source, sink⟩ = some (c', r) →
      c' = ⟨adjMatrix, source, sink⟩ ∧
      FordFulkerson32 fuel adjMatrix source sink = some r) ∧
    (∀ fuel r1 r2, twoCalls fuel ⟨adjMatrix, source, sink⟩ = some (r1, r2) → r1 = r2) ∧
    ∃ r : Int, ∀ fuel, enoughFuel n adjMatrix source ≤ fuel →
      FordFulkersonCall fuel ⟨adjMatrix, source, sink⟩
        = some (⟨adjMatrix, source, sink⟩, r) ∧
      twoCalls fuel ⟨adjMatrix, source, sink⟩ = some (r, r) := by
  have hrow : ∀ v, v < n → rd adjMatrix source v ≤ 2147483647 := fun v _ =>
    (hint.rd_range source v).2
  obtain ⟨st, _, _, _, hrun, _⟩ := solve32_spec hsq hrow hs ht hst
  refine ⟨copyMatrix_eq adjMatrix, rfl, ?_, ?_, st.maxflow, ?_⟩
  · intro fuel c' r h
    rw [FordFulkersonCall_eq] at h
    cases hr : FordFulkerson32 fuel adjMatrix source sink with
    | none => simp [hr] at h
    | some x =>
      simp only [hr, Option.map_some', Option.some.injEq, Prod.mk.injEq] at h
      exact ⟨h.1.symm, by rw [h.2]⟩
  · intro fuel r1 r2 h
    unfold twoCalls at h
    rw [FordFulkersonCall_eq] at h
    cases hr : FordFulkerson32 fuel adjMatrix source sink with
    | none => simp [hr] at h
    | some x =>
      simp only [hr, Option.map_some', FordFulkersonCall_eq, Option.some.injEq,
        Prod.mk.injEq] at h
      omega
  · intro fuel hf
    have hr := FordFulkerson32_of_ffRun32 (hrun fuel hf)
    have hcall : FordFulkersonCall fuel ⟨adjMatrix, source, sink⟩
        = some (⟨adjMatrix, source, sink⟩, st.maxflow) := by
      rw [FordFulkersonCall_eq]
      simp only [hr, Option.map_some']
    refine ⟨hcall, ?_⟩
    unfold twoCalls
    simp only [hcall]

/-- C8 at the example graph, from vertex 0 to vertex 5. -/
theorem C8_copy_and_repeat_witness :
    Square 6 FormAdjMatrix ∧ IntEntries FormAdjMatrix ∧
    twoCalls 6 ⟨FormAdjMatrix, 0, 5⟩ = some (24, 24) ∧
    (frameInit ⟨FormAdjMatrix, 0, 5⟩).resAdjMatrix = FormAdjMatrix ∧
    (frameInit ⟨FormAdjMatrix, 0, 5⟩).caller.adjMatrix = FormAdjMatrix ∧
    (∀ fuel c' r, FordFulkersonCall fuel ⟨FormAdjMatrix, 0, 5⟩ = some (c', r) →
      c' = ⟨FormAdjMatrix, 0, 5⟩ ∧
      FordFulkerson32 fuel FormAdjMatrix 0 5 = some r) ∧
    (∀ fuel r1 r2, twoCalls fuel ⟨FormAdjMatrix, 0, 5⟩ = some (r1, r2) → r1 = r2) ∧
    ∃ r : Int, ∀ fuel, enoughFuel 6 FormAdjMatrix 0 ≤ fuel →
      FordFulkersonCall fuel ⟨FormAdjMatrix, 0, 5⟩ = some (⟨FormAdjMatrix, 0, 5⟩, r) ∧
      twoCalls fuel ⟨FormAdjMatrix, 0, 5⟩ = some (r, r) :=
  ⟨by decide, by decide, by decide,
    C8_copy_and_repeat 6 FormAdjMatrix 0 5 (by decide) (by decide) (by decide) (by decide)
      (by decide)⟩

/-! ## The example graph with 32-bit arithmetic -/

theorem FordFulkerson32_example_0_5 : FordFulkerson32 6 FormAdjMatrix 0 5 = some 24 := by
  decide

theorem FordFulkerson32_example_5_0 : FordFulkerson32 6 FormAdjMatrix 5 0 = some 0 := by
  decide

end MaxFlow
